import Mathlib

/-!
Verification of the activation CPU-offload engine
(transformer_engine/pytorch/cpu_offload.py).

This file gives a shallow embedding of the offload engine.  Python objects
are modelled by value: a plain tensor carries an object identity (tid), its
bit content (data), its device, and the dynamic attributes the engine reads
or writes (activation_offloading, needs_force_clear, _do_not_clear).
Composite quantized tensors (QuantizedTensorBase, concretely
MXFP8TensorBase from mxfp8_tensor_base.py) live in a heap keyed by an
object identity, so that aliasing (the same composite pushed twice) is
observable.  Python dicts are insertion-ordered association lists.
Operations that can raise (assert, KeyError, IndexError, AttributeError)
return Option, with none standing for the raised exception.
-/

/-- Insertion-ordered association-list lookup (first match), modelling
Python dict access. -/
def alookup {α β : Type} [DecidableEq α] : List (α × β) → α → Option β
  | [], _ => none
  | (k', v') :: rest, k => if k' = k then some v' else alookup rest k

/-- Python dict assignment: update the value in place if the key is
present (keeping its position), otherwise append at the end. -/
def ainsert {α β : Type} [DecidableEq α] : List (α × β) → α → β → List (α × β)
  | [], k, v => [(k, v)]
  | (k', v') :: rest, k, v =>
      if k' = k then (k, v) :: rest else (k', v') :: ainsert rest k v

/-- Python dict.pop(k): remove the (first) binding of the key. -/
def aremove {α β : Type} [DecidableEq α] : List (α × β) → α → List (α × β)
  | [], _ => []
  | (k', v') :: rest, k => if k' = k then rest else (k', v') :: aremove rest k

/-- Python `k in d` membership test. -/
def amem {α β : Type} [DecidableEq α] (m : List (α × β)) (k : α) : Bool :=
  (alookup m k).isSome

/-- Device identity: host (cpu) or an accelerator index. -/
inductive Device where
  | cpu : Device
  | cuda : Nat → Device
deriving DecidableEq, Repr

/-- A plain torch.Tensor, modelled by value.  tid is the Python object
identity; data is the bit content of its storage; the three Bool
attributes model the dynamic attributes set by the engine
(hasattr is modelled as the attribute being true, since the source only
ever sets them to True). isStray marks FakeTensor / FunctionalTensor
instances. -/
structure PTensor where
  tid : Nat
  data : List Int
  dev : Device
  pinned : Bool
  activation_offloading : Bool
  needs_force_clear : Bool
  do_not_clear : Bool
  isStray : Bool
deriving DecidableEq, Repr

/-- One element of a composite's saved-tensor list: None, a live tensor,
or the (origin device, host copy) pair produced by offload. -/
inductive Entry where
  | noneE : Entry
  | tens : PTensor → Entry
  | offd : Device → PTensor → Entry
deriving DecidableEq, Repr

/-- A composite quantized tensor (QuantizedTensorBase).  slots are the
underlying data fields handed out by prepare_for_saving (for
MXFP8TensorBase: rowwise data, columnwise data and the two scale
inverses).  isFloat8 marks the Float8Tensor subkind, which carries the
transposeInvalid flag read and written by the offload handler.
restoreCount is ghost instrumentation counting restore_from_saved calls;
the source never reads it. -/
structure Composite where
  slots : List Entry
  isFloat8 : Bool
  transposeInvalid : Bool
  do_not_clear : Bool
  restoreCount : Nat
deriving DecidableEq, Repr

/-- prepare_for_saving (mxfp8_tensor_base.py lines 115-127): return the
underlying tensor list and detach every field (set to None). -/
def prepare_for_saving (c : Composite) : List Entry × Composite :=
  (c.slots, { c with slots := List.replicate c.slots.length Entry.noneE })

/-- restore_from_saved (mxfp8_tensor_base.py lines 129-137): re-attach the
saved list to the fields.  The ghost restoreCount is incremented. -/
def restore_from_saved (c : Composite) (ts : List Entry) : Composite :=
  { c with slots := ts, restoreCount := c.restoreCount + 1 }

/-- clear (mxfp8_tensor_base.py lines 93-102): replace the storage of
every non-None field with an empty tensor. -/
def composite_clear (c : Composite) : Composite :=
  { c with slots := c.slots.map fun e =>
      match e with
      | Entry.tens t => Entry.tens { t with data := [] }
      | e => e }

/-- A tensor tag: (group id, sequence number).  The group id is -1 for
stray tensors. -/
abbrev Tag := Int × Nat

/-- SynchronizedGroupOffloadHandler.offload (cpu_offload.py 242-256):
allocate a pinned host buffer of the same size, copy the source into it
and return the (origin device, host copy) state.  nid is the fresh-object
counter. -/
def offload (nid : Nat) (src : PTensor) (pin_memory : Bool) :
    (Device × PTensor) × Nat :=
  ((src.dev,
    { tid := nid, data := src.data, dev := Device.cpu, pinned := pin_memory,
      activation_offloading := false, needs_force_clear := false,
      do_not_clear := false, isStray := false }), nid + 1)

/-- SynchronizedGroupOffloadHandler.reload (cpu_offload.py 258-272): with
no copy buffer, allocate a fresh tensor on the origin device and copy the
host backup into it; with a copy buffer, assert equal sizes and copy into
the buffer (returning the buffer object itself).  The non_blocking flag
has no semantic content in this model. -/
def reload (nid : Nat) (state : Device × PTensor) (_nonBlocking : Option Bool)
    (copyBuffer : Option PTensor) : Option (PTensor × Nat) :=
  match copyBuffer with
  | none =>
      some ({ tid := nid, data := state.2.data, dev := state.1, pinned := false,
              activation_offloading := false, needs_force_clear := false,
              do_not_clear := false, isStray := false }, nid + 1)
  | some buf =>
      if state.2.data.length = buf.data.length then
        some ({ buf with data := state.2.data }, nid)
      else
        none

/-- Slot state of the synchronous handler: either the eviction tuple or
the stored tensor itself. -/
inductive SyncSlot where
  | offd : Device → PTensor → SyncSlot
  | tens : PTensor → SyncSlot
deriving DecidableEq, Repr

/-- State of SynchronizedGroupOffloadHandler (cpu_offload.py 204-299).
The need-offload checker is passed to the operations as a function
argument rather than stored, keeping the state first-order. -/
structure SyncState where
  num_offload_group : Nat
  current_group : Int
  tensor_count_current_group : Nat
  torch_tensor_count : Nat
  tensor_tag_to_state : List (Tag × SyncSlot)
  nextId : Nat
deriving DecidableEq, Repr

/-- SynchronizedGroupOffloadHandler construction (lines 210-229). -/
def sync_init (num_offload_group : Nat) (nid : Nat) : SyncState :=
  { num_offload_group := num_offload_group, current_group := 0,
    tensor_count_current_group := 0, torch_tensor_count := 0,
    tensor_tag_to_state := [], nextId := nid }

/-- SynchronizedGroupOffloadHandler.tensor_push (lines 274-289): allocate
the tag, assert it fresh, then either eagerly offload (inside the offload
window with the checker passing) or store the tensor as-is. -/
def sync_tensor_push (chk : PTensor → Bool) (s : SyncState) (t : PTensor) :
    Option (SyncState × Tag) :=
  let tag : Tag := (s.current_group, s.tensor_count_current_group)
  let s := { s with tensor_count_current_group := s.tensor_count_current_group + 1 }
  if amem s.tensor_tag_to_state tag then none
  else if s.current_group < (s.num_offload_group : Int) ∧ chk t then
    let (st, nid) := offload s.nextId t true
    some ({ s with
            nextId := nid,
            tensor_tag_to_state :=
              ainsert s.tensor_tag_to_state tag (SyncSlot.offd st.1 st.2) }, tag)
  else
    some ({ s with tensor_tag_to_state :=
              ainsert s.tensor_tag_to_state tag (SyncSlot.tens t) }, tag)

/-- SynchronizedGroupOffloadHandler.tensor_pop (lines 291-299): assert the
tag present, pop it, reload if the state is the eviction tuple, otherwise
return the stored tensor itself. -/
def sync_tensor_pop (s : SyncState) (tag : Tag) : Option (SyncState × PTensor) := do
  let slot ← alookup s.tensor_tag_to_state tag
  let s := { s with tensor_tag_to_state := aremove s.tensor_tag_to_state tag }
  match slot with
  | SyncSlot.offd dev host => do
      let (t, nid) ← reload s.nextId (dev, host) none none
      pure ({ s with nextId := nid }, t)
  | SyncSlot.tens t => pure (s, t)

/-- Exact runtime type of an argument of mark_activation_offload. -/
inductive PyType where
  | torchTensor : PyType
  | nnParameter : PyType
  | otherSubclass : PyType
deriving DecidableEq, Repr

/-- An argument object of mark_activation_offload: its exact runtime type,
whether it provides get_data_tensors (absence raises AttributeError), the
list returned by get_data_tensors, and the object's own tensor view used
in the plain branch. -/
structure MarkObj where
  ty : PyType
  hasGetDataTensors : Bool
  dataTensors : List (Option PTensor)
  self : PTensor
deriving DecidableEq, Repr

/-- Body of the mark_activation_offload loop for one non-None argument
(cpu_offload.py lines 29-39). -/
def mark_one (o : MarkObj) : Option MarkObj :=
  if o.ty = PyType.torchTensor ∨ o.ty = PyType.nnParameter then
    some { o with self := { o.self with activation_offloading := true } }
  else if o.hasGetDataTensors then
    some { o with dataTensors := o.dataTensors.map (Option.map fun t =>
      { t with activation_offloading := true, needs_force_clear := true }) }
  else
    none

/-- The argument loop of mark_activation_offload (lines 26-39): None
arguments are skipped unchanged, the others go through mark_one, a
failure aborting the call. -/
def mark_loop : List (Option MarkObj) → Option (List (Option MarkObj))
  | [] => some []
  | none :: rest => (mark_loop rest).map (fun r => none :: r)
  | some o :: rest =>
      (mark_one o).bind fun o' => (mark_loop rest).map (fun r => some o' :: r)

/-- mark_activation_offload (cpu_offload.py lines 21-39).  debugEnabled
models TEDebugState.debug_enabled (a true value raises RuntimeError). -/
def mark_activation_offload (debugEnabled : Bool)
    (args : List (Option MarkObj)) : Option (List (Option MarkObj)) :=
  if debugEnabled then none else mark_loop args

/-- The layer-window construction loop in
AsyncDoubleBufferGroupOffloadHandler.__init__ (cpu_offload.py 342-349),
returning the map together with the final value of the constant
accumulator. -/
def layer_window_build (L G : Nat) : List (Int × Int) × Int :=
  (List.range G).foldl
    (fun (acc : List (Int × Int) × Int) (i : Nat) =>
      let base : Int := ((L / G : Nat) : Int) * ((i : Int) + 1) - 1
      if i < L % G then
        (ainsert acc.1 (i : Int) (base + ((i : Int) + 1)), (i : Int) + 1)
      else
        (ainsert acc.1 (i : Int) (base + acc.2), acc.2))
    ([], 0)

/-- Slot state of the asynchronous handler: a plain device tensor, the
(device, host) eviction tuple, the underlying list of a composite, or the
restored composite object (referenced by heap identity) swapped in by
bulk_reload_group. -/
inductive Slot where
  | tens : PTensor → Slot
  | offd : Device → PTensor → Slot
  | lst : List Entry → Slot
  | comp : Nat → Slot
deriving DecidableEq, Repr

/-- Value held in tensor_tag_to_buf: a tensor, a list of tensors, or
None (after the window-boundary release). -/
inductive BufVal where
  | noneB : BufVal
  | tens : PTensor → BufVal
  | lstB : List PTensor → BufVal
deriving DecidableEq, Repr

/-- Value returned by the asynchronous tensor_pop: a plain tensor or a
composite object (by heap identity). -/
inductive PopVal where
  | tens : PTensor → PopVal
  | comp : Nat → PopVal
deriving DecidableEq, Repr

/-- State of AsyncDoubleBufferGroupOffloadHandler (cpu_offload.py
302-633), together with the composite heap and the fresh-object counter.
Streams and events carry no data in this sequential model. -/
structure AState where
  num_offload_group : Nat
  current_group : Int
  tensor_count_current_group : Nat
  torch_tensor_count : Nat
  tensor_tag_to_state : List (Tag × Slot)
  num_layers : Nat
  tensor_tag_to_buf : List (Tag × BufVal)
  fp8_tensor_object_map : List (Tag × Nat)
  float8_transpose_cache_valid : List (Tag × Bool)
  dereferencing_list : List Tag
  offloaded_group_count : Nat
  layer_window_map : List (Int × Int)
  double_buffering : Bool
  reload_double_buffer_fst : List (Option PTensor)
  reload_double_buffer_snd : List (Option PTensor)
  double_buffer_created : Bool
  compHeap : List (Nat × Composite)
  nextId : Nat
deriving DecidableEq, Repr

/-- AsyncDoubleBufferGroupOffloadHandler.__init__ (lines 309-353): the
base-class reset plus the asynchronous bookkeeping and the layer-window
plan.  heap0 is the environment of composite objects; nid seeds the
fresh-object counter. -/
def async_init (num_offload_group num_model_group : Nat)
    (double_buffering : Bool) (heap0 : List (Nat × Composite)) (nid : Nat) :
    AState :=
  { num_offload_group := num_offload_group, current_group := 0,
    tensor_count_current_group := 0, torch_tensor_count := 0,
    tensor_tag_to_state := [], num_layers := num_model_group,
    tensor_tag_to_buf := [], fp8_tensor_object_map := [],
    float8_transpose_cache_valid := [], dereferencing_list := [],
    offloaded_group_count := 0,
    layer_window_map := (layer_window_build num_model_group num_offload_group).1,
    double_buffering := double_buffering,
    reload_double_buffer_fst := [], reload_double_buffer_snd := [],
    double_buffer_created := false, compHeap := heap0, nextId := nid }

/-- What gets pushed: a torch.Tensor (possibly a stray FakeTensor or
FunctionalTensor, detected through isStray) or a QuantizedTensorBase
composite referenced by heap identity. -/
inductive PushSpec where
  | tensorV : PTensor → PushSpec
  | quantV : Nat → PushSpec
deriving DecidableEq, Repr

/-- The per-underlying-tensor need-offload check inside the asynchronous
push and bulk offload.  The checkers constructed by the source are
hasattr tests, which are False on None entries and on the (device, host)
tuples, so the lifted check only consults chk on live tensors. -/
def chkEntry (chk : PTensor → Bool) : Entry → Bool
  | Entry.tens t => chk t
  | _ => false

/-- The loop over tensor_list in the quantized branch of tensor_push
(lines 395-410), threading the appends to tensor_tag_to_state[tag] and
tensor_tag_to_buf[tag] and the composite clear() calls. -/
def push_quant_loop (chk : PTensor → Bool) (inWindow : Bool) (cid : Nat) :
    List Entry → List Entry × List PTensor × Bool
  | [] => ([], [], false)
  | e :: es =>
      let (st, bf, cl) := push_quant_loop chk inWindow cid es
      if inWindow ∧ chkEntry chk e then
        match e with
        | Entry.tens t => (e :: st, t :: bf, true)
        | e => (e :: st, bf, true)
      else
        (e :: st, bf, cl)

/-- AsyncDoubleBufferGroupOffloadHandler.tensor_push (lines 355-416). -/
def async_tensor_push (chk : PTensor → Bool) (s : AState) :
    PushSpec → Option (AState × Tag)
  | PushSpec.tensorV t =>
      if t.isStray then
        let tag : Tag := (-1, s.torch_tensor_count)
        some ({ s with
                torch_tensor_count := s.torch_tensor_count + 1,
                tensor_tag_to_state :=
                  ainsert s.tensor_tag_to_state tag (Slot.tens t) }, tag)
      else
        let tag : Tag := (s.current_group, s.tensor_count_current_group)
        let s := { s with
                   tensor_count_current_group := s.tensor_count_current_group + 1 }
        if amem s.tensor_tag_to_state tag then none
        else
          let s := { s with
                     tensor_tag_to_state :=
                       ainsert s.tensor_tag_to_state tag (Slot.tens t) }
          if s.current_group < (s.num_offload_group : Int) ∧ chk t then
            some ({ s with
                    tensor_tag_to_buf :=
                      ainsert s.tensor_tag_to_buf tag (BufVal.tens t) }, tag)
          else
            some (s, tag)
  | PushSpec.quantV cid => do
      let tag : Tag := (s.current_group, s.tensor_count_current_group)
      let s := { s with
                 tensor_count_current_group := s.tensor_count_current_group + 1 }
      if amem s.tensor_tag_to_state tag then none
      else do
        let comp ← alookup s.compHeap cid
        let pfs := prepare_for_saving comp
        let lp := push_quant_loop chk
          (decide (s.current_group < (s.num_offload_group : Int))) cid pfs.1
        let s := { s with
                   compHeap := ainsert s.compHeap cid pfs.2,
                   tensor_tag_to_state :=
                     ainsert (ainsert s.tensor_tag_to_state tag (Slot.lst []))
                       tag (Slot.lst lp.1),
                   tensor_tag_to_buf :=
                     ainsert (ainsert s.tensor_tag_to_buf tag (BufVal.lstB []))
                       tag (BufVal.lstB lp.2.1),
                   dereferencing_list :=
                     if s.fp8_tensor_object_map.any (fun kv => kv.2 = cid) then
                       s.dereferencing_list ++ [tag]
                     else s.dereferencing_list,
                   fp8_tensor_object_map :=
                     ainsert s.fp8_tensor_object_map tag cid,
                   float8_transpose_cache_valid :=
                     if pfs.2.isFloat8 then
                       ainsert s.float8_transpose_cache_valid tag
                         pfs.2.transposeInvalid
                     else s.float8_transpose_cache_valid }
        if lp.2.2 then do
          let c ← alookup s.compHeap cid
          pure ({ s with
                  compHeap := ainsert s.compHeap cid (composite_clear c) }, tag)
        else pure (s, tag)

/-- The deduplication branch shared by the composite paths of tensor_pop
(lines 424-431) and bulk_reload_group (lines 592-599): a tag found in the
dereferencing list is erased from it and skips restoration; otherwise the
composite registered for the tag is restored from the element list. -/
def dedup_restore_step (tag : Tag) (tl : List Entry) (s : AState) :
    Option AState :=
  if tag ∈ s.dereferencing_list then
    pure { s with dereferencing_list := s.dereferencing_list.erase tag }
  else do
    let cid ← alookup s.fp8_tensor_object_map tag
    let comp ← alookup s.compHeap cid
    pure { s with compHeap :=
            ainsert s.compHeap cid (restore_from_saved comp tl) }

/-- The _do_not_clear write of tensor_pop (lines 433-434) on a composite
object: a heap update under double buffering, nothing otherwise. -/
def set_do_not_clear_step (cid : Nat) (s : AState) : Option AState :=
  if s.double_buffering then do
    let comp ← alookup s.compHeap cid
    pure { s with compHeap :=
            ainsert s.compHeap cid { comp with do_not_clear := true } }
  else pure s

/-- AsyncDoubleBufferGroupOffloadHandler.tensor_pop (lines 418-440). -/
def async_tensor_pop (s : AState) (tag : Tag) : Option (AState × PopVal) := do
  let slot ← alookup s.tensor_tag_to_state tag
  let s := { s with tensor_tag_to_state := aremove s.tensor_tag_to_state tag }
  match slot with
  | Slot.lst es => do
      let s ← dedup_restore_step tag es s
      let cid ← alookup s.fp8_tensor_object_map tag
      let s := { s with
                 fp8_tensor_object_map := aremove s.fp8_tensor_object_map tag }
      let s ← set_do_not_clear_step cid s
      pure ({ s with tensor_tag_to_buf := aremove s.tensor_tag_to_buf tag },
            PopVal.comp cid)
  | Slot.tens t =>
      let t := if s.double_buffering then { t with do_not_clear := true } else t
      pure ({ s with tensor_tag_to_buf := aremove s.tensor_tag_to_buf tag },
            PopVal.tens t)
  | Slot.comp cid => do
      let s ← set_do_not_clear_step cid s
      pure ({ s with tensor_tag_to_buf := aremove s.tensor_tag_to_buf tag },
            PopVal.comp cid)
  | Slot.offd _ _ => none

/-- The per-underlying loop of bulk_offload_group on one slot value
(lines 450-479), producing the new slot and threading the fresh-object
counter. -/
def bulk_offload_slot (chk : PTensor → Bool) (nid : Nat) : Slot → Slot × Nat
  | Slot.lst es =>
      let folded := es.foldr
        (fun e (acc : List Entry × Nat) =>
          match e with
          | Entry.tens t =>
              if chk t then
                let (st, nid') := offload acc.2 t true
                (Entry.offd st.1 st.2 :: acc.1, nid')
              else (e :: acc.1, acc.2)
          | e => (e :: acc.1, acc.2))
        ([], nid)
      (Slot.lst folded.1, folded.2)
  | Slot.tens t =>
      if chk t then
        let (st, nid') := offload nid t true
        (Slot.offd st.1 st.2, nid')
      else (Slot.tens t, nid)
  | sl => (sl, nid)

/-- One iteration of the bulk_offload_group loop (lines 445-479): entries
of other groups are untouched; a tuple state trips the assert; otherwise
the slot is rewritten through the per-tensor offload decision. -/
def bulk_offload_entry (chk : PTensor → Bool) (g : Int) (s : AState)
    (p : Tag × Slot) : Option AState :=
  if p.1.1 = g then
    match p.2 with
    | Slot.offd _ _ => none
    | sl =>
        let (sl', nid) := bulk_offload_slot chk s.nextId sl
        some { s with nextId := nid,
                      tensor_tag_to_state := ainsert s.tensor_tag_to_state p.1 sl' }
  else some s

/-- The iteration of bulk_offload_group over the (snapshot of the)
insertion-ordered dict. -/
def bulk_offload_fold (chk : PTensor → Bool) (g : Int) (s : AState) :
    List (Tag × Slot) → Option AState
  | [] => some s
  | p :: ps => do
      let s' ← bulk_offload_entry chk g s p
      bulk_offload_fold chk g s' ps

/-- AsyncDoubleBufferGroupOffloadHandler.bulk_offload_group (442-479).
Iteration over dict items while assigning to existing keys is modelled by
folding over the snapshot of the pair list: each key is visited exactly
once and only its own value is rewritten at its visit.  The d2h stream
context carries no data. -/
def bulk_offload_group (chk : PTensor → Bool) (s : AState) (g : Int) :
    Option AState :=
  bulk_offload_fold chk g s s.tensor_tag_to_state

/-- Building one half of the reload double buffer from the current
tensor_tag_to_buf values (lines 489-500): for every recorded buffer
append a fresh empty_like clone when double buffering is on, or a None
placeholder otherwise.  empty_like on a released (None) buffer raises.
First, the torch.empty_like model: same size and device, uninitialized
storage (modelled as zeros), default attributes. -/
def empty_like (nid : Nat) (t : PTensor) : PTensor :=
  { tid := nid, data := t.data.map fun _ => 0, dev := t.dev, pinned := false,
    activation_offloading := false, needs_force_clear := false,
    do_not_clear := false, isStray := false }

/-- Continuation of the half-buffer construction, one buf value at a
time. -/
def build_buffer_half (db : Bool) (nid : Nat) :
    List BufVal → Option (List (Option PTensor) × Nat)
  | [] => some ([], nid)
  | b :: bs => do
      let (xs, nid') ←
        match b with
        | BufVal.tens t =>
            if db then some ([some (empty_like nid t)], nid + 1)
            else some ([(none : Option PTensor)], nid)
        | BufVal.lstB ts =>
            let folded := ts.foldr
              (fun t (acc : List (Option PTensor) × Nat) =>
                if db then (some (empty_like acc.2 t) :: acc.1, acc.2 + 1)
                else ((none : Option PTensor) :: acc.1, acc.2))
              ([], nid)
            some (folded.1, folded.2)
        | BufVal.noneB => if db then none else some ([(none : Option PTensor)], nid)
      let (rest, nid'') ← build_buffer_half db nid' bs
      pure (xs ++ rest, nid'')

/-- The activation-memory release loop at a window boundary (lines
513-522): every buf entry of the just-offloaded group is replaced by
None.  The needs_force_clear storage overwrite (line 520) acts on the
released reference itself; it is represented by the replacement since no
other live reference observes it (the slot of such a tensor has already
been rewritten to the eviction tuple by the preceding bulk offload). -/
def free_bufs_of_group (s : AState) (g : Nat) : AState :=
  { s with tensor_tag_to_buf := s.tensor_tag_to_buf.map fun p =>
      if p.1.1 = (g : Int) then (p.1, BufVal.noneB) else p }

/-- First block of synchronize_on_group_commit_forward (lines 486-502):
at the first group, create the first half of the reload double buffer if
not yet created, then bulk offload group 0.  cur is the current_group
value bound at entry of the method. -/
def sync_fwd_step1 (chk : PTensor → Bool) (cur : Int) (s : AState) :
    Option AState :=
  if cur = 0 then do
    let s ← if ¬ s.double_buffer_created then do
              let (half, nid) ← build_buffer_half s.double_buffering
                s.nextId (s.tensor_tag_to_buf.map Prod.snd)
              pure { s with
                     reload_double_buffer_fst :=
                       s.reload_double_buffer_fst ++ half,
                     nextId := nid }
            else pure s
    bulk_offload_group chk s 0
  else pure s

/-- Window block of synchronize_on_group_commit_forward (lines 504-529):
look up the window of the offloaded-group counter (KeyError when out of
range); on a hit, release the buffers of the just-offloaded group, start
the next bulk offload if any groups remain, and advance the counter. -/
def sync_fwd_step2 (chk : PTensor → Bool) (cur : Int) (s : AState) :
    Option AState := do
  let w ← alookup s.layer_window_map (s.offloaded_group_count : Int)
  if w = cur then do
    let s := free_bufs_of_group s s.offloaded_group_count
    let s ← if s.offloaded_group_count < s.num_offload_group - 1 then
              bulk_offload_group chk s ((s.offloaded_group_count : Int) + 1)
            else pure s
    pure { s with offloaded_group_count := s.offloaded_group_count + 1 }
  else pure s

/-- Final block of synchronize_on_group_commit_forward (lines 531-538):
on the last model layer, build the second half of the double buffer from
the first and mark it created. -/
def sync_fwd_step3 (cur : Int) (s : AState) : Option AState :=
  if ¬ s.double_buffer_created then
    if cur = (s.num_layers : Int) - 1 then do
      let folded ← s.reload_double_buffer_fst.foldlM
        (fun (acc : List (Option PTensor) × Nat) b =>
          match b with
          | some t =>
              if s.double_buffering then
                some (acc.1 ++ [some (empty_like acc.2 t)], acc.2 + 1)
              else some (acc.1 ++ [(none : Option PTensor)], acc.2)
          | none =>
              if s.double_buffering then none
              else some (acc.1 ++ [(none : Option PTensor)], acc.2))
        ([], s.nextId)
      pure { s with
             reload_double_buffer_snd := s.reload_double_buffer_snd ++ folded.1,
             nextId := folded.2, double_buffer_created := true }
    else pure s
  else pure s

/-- AsyncDoubleBufferGroupOffloadHandler.synchronize_on_group_commit_forward
(lines 481-538), called with current_group bound at entry.  Stream waits
carry no data. -/
def synchronize_on_group_commit_forward (chk : PTensor → Bool) (s : AState) :
    Option AState := do
  let cur := s.current_group
  let s ← sync_fwd_step1 chk cur s
  let s ← sync_fwd_step2 chk cur s
  sync_fwd_step3 cur s

/-- AsyncDoubleBufferGroupOffloadHandler.on_group_commit_forward (lines
540-545): the synchronization step followed by the base-class advance. -/
def on_group_commit_forward (chk : PTensor → Bool) (s : AState) : Option AState := do
  let s ← synchronize_on_group_commit_forward chk s
  pure { s with current_group := s.current_group + 1,
                tensor_count_current_group := 0 }

/-- Indexing reload_double_buffer[dbIdx][bufIdx] (IndexError when out of
range); the stored element itself may be a None placeholder. -/
def db_index (s : AState) (dbIdx bufIdx : Nat) : Option (Option PTensor) :=
  (if dbIdx = 0 then s.reload_double_buffer_fst
   else s.reload_double_buffer_snd).get? bufIdx

/-- The reload-buffer read at the top of every loop iteration and of
every composite element (lines 559-562 and 573-578): under double
buffering an indexing that may raise, otherwise None. -/
def get_reload_buffer (s : AState) (dbIdx bufIdx : Nat) :
    Option (Option PTensor) :=
  if s.double_buffering then db_index s dbIdx bufIdx else pure none

/-- The element walk of the composite branch of bulk_reload_group (lines
570-590): every element re-reads the double buffer slot; tuple elements
are reloaded (consuming one buffer slot), other elements pass through. -/
def reload_list_elems (s : AState) (dbIdx : Nat) (bufIdx : Nat) :
    List Entry → Option (AState × Nat × List Entry)
  | [] => some (s, bufIdx, [])
  | e :: es => do
      let rb ← get_reload_buffer s dbIdx bufIdx
      match e with
      | Entry.offd dev host => do
          let (t, nid) ← reload s.nextId (dev, host) (some true) rb
          let s := { s with nextId := nid }
          let (s', b', rest) ← reload_list_elems s dbIdx (bufIdx + 1) es
          pure (s', b', Entry.tens t :: rest)
      | e => do
          let (s', b', rest) ← reload_list_elems s dbIdx bufIdx es
          pure (s', b', e :: rest)

/-- The Float8 transpose-flag write-back of bulk_reload_group (lines
601-604): when the composite registered for the tag is Float8-like, its
_transpose_invalid flag is set to the snapshot popped from the cache. -/
def reload_float8_step (tag : Tag) (s : AState) : Option AState := do
  let cid ← alookup s.fp8_tensor_object_map tag
  let comp ← alookup s.compHeap cid
  if comp.isFloat8 then do
    let b ← alookup s.float8_transpose_cache_valid tag
    pure { s with
           compHeap := ainsert s.compHeap cid
             { comp with transposeInvalid := b },
           float8_transpose_cache_valid :=
             aremove s.float8_transpose_cache_valid tag }
  else pure s

/-- One iteration of the bulk_reload_group loop (lines 556-608) on a
snapshot pair.  For a group entry the double-buffer slot is read first
(line 560); a tuple slot is reloaded in place; a list slot is walked,
then the dedup check decides between erasing the tag and
restore_from_saved, the Float8 transpose flag is written back from its
snapshot, and the slot is swapped to the composite object popped from
fp8_tensor_object_map. -/
def bulk_reload_entry (s : AState) (dbIdx : Nat) (bufIdx : Nat) (g : Int)
    (p : Tag × Slot) : Option (AState × Nat) :=
  if p.1.1 = g then do
    let _rb ← get_reload_buffer s dbIdx bufIdx
    match p.2 with
    | Slot.offd dev host => do
        let rb ← get_reload_buffer s dbIdx bufIdx
        let (t, nid) ← reload s.nextId (dev, host) (some true) rb
        pure ({ s with
                nextId := nid,
                tensor_tag_to_state :=
                  ainsert s.tensor_tag_to_state p.1 (Slot.tens t) },
              bufIdx + 1)
    | Slot.lst es => do
        let (s, bufIdx, tl) ← reload_list_elems s dbIdx bufIdx es
        let s ← dedup_restore_step p.1 tl s
        let s ← reload_float8_step p.1 s
        let cid2 ← alookup s.fp8_tensor_object_map p.1
        pure ({ s with
                fp8_tensor_object_map := aremove s.fp8_tensor_object_map p.1,
                tensor_tag_to_state :=
                  ainsert s.tensor_tag_to_state p.1 (Slot.comp cid2) }, bufIdx)
    | _ => pure (s, bufIdx)
  else some (s, bufIdx)

/-- The iteration of bulk_reload_group over the snapshot of the dict. -/
def bulk_reload_fold (dbIdx : Nat) (g : Int) :
    AState → Nat → List (Tag × Slot) → Option AState
  | s, _, [] => some s
  | s, bufIdx, p :: ps => do
      let (s', b') ← bulk_reload_entry s dbIdx bufIdx g p
      bulk_reload_fold dbIdx g s' b' ps

/-- AsyncDoubleBufferGroupOffloadHandler.bulk_reload_group (547-608). -/
def bulk_reload_group (s : AState) (g : Nat) : Option AState :=
  if g < s.num_offload_group then
    bulk_reload_fold (g % 2) (g : Int) s 0 s.tensor_tag_to_state
  else none

/-- Window block of on_group_commit_backward (lines 617-628): look up
the window of the predecessor of the offloaded-group counter (KeyError
when out of range, -1 included); on a hit, reload that group and
decrement the counter with a sticky floor at one. -/
def bwd_window_step (s : AState) : Option AState := do
  let w ← alookup s.layer_window_map ((s.offloaded_group_count : Int) - 1)
  if w = s.current_group then do
    let s ← bulk_reload_group s (s.offloaded_group_count - 1)
    pure { s with
           offloaded_group_count :=
             if 1 < s.offloaded_group_count then s.offloaded_group_count - 1
             else s.offloaded_group_count }
  else pure s

/-- AsyncDoubleBufferGroupOffloadHandler.on_group_commit_backward (lines
610-633): decrement current_group (assert non-negative), run the window
block, and reset the counter once current_group reaches zero. -/
def on_group_commit_backward (s : AState) : Option AState := do
  let s := { s with current_group := s.current_group - 1 }
  if s.current_group < 0 then none
  else do
    let s ← bwd_window_step s
    if s.current_group = 0 then pure { s with offloaded_group_count := 0 }
    else pure s

/-- The default need-offload predicate built by get_cpu_offload_context
(lines 695-698): hasattr(tensor, "activation_offloading"). -/
def activations_checker (t : PTensor) : Bool :=
  t.activation_offloading

/-- The kind of context object returned by the factory: contextlib
nullcontext or the saved-tensor hook bound to the handler. -/
inductive CtxKind where
  | nullCtx : CtxKind
  | offloadHookCtx : CtxKind
deriving DecidableEq, Repr

/-- The kind of synchronizer returned by the factory: the bare identity
lambda of the weights-only path (line 693), or
group_prefetch_offload_commit_async, a closure over the constructed
handler (lines 707-708). -/
inductive SyncKind where
  | identityLambda : SyncKind
  | commitClosure : SyncKind
deriving DecidableEq, Repr

/-- Result of get_cpu_offload_context: the context object, the
synchronizer, and the constructed handler when one was built. -/
structure OffloadContextResult where
  ctx : CtxKind
  sync : SyncKind
  handler : Option AState
deriving DecidableEq, Repr

/-- get_cpu_offload_context (cpu_offload.py 636-715).  A none result is
the ValueError for requesting neither weights nor activations.  heap0 and
nid seed the handler environment. -/
def get_cpu_offload_context (enabled : Bool) (num_layers model_layers : Nat)
    (offload_activations offload_weights double_buffering : Bool)
    (heap0 : List (Nat × Composite)) (nid : Nat) :
    Option OffloadContextResult :=
  if ¬ offload_weights ∧ ¬ offload_activations then none
  else if offload_weights ∧ ¬ offload_activations then
    some { ctx := CtxKind.nullCtx, sync := SyncKind.identityLambda,
           handler := none }
  else
    let h := async_init num_layers model_layers double_buffering heap0 nid
    if enabled then
      some { ctx := CtxKind.offloadHookCtx, sync := SyncKind.commitClosure,
             handler := some h }
    else
      some { ctx := CtxKind.nullCtx, sync := SyncKind.commitClosure,
             handler := some h }

/-- Applying the synchronizer returned by the factory to a tensor.
GroupCommitFunction.forward (lines 185-191) calls
on_group_commit_forward on the closed-over handler and returns the very
tensor it was given; the weights-only lambda returns its argument with no
effect at all. -/
def apply_synchronizer : SyncKind → AState → PTensor → Option (AState × PTensor)
  | SyncKind.identityLambda, s, t => some (s, t)
  | SyncKind.commitClosure, s, t => do
      let s' ← on_group_commit_forward activations_checker s
      pure (s', t)

/-- The process-global state touched by CpuOffloadSavedTensorHook: the
CPUOffloadEnabled flag, the inside_context flag, and the depth of the
pushed saved-tensor default hooks. -/
structure HookGlobalState where
  cpuOffloadEnabled : Bool
  insideContext : Bool
  hooksDepth : Nat
deriving DecidableEq, Repr

/-- CpuOffloadSavedTensorHook.__enter__ (lines 94-101). -/
def cpu_offload_hook_enter (g : HookGlobalState) : HookGlobalState :=
  { cpuOffloadEnabled := true, insideContext := true,
    hooksDepth := g.hooksDepth + 1 }

/-- CpuOffloadSavedTensorHook.__exit__ (lines 103-108): clear the global
flag, leave the context and pop the hooks.  The handler bound to the hook
is passed for inspection, but the source exit never reads it: no check of
any handler map happens and no exception is raised. -/
def cpu_offload_hook_exit (g : HookGlobalState) (_handler : AState) :
    Option HookGlobalState :=
  some { cpuOffloadEnabled := false, insideContext := false,
         hooksDepth := g.hooksDepth - 1 }

/-- Pushing the tensors of one layer in order, recording the returned tag
against what was pushed. -/
def push_layer (chk : PTensor → Bool) (s : AState) :
    List PushSpec → Option (AState × List (Tag × PushSpec))
  | [] => some (s, [])
  | p :: ps => do
      let (s1, tg) ← async_tensor_push chk s p
      let (s2, rest) ← push_layer chk s1 ps
      pure (s2, (tg, p) :: rest)

/-- The forward phase of a canonical session: for each model layer, push
that layer's tensors, then invoke the group-commit synchronizer once. -/
def run_forward (chk : PTensor → Bool) (s : AState) :
    List (List PushSpec) → Option (AState × List (List (Tag × PushSpec)))
  | [] => some (s, [])
  | l :: ls => do
      let (s1, prs) ← push_layer chk s l
      let s2 ← on_group_commit_forward chk s1
      let (s3, rest) ← run_forward chk s2 ls
      pure (s3, prs :: rest)

/-- Popping the recorded tags of one layer in order. -/
def pop_layer (s : AState) :
    List (Tag × PushSpec) → Option (AState × List (Tag × PopVal))
  | [] => some (s, [])
  | (tg, _) :: ps => do
      let (s1, v) ← async_tensor_pop s tg
      let (s2, rest) ← pop_layer s1 ps
      pure (s2, (tg, v) :: rest)

/-- The reverse phase over the layers already reversed: the backward of
the commit barrier runs first (the barrier was applied after the layer in
forward), then the layer's saved tensors are retrieved. -/
def run_backward_rev (s : AState) :
    List (List (Tag × PushSpec)) → Option (AState × List (List (Tag × PopVal)))
  | [] => some (s, [])
  | l :: ls => do
      let s1 ← on_group_commit_backward s
      let (s2, prs) ← pop_layer s1 l
      let (s3, rest) ← run_backward_rev s2 ls
      pure (s3, prs :: rest)

/-- Result of one complete forward/backward session. -/
structure SessionOut where
  sForward : AState
  fwdTags : List (List (Tag × PushSpec))
  sFinal : AState
  pops : List (List (Tag × PopVal))
deriving DecidableEq, Repr

/-- One complete forward/backward session of the asynchronous handler, as
wired by get_cpu_offload_context: the handler is freshly constructed, one
forward commit runs per model layer after that layer's pushes, then one
backward commit per layer in reverse order before that layer's pops. -/
def run_session (G L : Nat) (db : Bool) (heap0 : List (Nat × Composite))
    (nid : Nat) (layers : List (List PushSpec)) : Option SessionOut := do
  let s0 := async_init G L db heap0 nid
  let (s1, ftags) ← run_forward activations_checker s0 layers
  let (s2, pops) ← run_backward_rev s1 ftags.reverse
  pure { sForward := s1, fwdTags := ftags, sFinal := s2, pops := pops }

/-- The key list (in insertion order) of the asynchronous handler's slot
dictionary tensor_tag_to_state. -/
def stateKeys (s : AState) : List Tag :=
  s.tensor_tag_to_state.map Prod.fst

/-- The push-phase invariant of the asynchronous handler: the group
counter is non-negative, every stray key is below the stray counter, and
the slot keys are pairwise distinct. -/
def PushInv (s : AState) : Prop :=
  0 ≤ s.current_group ∧
  (∀ i, ((-1 : Int), i) ∈ stateKeys s → i < s.torch_tensor_count) ∧
  (stateKeys s).Nodup

/-- All tags handed out during the forward phase of a session, in
order. -/
def sessionTags (out : SessionOut) : List Tag :=
  (out.fwdTags.map fun l => l.map Prod.fst).flatten

/-- A concrete handler state whose three bookkeeping maps are all
non-empty, as left behind by an unbalanced session. -/
def busy_handler : AState :=
  { async_init 1 1 false [] 0 with
    tensor_tag_to_state := [((0, 0), Slot.lst [])],
    tensor_tag_to_buf := [((0, 0), BufVal.lstB [])],
    fp8_tensor_object_map := [((0, 0), 7)] }

/-- Reads the _do_not_clear attribute of a popped value: directly on a
plain tensor, through the heap on a composite. -/
def pop_do_not_clear (s : AState) : PopVal → Bool
  | PopVal.tens t => t.do_not_clear
  | PopVal.comp cid => ((alookup s.compHeap cid).map Composite.do_not_clear).getD false

/-- A concrete unmarked device tensor. -/
def probe_tensor : PTensor :=
  { tid := 0, data := [42], dev := Device.cuda 0, pinned := false,
    activation_offloading := false, needs_force_clear := false,
    do_not_clear := false, isStray := false }

/-- Closed form of the i-th layer window: floor(L/G)*(i+1) - 1, with the
remainder L mod G absorbed one unit at a time by the first windows. -/
def wSpec (L G : Nat) (i : Nat) : Int :=
  ((L / G : Nat) : Int) * ((i : Int) + 1) - 1 + ((min (i + 1) (L % G) : Nat) : Int)

/-- A concrete argument of exact type torch.Tensor. -/
def plain_mark_obj : MarkObj :=
  { ty := PyType.torchTensor, hasGetDataTensors := false, dataTensors := [],
    self := probe_tensor }

/-- A double-buffering handler state holding one passthrough tensor. -/
def pop_probe_state : AState :=
  { async_init 1 1 true [] 0 with
    tensor_tag_to_state := [((0, 0), Slot.tens probe_tensor)] }

/-- The offloaded-group-counter invariant of the forward phase: after k
forward commits the counter is the length of the initial segment of
windows that ended strictly before layer k. -/
def OgcInv (G L : Nat) (c : Nat) (k : Int) : Prop :=
  c ≤ G ∧ (∀ i : Nat, i < c → wSpec L G i < k) ∧ (c < G → k ≤ wSpec L G c)

/-- Two heaps agree on every composite's restore count. -/
def heapCountEq (h h' : List (Nat × Composite)) : Prop :=
  ∀ x, (alookup h' x).map Composite.restoreCount =
    (alookup h x).map Composite.restoreCount

/-- The dedup invariant of a session relative to a composite heap id c
pushed under the two tags t1 and t2: the composite's restore count has
grown by one exactly when t1 has been processed (d1); a pending tag still
holds a list slot registered to c, with t2 (and only t2) recorded in the
dereferencing list; a processed tag's remaining slot is the composite
itself; no other tag is registered to c. -/
def BInv (c : Nat) (t1 t2 : Tag) (rc0 : Nat) (d1 d2 : Bool)
    (s : AState) : Prop :=
  (∃ comp, alookup s.compHeap c = some comp ∧
    comp.restoreCount = rc0 + (if d1 then 1 else 0)) ∧
  (d1 = false →
    (∃ es, alookup s.tensor_tag_to_state t1 = some (Slot.lst es)) ∧
    alookup s.fp8_tensor_object_map t1 = some c ∧
    t1 ∉ s.dereferencing_list) ∧
  (d1 = true → ∀ sl, alookup s.tensor_tag_to_state t1 = some sl →
    sl = Slot.comp c) ∧
  (d2 = false →
    (∃ es, alookup s.tensor_tag_to_state t2 = some (Slot.lst es)) ∧
    alookup s.fp8_tensor_object_map t2 = some c ∧
    t2 ∈ s.dereferencing_list) ∧
  (d2 = true → ∀ sl, alookup s.tensor_tag_to_state t2 = some sl →
    sl = Slot.comp c) ∧
  (∀ t, alookup s.fp8_tensor_object_map t = some c → t = t1 ∨ t = t2) ∧
  (stateKeys s).Nodup ∧
  (s.fp8_tensor_object_map.map Prod.fst).Nodup ∧
  t1 ≠ t2

/-- Forward stage of the tracked composite before any push of it. -/
def C3zero (c rc0 : Nat) (s : AState) : Prop :=
  (∃ comp, alookup s.compHeap c = some comp ∧ comp.restoreCount = rc0) ∧
  (∀ t, alookup s.fp8_tensor_object_map t ≠ some c)

/-- Forward stage of the tracked composite after exactly one push. -/
def C3one (c rc0 : Nat) (t1 : Tag) (s : AState) : Prop :=
  (∃ comp, alookup s.compHeap c = some comp ∧ comp.restoreCount = rc0) ∧
  (∃ es, alookup s.tensor_tag_to_state t1 = some (Slot.lst es)) ∧
  alookup s.fp8_tensor_object_map t1 = some c ∧
  t1 ∉ s.dereferencing_list ∧
  (∀ t, alookup s.fp8_tensor_object_map t = some c → t = t1)

/-- Push progress of the tracked composite: not yet pushed, pushed once
under t1, or pushed twice under t1 and t2. -/
inductive C3St where
  | zero : C3St
  | one : Tag → C3St
  | two : Tag → Tag → C3St
deriving DecidableEq, Repr

/-- The forward invariant attached to each stage. -/
def C3state (c rc0 : Nat) (s : AState) : C3St → Prop
  | C3St.zero => C3zero c rc0 s
  | C3St.one t1 => C3one c rc0 t1 s
  | C3St.two t1 t2 => BInv c t1 t2 rc0 false false s

/-- How many pushes the stage has consumed. -/
def stCount : C3St → Nat
  | C3St.zero => 0
  | C3St.one _ => 1
  | C3St.two _ _ => 2

/-- Auxiliary map hygiene carried through the forward phase: fp8 keys
and dereferenced tags live among the slot keys, and the fp8 keys are
pairwise distinct. -/
def AuxF (s : AState) : Prop :=
  (s.fp8_tensor_object_map.map Prod.fst).Nodup ∧
  (∀ t, t ∈ s.fp8_tensor_object_map.map Prod.fst → t ∈ stateKeys s) ∧
  (∀ t, t ∈ s.dereferencing_list → t ∈ stateKeys s)

/-- Number of pushes of the tracked composite in a push list. -/
def countQuantC (c : Nat) (l : List PushSpec) : Nat :=
  l.countP (fun p => decide (p = PushSpec.quantV c))

/-- The transpose-flag invariant of a session relative to the tracked
Float8 composite c whose flag was f0 at construction: the composite is
live on the heap, Float8-like, and still carries f0; every transpose
cache snapshot taken for a tag registered to c is f0; and the keys of
the fp8 object map and of the transpose cache are duplicate-free. -/
def F6 (f0 : Bool) (c : Nat) (s : AState) : Prop :=
  (∃ cc, alookup s.compHeap c = some cc ∧ cc.isFloat8 = true ∧
    cc.transposeInvalid = f0) ∧
  (∀ t b, alookup s.fp8_tensor_object_map t = some c →
    alookup s.float8_transpose_cache_valid t = some b → b = f0) ∧
  (s.fp8_tensor_object_map.map Prod.fst).Nodup ∧
  (s.float8_transpose_cache_valid.map Prod.fst).Nodup

theorem alookup_ainsert_self {α β : Type} [DecidableEq α]
    (m : List (α × β)) (k : α) (v : β) : alookup (ainsert m k v) k = some v := by
  induction m with
  | nil => simp [ainsert, alookup]
  | cons p rest ih =>
      by_cases h : p.1 = k
      · simp [ainsert, alookup, h]
      · simpa [ainsert, alookup, h] using ih

theorem alookup_ainsert_ne {α β : Type} [DecidableEq α]
    (m : List (α × β)) (k k' : α) (v : β) (h : k' ≠ k) :
    alookup (ainsert m k v) k' = alookup m k' := by
  induction m with
  | nil => simp [ainsert, alookup, Ne.symm h]
  | cons p rest ih =>
      by_cases hp : p.1 = k
      · simp [ainsert, alookup, hp, Ne.symm h]
      · by_cases hp' : p.1 = k'
        · simp [ainsert, alookup, hp, hp', h]
        · simpa [ainsert, alookup, hp, hp'] using ih

theorem alookup_aremove_ne {α β : Type} [DecidableEq α]
    (m : List (α × β)) (k k' : α) (h : k' ≠ k) :
    alookup (aremove m k) k' = alookup m k' := by
  induction m with
  | nil => simp [aremove]
  | cons p rest ih =>
      by_cases hp : p.1 = k
      · simp [aremove, alookup, hp, Ne.symm h]
      · by_cases hp' : p.1 = k'
        · simp [aremove, alookup, hp, hp', h]
        · simpa [aremove, alookup, hp, hp'] using ih

theorem mem_of_alookup {α β : Type} [DecidableEq α]
    {m : List (α × β)} {k : α} {v : β} (h : alookup m k = some v) : (k, v) ∈ m := by
  induction m with
  | nil => simp [alookup] at h
  | cons p rest ih =>
      by_cases hp : p.1 = k
      · simp only [alookup, if_pos hp, Option.some_inj] at h
        have : p = (k, v) := by
          rcases p with ⟨a, b⟩
          simp at hp h
          simp [hp, h]
        rw [← this]
        exact List.mem_cons_self _ _
      · simp only [alookup, if_neg hp] at h
        exact List.mem_cons_of_mem _ (ih h)

theorem alookup_eq_none {α β : Type} [DecidableEq α]
    {m : List (α × β)} {k : α} :
    alookup m k = none ↔ k ∉ m.map Prod.fst := by
  induction m with
  | nil => simp [alookup]
  | cons p rest ih =>
      rw [List.map_cons, List.mem_cons]
      by_cases hp : p.1 = k
      · simp [alookup, hp]
      · simp only [alookup, if_neg hp]
        rw [ih]
        constructor
        · intro h hc
          rcases hc with e | hm
          · exact hp e.symm
          · exact h hm
        · intro h hm
          exact h (Or.inr hm)

theorem alookup_isSome {α β : Type} [DecidableEq α]
    {m : List (α × β)} {k : α} :
    (alookup m k).isSome = true ↔ k ∈ m.map Prod.fst := by
  rcases h : alookup m k with _ | v
  · exact iff_of_false (by simp) (alookup_eq_none.mp h)
  · exact iff_of_true (by simp) (List.mem_map.mpr ⟨(k, v), mem_of_alookup h, rfl⟩)

theorem alookup_of_mem_nodup {α β : Type} [DecidableEq α]
    {m : List (α × β)} {k : α} {v : β}
    (hnd : (m.map Prod.fst).Nodup) (h : (k, v) ∈ m) : alookup m k = some v := by
  induction m with
  | nil => simp at h
  | cons p rest ih =>
      rw [List.map_cons, List.nodup_cons] at hnd
      rcases List.mem_cons.mp h with h | h
      · rw [← h]
        simp [alookup]
      · have hk : ¬ p.1 = k := by
          intro e
          apply hnd.1
          rw [e]
          exact List.mem_map_of_mem Prod.fst h
        simp only [alookup, if_neg hk]
        exact ih hnd.2 h

theorem ainsert_app_of_fresh {α β : Type} [DecidableEq α]
    {m : List (α × β)} {k : α} (v : β) (h : alookup m k = none) :
    ainsert m k v = m ++ [(k, v)] := by
  induction m with
  | nil => simp [ainsert]
  | cons p rest ih =>
      by_cases hp : p.1 = k
      · simp [alookup, hp] at h
      · simp only [alookup, if_neg hp] at h
        simp [ainsert, hp, ih h]

theorem ainsert_keys_of_mem {α β : Type} [DecidableEq α]
    {m : List (α × β)} {k : α} (v : β) (h : k ∈ m.map Prod.fst) :
    (ainsert m k v).map Prod.fst = m.map Prod.fst := by
  induction m with
  | nil => simp at h
  | cons p rest ih =>
      by_cases hp : p.1 = k
      · simp [ainsert, hp]
      · rw [List.map_cons, List.mem_cons] at h
        have h' : k ∈ rest.map Prod.fst := by
          rcases h with e | hm
          · exact absurd e.symm hp
          · exact hm
        simp [ainsert, hp, ih h']

theorem aremove_keys_sublist {α β : Type} [DecidableEq α]
    (m : List (α × β)) (k : α) :
    List.Sublist ((aremove m k).map Prod.fst) (m.map Prod.fst) := by
  induction m with
  | nil => simp [aremove]
  | cons p rest ih =>
      by_cases hp : p.1 = k
      · simp only [aremove, if_pos hp, List.map_cons]
        exact List.sublist_cons_self _ _
      · simp only [aremove, if_neg hp, List.map_cons]
        exact ih.cons₂ _

theorem alookup_aremove_self_of_nodup {α β : Type} [DecidableEq α]
    {m : List (α × β)} {k : α} (hnd : (m.map Prod.fst).Nodup) :
    alookup (aremove m k) k = none := by
  induction m with
  | nil => simp [aremove, alookup]
  | cons p rest ih =>
      rw [List.map_cons, List.nodup_cons] at hnd
      by_cases hp : p.1 = k
      · simp only [aremove, if_pos hp]
        rw [alookup_eq_none]
        rw [← hp]
        exact hnd.1
      · simp only [aremove, if_neg hp, alookup, if_neg hp]
        exact ih hnd.2

/-- C1: round-trip behaviour of the synchronous handler.  If the push
happened inside the offload window with the need-offload predicate true,
the later pop of the returned tag (from any state that still holds the
slot the push stored) returns a tensor carrying exactly the pushed bits;
otherwise the pop returns the pushed tensor object itself. -/
theorem sync_round_trip (chk : PTensor → Bool) (s : SyncState) (t : PTensor)
    (s1 : SyncState) (tag : Tag)
    (hpush : sync_tensor_push chk s t = some (s1, tag))
    (s2 : SyncState)
    (hslot : alookup s2.tensor_tag_to_state tag =
      alookup s1.tensor_tag_to_state tag) :
    (s.current_group < (s.num_offload_group : Int) ∧ chk t = true →
      ∃ s3 t', sync_tensor_pop s2 tag = some (s3, t') ∧ t'.data = t.data) ∧
    (¬ (s.current_group < (s.num_offload_group : Int) ∧ chk t = true) →
      ∃ s3, sync_tensor_pop s2 tag = some (s3, t)) := by
  unfold sync_tensor_push at hpush
  by_cases hg : amem s.tensor_tag_to_state
      (s.current_group, s.tensor_count_current_group)
  · simp [hg] at hpush
  · by_cases hc : s.current_group < (s.num_offload_group : Int) ∧ chk t = true
    · simp only [hg, hc, offload, if_true, if_false, Bool.false_eq_true,
        not_false_iff, if_neg, if_pos, and_true, Option.some_inj,
        Prod.mk.injEq] at hpush
      rcases hpush with ⟨hs1, htag⟩
      constructor
      · intro _
        have hl : alookup s2.tensor_tag_to_state
            (s.current_group, s.tensor_count_current_group) = some
            (SyncSlot.offd t.dev
              { tid := s.nextId, data := t.data, dev := Device.cpu,
                pinned := true, activation_offloading := false,
                needs_force_clear := false, do_not_clear := false,
                isStray := false }) := by
          rw [htag, hslot, ← hs1, ← htag]
          exact alookup_ainsert_self _ _ _
        rw [← htag]
        refine ⟨{ s2 with
                  tensor_tag_to_state := aremove s2.tensor_tag_to_state
                    (s.current_group, s.tensor_count_current_group),
                  nextId := s2.nextId + 1 },
                { tid := s2.nextId, data := t.data, dev := t.dev,
                  pinned := false, activation_offloading := false,
                  needs_force_clear := false, do_not_clear := false,
                  isStray := false }, ?_, rfl⟩
        rw [sync_tensor_pop, hl]
        rfl
      · intro hc'
        exact absurd hc hc'
    · simp only [hg, hc, if_true, if_false, Bool.false_eq_true, not_false_iff,
        if_neg, Option.some_inj, Prod.mk.injEq] at hpush
      rcases hpush with ⟨hs1, htag⟩
      constructor
      · intro hc'
        exact absurd hc' hc
      · intro _
        have hl : alookup s2.tensor_tag_to_state
            (s.current_group, s.tensor_count_current_group) =
            some (SyncSlot.tens t) := by
          rw [htag, hslot, ← hs1, ← htag]
          exact alookup_ainsert_self _ _ _
        rw [← htag]
        refine ⟨{ s2 with
                  tensor_tag_to_state := aremove s2.tensor_tag_to_state
                    (s.current_group, s.tensor_count_current_group) }, ?_⟩
        rw [sync_tensor_pop, hl]
        rfl

/-- C8 counterexample: exiting the scoped context with all three handler
maps non-empty succeeds anyway; no LeakError (nor any other exception) is
raised by CpuOffloadSavedTensorHook.__exit__. -/
theorem hook_exit_no_leak_check :
    busy_handler.tensor_tag_to_state ≠ [] ∧
    busy_handler.fp8_tensor_object_map ≠ [] ∧
    busy_handler.tensor_tag_to_buf ≠ [] ∧
    (cpu_offload_hook_exit
      { cpuOffloadEnabled := true, insideContext := true, hooksDepth := 1 }
      busy_handler).isSome = true := by
  decide

/-- C8 amended: the scope exit unconditionally clears the global enabled
flag, leaves the context and pops the saved-tensor hooks; it never
inspects the handler maps and always succeeds, whatever their content. -/
theorem hook_exit_always_succeeds (g : HookGlobalState) (handler : AState) :
    cpu_offload_hook_exit g handler =
      some { cpuOffloadEnabled := false, insideContext := false,
             hooksDepth := g.hooksDepth - 1 } := rfl

/-- Inversion of a successful pair-valued computation. -/
theorem pair_eq_fst {α β : Type} {a c : α} {b d : β} (h : (a, b) = (c, d)) :
    a = c := congrArg Prod.fst h

/-- Second component of a pair equality. -/
theorem pair_eq_snd {α β : Type} {a c : α} {b d : β} (h : (a, b) = (c, d)) :
    b = d := congrArg Prod.snd h

/-- Shape of the shared dedup-or-restore step: only the dereferencing
list and the heap can change. -/
theorem dedup_restore_step_shape (tag : Tag) (tl : List Entry)
    (s s' : AState) (h : dedup_restore_step tag tl s = some s') :
    ∃ dl heap, s' = { s with dereferencing_list := dl, compHeap := heap } := by
  unfold dedup_restore_step at h
  by_cases hdl : tag ∈ s.dereferencing_list
  · rw [if_pos hdl] at h
    exact ⟨_, _, (Option.some.inj h).symm⟩
  · rw [if_neg hdl] at h
    simp only [Option.bind_eq_bind, Option.pure_def, Option.bind_eq_some] at h
    obtain ⟨cid, hcid, comp, hcomp, h⟩ := h
    exact ⟨_, _, (Option.some.inj h).symm⟩

/-- Shape of the _do_not_clear step: only the heap can change. -/
theorem set_do_not_clear_step_shape (cid : Nat) (s s' : AState)
    (h : set_do_not_clear_step cid s = some s') :
    ∃ heap, s' = { s with compHeap := heap } := by
  unfold set_do_not_clear_step at h
  by_cases hdb : s.double_buffering = true
  · rw [if_pos hdb] at h
    simp only [Option.bind_eq_bind, Option.pure_def, Option.bind_eq_some] at h
    obtain ⟨comp, hcomp, h⟩ := h
    exact ⟨_, (Option.some.inj h).symm⟩
  · rw [if_neg hdb] at h
    exact ⟨s.compHeap, (Option.some.inj h).symm⟩

/-- Under double buffering the _do_not_clear step writes the attribute
into the heap object of the returned composite. -/
theorem set_do_not_clear_step_db (cid : Nat) (s s' : AState)
    (h : set_do_not_clear_step cid s = some s')
    (hdb : s.double_buffering = true) :
    ∃ comp, alookup s.compHeap cid = some comp ∧
      s' = { s with compHeap :=
              ainsert s.compHeap cid { comp with do_not_clear := true } } := by
  unfold set_do_not_clear_step at h
  rw [if_pos hdb] at h
  simp only [Option.bind_eq_bind, Option.pure_def, Option.bind_eq_some] at h
  obtain ⟨comp, hcomp, h⟩ := h
  exact ⟨comp, hcomp, (Option.some.inj h).symm⟩

/-- Shape of the Float8 write-back step: only the transpose-flag cache
and the heap can change. -/
theorem reload_float8_step_shape (tag : Tag) (s s' : AState)
    (h : reload_float8_step tag s = some s') :
    ∃ cache heap, s' = { s with
      float8_transpose_cache_valid := cache, compHeap := heap } := by
  unfold reload_float8_step at h
  simp only [Option.bind_eq_bind, Option.pure_def] at h
  rw [Option.bind_eq_some] at h
  obtain ⟨cid, hcid, h⟩ := h
  rw [Option.bind_eq_some] at h
  obtain ⟨comp, hcomp, h⟩ := h
  by_cases hf8 : comp.isFloat8 = true
  · rw [if_pos hf8] at h
    simp only [Option.bind_eq_some] at h
    obtain ⟨b, hb, h⟩ := h
    exact ⟨_, _, (Option.some.inj h).symm⟩
  · rw [if_neg hf8] at h
    exact ⟨_, _, (Option.some.inj h).symm⟩

/-- C9: with double buffering enabled, the asynchronous tensor_pop sets
_do_not_clear = True on every value it returns, composites and plain
tensors alike; in particular a tensor that was stored as-is (strays and
unmarked passthrough tensors included) comes back as that very tensor
mutated with the new attribute. -/
theorem async_pop_sets_do_not_clear (s : AState) (tag : Tag) (s' : AState)
    (v : PopVal) (hdb : s.double_buffering = true)
    (hpop : async_tensor_pop s tag = some (s', v)) :
    pop_do_not_clear s' v = true ∧
    (∀ t, alookup s.tensor_tag_to_state tag = some (Slot.tens t) →
      v = PopVal.tens { t with do_not_clear := true }) := by
  unfold async_tensor_pop at hpop
  rcases hsl : alookup s.tensor_tag_to_state tag with _ | slot
  · rw [hsl] at hpop
    simp only [Option.pure_def, Option.bind_eq_bind, Option.none_bind] at hpop
    exact absurd hpop (by simp)
  · rw [hsl] at hpop
    rcases slot with t | ⟨d, h⟩ | es | cid
    · simp only [Option.pure_def, Option.bind_eq_bind, Option.some_bind,
        hdb, eq_self_iff_true, if_true] at hpop
      have h1 := Option.some.inj hpop
      have hs' : s' = _ := (pair_eq_fst h1).symm
      have hv : v = PopVal.tens { t with do_not_clear := true } :=
        (pair_eq_snd h1).symm
      subst hs'
      subst hv
      refine ⟨rfl, fun t' ht' => ?_⟩
      rw [(Slot.tens.inj (Option.some.inj ht'))]
    · simp only [Option.pure_def, Option.bind_eq_bind, Option.some_bind] at hpop
      exact absurd hpop (by simp)
    · simp only [Option.pure_def, Option.bind_eq_bind, Option.some_bind,
        Option.bind_eq_some] at hpop
      obtain ⟨s1, hded, cid, hfp8, s2, hset, hpop⟩ := hpop
      obtain ⟨dl1, heap1, rfl⟩ := dedup_restore_step_shape _ _ _ _ hded
      obtain ⟨comp, hcomp, rfl⟩ := set_do_not_clear_step_db _ _ _ hset hdb
      have h1 := Option.some.inj hpop
      have hv : v = PopVal.comp cid := (pair_eq_snd h1).symm
      have hs' : s' = _ := (pair_eq_fst h1).symm
      subst hv
      subst hs'
      refine ⟨?_, fun t' ht' => by simp at ht'⟩
      simp [pop_do_not_clear, alookup_ainsert_self]
    · simp only [Option.pure_def, Option.bind_eq_bind, Option.some_bind,
        Option.bind_eq_some] at hpop
      obtain ⟨s2, hset, hpop⟩ := hpop
      obtain ⟨comp, hcomp, rfl⟩ := set_do_not_clear_step_db _ _ _ hset hdb
      have h1 := Option.some.inj hpop
      have hv : v = PopVal.comp cid := (pair_eq_snd h1).symm
      have hs' : s' = _ := (pair_eq_fst h1).symm
      subst hv
      subst hs'
      refine ⟨?_, fun t' ht' => by simp at ht'⟩
      simp [pop_do_not_clear, alookup_ainsert_self]

/-- Shape of one bulk-offload iteration: only the slot map and the
fresh-object counter can change. -/
theorem bulk_offload_entry_shape (chk : PTensor → Bool) (g : Int)
    (s s' : AState) (p : Tag × Slot)
    (h : bulk_offload_entry chk g s p = some s') :
    ∃ m n, s' = { s with tensor_tag_to_state := m, nextId := n } := by
  unfold bulk_offload_entry at h
  by_cases hg : p.1.1 = g
  · rw [if_pos hg] at h
    rcases p with ⟨tag, sl⟩
    rcases sl with t | ⟨d, ht⟩ | es | cid
    · simp only [Option.some_inj] at h
      exact ⟨_, _, h.symm⟩
    · simp at h
    · simp only [Option.some_inj] at h
      exact ⟨_, _, h.symm⟩
    · simp only [Option.some_inj] at h
      exact ⟨_, _, h.symm⟩
  · rw [if_neg hg] at h
    simp only [Option.some_inj] at h
    exact ⟨s.tensor_tag_to_state, s.nextId, h.symm⟩

/-- Shape of the bulk-offload loop. -/
theorem bulk_offload_fold_shape (chk : PTensor → Bool) (g : Int) :
    ∀ (li : List (Tag × Slot)) (s s' : AState),
      bulk_offload_fold chk g s li = some s' →
      ∃ m n, s' = { s with tensor_tag_to_state := m, nextId := n } := by
  intro li
  induction li with
  | nil =>
      intro s s' h
      simp only [bulk_offload_fold, Option.some_inj] at h
      exact ⟨s.tensor_tag_to_state, s.nextId, h.symm⟩
  | cons p ps ih =>
      intro s s' h
      rw [bulk_offload_fold] at h
      simp only [Option.bind_eq_bind, Option.bind_eq_some] at h
      obtain ⟨s1, hstep, hrest⟩ := h
      obtain ⟨m, n, rfl⟩ := bulk_offload_entry_shape chk g s s1 p hstep
      obtain ⟨m2, n2, rfl⟩ := ih _ _ hrest
      exact ⟨m2, n2, rfl⟩

/-- Shape of bulk_offload_group. -/
theorem bulk_offload_group_shape (chk : PTensor → Bool) (g : Int)
    (s s' : AState) (h : bulk_offload_group chk s g = some s') :
    ∃ m n, s' = { s with tensor_tag_to_state := m, nextId := n } :=
  bulk_offload_fold_shape chk g s.tensor_tag_to_state s s' h

/-- Unfolding of the buffer release step. -/
theorem free_bufs_of_group_eq (s : AState) (g : Nat) :
    free_bufs_of_group s g =
      { s with
        tensor_tag_to_buf := s.tensor_tag_to_buf.map fun p =>
          if p.1.1 = (g : Int) then (p.1, BufVal.noneB) else p } := rfl

/-- Shape of the first forward-sync block: only the slot map, the first
double-buffer half and the fresh-object counter can change. -/
theorem sync_fwd_step1_shape (chk : PTensor → Bool) (cur : Int)
    (s s' : AState) (h : sync_fwd_step1 chk cur s = some s') :
    ∃ m r1 n, s' = { s with
      tensor_tag_to_state := m,
      reload_double_buffer_fst := r1,
      nextId := n } := by
  unfold sync_fwd_step1 at h
  by_cases hc : cur = 0
  · rw [if_pos hc] at h
    by_cases hdb : ¬ s.double_buffer_created
    · rw [if_pos hdb] at h
      simp only [Option.bind_eq_bind, Option.pure_def, Option.some_bind] at h
      rw [Option.bind_eq_some] at h
      obtain ⟨⟨half, nid⟩, hbb, h⟩ := h
      obtain ⟨m, n, rfl⟩ := bulk_offload_group_shape chk 0 _ _ h
      exact ⟨m, _, n, rfl⟩
    · rw [if_neg hdb] at h
      simp only [Option.bind_eq_bind, Option.pure_def, Option.some_bind] at h
      obtain ⟨m, n, rfl⟩ := bulk_offload_group_shape chk 0 _ _ h
      exact ⟨m, _, n, rfl⟩
  · rw [if_neg hc] at h
    exact ⟨_, _, _, (Option.some.inj h).symm⟩

/-- Shape of the window block: only the slot map, the buf map, the
offloaded-group counter and the fresh-object counter can change. -/
theorem sync_fwd_step2_shape (chk : PTensor → Bool) (cur : Int)
    (s s' : AState) (h : sync_fwd_step2 chk cur s = some s') :
    ∃ m bufm ogc2 n, s' = { s with
      tensor_tag_to_state := m,
      tensor_tag_to_buf := bufm,
      offloaded_group_count := ogc2,
      nextId := n } := by
  unfold sync_fwd_step2 at h
  simp only [Option.bind_eq_bind, Option.pure_def] at h
  rw [Option.bind_eq_some] at h
  obtain ⟨w, hw, h⟩ := h
  by_cases hww : w = cur
  · rw [if_pos hww] at h
    simp only [free_bufs_of_group_eq] at h
    by_cases hog : s.offloaded_group_count < s.num_offload_group - 1
    · rw [if_pos hog] at h
      rw [Option.bind_eq_some] at h
      obtain ⟨sb, hb, hcc⟩ := h
      obtain ⟨m, n, rfl⟩ := bulk_offload_group_shape _ _ _ _ hb
      exact ⟨m, _, _, n, (Option.some.inj hcc).symm⟩
    · rw [if_neg hog] at h
      exact ⟨_, _, _, _, (Option.some.inj h).symm⟩
  · rw [if_neg hww] at h
    exact ⟨_, _, _, _, (Option.some.inj h).symm⟩

/-- Shape of the final forward-sync block: only the second double-buffer
half, the created flag and the fresh-object counter can change. -/
theorem sync_fwd_step3_shape (cur : Int) (s s' : AState)
    (h : sync_fwd_step3 cur s = some s') :
    ∃ r2 c n, s' = { s with
      reload_double_buffer_snd := r2,
      double_buffer_created := c,
      nextId := n } := by
  unfold sync_fwd_step3 at h
  by_cases hcr : ¬ s.double_buffer_created
  · rw [if_pos hcr] at h
    by_cases hcur : cur = (s.num_layers : Int) - 1
    · rw [if_pos hcur] at h
      simp only [Option.bind_eq_bind, Option.bind_eq_some, Option.pure_def,
        Option.some_inj] at h
      obtain ⟨⟨l2, nid2⟩, hfold, rfl⟩ := h
      exact ⟨_, _, _, rfl⟩
    · rw [if_neg hcur] at h
      exact ⟨_, _, _, (Option.some.inj h).symm⟩
  · rw [if_neg hcr] at h
    exact ⟨_, _, _, (Option.some.inj h).symm⟩

/-- Shape of the forward-commit synchronization: the slot map, the buf
map, the double buffers with their created flag, the offloaded-group
counter and the fresh-object counter can change; everything else,
current_group and the composite bookkeeping included, is untouched. -/
theorem sync_commit_fwd_shape (chk : PTensor → Bool) (s s' : AState)
    (h : synchronize_on_group_commit_forward chk s = some s') :
    ∃ m bufm r1 r2 c ogc2 n,
      s' = { s with
             tensor_tag_to_state := m,
             tensor_tag_to_buf := bufm,
             reload_double_buffer_fst := r1,
             reload_double_buffer_snd := r2,
             double_buffer_created := c,
             offloaded_group_count := ogc2,
             nextId := n } := by
  unfold synchronize_on_group_commit_forward at h
  simp only [Option.bind_eq_bind] at h
  rw [Option.bind_eq_some] at h
  obtain ⟨s1, h1, h⟩ := h
  rw [Option.bind_eq_some] at h
  obtain ⟨s2, h2, h3⟩ := h
  obtain ⟨m1, r1a, n1, rfl⟩ := sync_fwd_step1_shape _ _ _ _ h1
  obtain ⟨m2, bufm2, ogc2, n2, rfl⟩ := sync_fwd_step2_shape _ _ _ _ h2
  obtain ⟨r2, c, n3, rfl⟩ := sync_fwd_step3_shape _ _ _ h3
  exact ⟨m2, bufm2, r1a, r2, c, ogc2, n3, rfl⟩

/-- Shape of the full forward commit: as the synchronization, plus the
advance of current_group and the reset of the intra-group counter. -/
theorem on_group_commit_forward_shape (chk : PTensor → Bool) (s s' : AState)
    (h : on_group_commit_forward chk s = some s') :
    s'.current_group = s.current_group + 1 ∧
    s'.tensor_count_current_group = 0 ∧
    s'.torch_tensor_count = s.torch_tensor_count ∧
    s'.num_offload_group = s.num_offload_group ∧
    s'.num_layers = s.num_layers ∧
    s'.layer_window_map = s.layer_window_map ∧
    s'.double_buffering = s.double_buffering ∧
    s'.fp8_tensor_object_map = s.fp8_tensor_object_map ∧
    s'.float8_transpose_cache_valid = s.float8_transpose_cache_valid ∧
    s'.dereferencing_list = s.dereferencing_list ∧
    s'.compHeap = s.compHeap := by
  unfold on_group_commit_forward at h
  simp only [Option.bind_eq_bind, Option.pure_def] at h
  rw [Option.bind_eq_some] at h
  obtain ⟨s1, h1, h2⟩ := h
  obtain ⟨m, bufm, r1, r2, c, ogc2, n, rfl⟩ := sync_commit_fwd_shape _ _ _ h1
  rw [← Option.some.inj h2]
  exact ⟨rfl, rfl, rfl, rfl, rfl, rfl, rfl, rfl, rfl, rfl, rfl⟩

/-- Shape of the composite element walk on reload: only the fresh-object
counter of the state can change. -/
theorem reload_list_elems_shape :
    ∀ (es : List Entry) (s : AState) (dbIdx bufIdx : Nat) (s' : AState)
      (b' : Nat) (tl : List Entry),
      reload_list_elems s dbIdx bufIdx es = some (s', b', tl) →
      ∃ n, s' = { s with nextId := n } := by
  intro es
  induction es with
  | nil =>
      intro s dbIdx bufIdx s' b' tl h
      simp only [reload_list_elems, Option.some_inj, Prod.mk.injEq] at h
      exact ⟨s.nextId, h.1.symm⟩
  | cons e rest ih =>
      intro s dbIdx bufIdx s' b' tl h
      rw [reload_list_elems] at h
      simp only [Option.bind_eq_bind, Option.pure_def] at h
      rw [Option.bind_eq_some] at h
      obtain ⟨rb, hrb, h⟩ := h
      rcases e with _ | t | ⟨d, host⟩
      · rw [Option.bind_eq_some] at h
        obtain ⟨⟨s1, b1, tl1⟩, h1, h2⟩ := h
        obtain ⟨n, rfl⟩ := ih _ _ _ _ _ _ h1
        have h3 := Option.some.inj h2
        exact ⟨n, (pair_eq_fst h3).symm⟩
      · rw [Option.bind_eq_some] at h
        obtain ⟨⟨s1, b1, tl1⟩, h1, h2⟩ := h
        obtain ⟨n, rfl⟩ := ih _ _ _ _ _ _ h1
        have h3 := Option.some.inj h2
        exact ⟨n, (pair_eq_fst h3).symm⟩
      · rw [Option.bind_eq_some] at h
        obtain ⟨⟨t2, nid⟩, hrl, h⟩ := h
        rw [Option.bind_eq_some] at h
        obtain ⟨⟨s1, b1, tl1⟩, h1, h2⟩ := h
        obtain ⟨n, rfl⟩ := ih _ _ _ _ _ _ h1
        have h3 := Option.some.inj h2
        exact ⟨n, (pair_eq_fst h3).symm⟩

/-- Shape of one bulk-reload iteration: the slot map, the dereferencing
list, the composite bookkeeping maps, the heap and the fresh-object
counter can change. -/
theorem bulk_reload_entry_shape (s : AState) (dbIdx bufIdx : Nat) (g : Int)
    (p : Tag × Slot) (s' : AState) (b' : Nat)
    (h : bulk_reload_entry s dbIdx bufIdx g p = some (s', b')) :
    ∃ m dl fp cache heap n, s' = { s with
      tensor_tag_to_state := m,
      dereferencing_list := dl,
      fp8_tensor_object_map := fp,
      float8_transpose_cache_valid := cache,
      compHeap := heap,
      nextId := n } := by
  unfold bulk_reload_entry at h
  by_cases hg : p.1.1 = g
  · rw [if_pos hg] at h
    simp only [Option.bind_eq_bind, Option.pure_def] at h
    rw [Option.bind_eq_some] at h
    obtain ⟨rb0, hrb0, h⟩ := h
    rcases hp : p.2 with t | ⟨d, host⟩ | es | cid <;> rw [hp] at h
    · exact ⟨_, _, _, _, _, _, (pair_eq_fst (Option.some.inj h)).symm⟩
    · rw [Option.bind_eq_some] at h
      obtain ⟨rb, hrb, h⟩ := h
      rw [Option.bind_eq_some] at h
      obtain ⟨⟨t2, nid⟩, hrl, h⟩ := h
      exact ⟨_, _, _, _, _, _, (pair_eq_fst (Option.some.inj h)).symm⟩
    · rw [Option.bind_eq_some] at h
      obtain ⟨⟨s1, b1, tl⟩, hel, h⟩ := h
      obtain ⟨n1, rfl⟩ := reload_list_elems_shape _ _ _ _ _ _ _ hel
      rw [Option.bind_eq_some] at h
      obtain ⟨s2, hded, h⟩ := h
      obtain ⟨dl2, heap2, rfl⟩ := dedup_restore_step_shape _ _ _ _ hded
      rw [Option.bind_eq_some] at h
      obtain ⟨s3, hf8, h⟩ := h
      obtain ⟨cache3, heap3, rfl⟩ := reload_float8_step_shape _ _ _ hf8
      rw [Option.bind_eq_some] at h
      obtain ⟨cid2, hcid2, h⟩ := h
      exact ⟨_, _, _, _, _, _, (pair_eq_fst (Option.some.inj h)).symm⟩
    · exact ⟨_, _, _, _, _, _, (pair_eq_fst (Option.some.inj h)).symm⟩
  · rw [if_neg hg] at h
    exact ⟨_, _, _, _, _, _, (pair_eq_fst (Option.some.inj h)).symm⟩

/-- Shape of the bulk-reload loop. -/
theorem bulk_reload_fold_shape (dbIdx : Nat) (g : Int) :
    ∀ (li : List (Tag × Slot)) (s : AState) (bufIdx : Nat) (s' : AState),
      bulk_reload_fold dbIdx g s bufIdx li = some s' →
      ∃ m dl fp cache heap n, s' = { s with
        tensor_tag_to_state := m,
        dereferencing_list := dl,
        fp8_tensor_object_map := fp,
        float8_transpose_cache_valid := cache,
        compHeap := heap,
        nextId := n } := by
  intro li
  induction li with
  | nil =>
      intro s bufIdx s' h
      simp only [bulk_reload_fold, Option.some_inj] at h
      exact ⟨_, _, _, _, _, _, h.symm⟩
  | cons p ps ih =>
      intro s bufIdx s' h
      rw [bulk_reload_fold] at h
      simp only [Option.bind_eq_bind, Option.bind_eq_some] at h
      obtain ⟨⟨s1, b1⟩, hstep, hrest⟩ := h
      obtain ⟨m, dl, fp, cache, heap, n, rfl⟩ :=
        bulk_reload_entry_shape _ _ _ _ _ _ _ hstep
      obtain ⟨m2, dl2, fp2, cache2, heap2, n2, rfl⟩ := ih _ _ _ hrest
      exact ⟨m2, dl2, fp2, cache2, heap2, n2, rfl⟩

/-- Shape of bulk_reload_group. -/
theorem bulk_reload_group_shape (s : AState) (g : Nat) (s' : AState)
    (h : bulk_reload_group s g = some s') :
    ∃ m dl fp cache heap n, s' = { s with
      tensor_tag_to_state := m,
      dereferencing_list := dl,
      fp8_tensor_object_map := fp,
      float8_transpose_cache_valid := cache,
      compHeap := heap,
      nextId := n } := by
  unfold bulk_reload_group at h
  by_cases hg : g < s.num_offload_group
  · rw [if_pos hg] at h
    exact bulk_reload_fold_shape _ _ _ _ _ _ h
  · rw [if_neg hg] at h
    simp at h

/-- Shape of the backward window block: additionally the offloaded-group
counter can change. -/
theorem bwd_window_step_shape (s s' : AState)
    (h : bwd_window_step s = some s') :
    ∃ m dl fp cache heap ogc2 n, s' = { s with
      tensor_tag_to_state := m,
      dereferencing_list := dl,
      fp8_tensor_object_map := fp,
      float8_transpose_cache_valid := cache,
      compHeap := heap,
      offloaded_group_count := ogc2,
      nextId := n } := by
  unfold bwd_window_step at h
  simp only [Option.bind_eq_bind, Option.pure_def] at h
  rw [Option.bind_eq_some] at h
  obtain ⟨w, hw, h⟩ := h
  by_cases hww : w = s.current_group
  · rw [if_pos hww] at h
    rw [Option.bind_eq_some] at h
    obtain ⟨s1, h1, h2⟩ := h
    obtain ⟨m, dl, fp, cache, heap, n, rfl⟩ := bulk_reload_group_shape _ _ _ h1
    exact ⟨m, dl, fp, cache, heap, _, n, (Option.some.inj h2).symm⟩
  · rw [if_neg hww] at h
    exact ⟨_, _, _, _, _, _, _, (Option.some.inj h).symm⟩

/-- Shape of the full backward commit: current_group is exactly
decremented; the window machinery may touch the slot map, the composite
bookkeeping, the heap, the group counter and the fresh-object counter;
everything else is untouched. -/
theorem on_group_commit_backward_shape (s s' : AState)
    (h : on_group_commit_backward s = some s') :
    ∃ m dl fp cache heap ogc2 n, s' = { s with
      current_group := s.current_group - 1,
      tensor_tag_to_state := m,
      dereferencing_list := dl,
      fp8_tensor_object_map := fp,
      float8_transpose_cache_valid := cache,
      compHeap := heap,
      offloaded_group_count := ogc2,
      nextId := n } := by
  unfold on_group_commit_backward at h
  by_cases hneg : s.current_group - 1 < 0
  · rw [if_pos hneg] at h
    simp at h
  · rw [if_neg hneg] at h
    simp only [Option.bind_eq_bind, Option.pure_def] at h
    rw [Option.bind_eq_some] at h
    obtain ⟨s1, h1, h2⟩ := h
    obtain ⟨m, dl, fp, cache, heap, ogc2, n, rfl⟩ := bwd_window_step_shape _ _ h1
    by_cases hz : s.current_group - 1 = 0
    · rw [if_pos hz] at h2
      exact ⟨m, dl, fp, cache, heap, _, n, (Option.some.inj h2).symm⟩
    · rw [if_neg hz] at h2
      exact ⟨m, dl, fp, cache, heap, ogc2, n, (Option.some.inj h2).symm⟩

/-- Shape of the asynchronous tensor_push: the slot and buf maps, the
composite bookkeeping, the heap and the two push counters can change;
current_group, the window plan and the group counter are untouched. -/
theorem async_tensor_push_shape (chk : PTensor → Bool) (p : PushSpec)
    (s s' : AState) (tag : Tag)
    (h : async_tensor_push chk s p = some (s', tag)) :
    ∃ m bufm fp cache dl heap tcc ttc, s' = { s with
      tensor_tag_to_state := m,
      tensor_tag_to_buf := bufm,
      fp8_tensor_object_map := fp,
      float8_transpose_cache_valid := cache,
      dereferencing_list := dl,
      compHeap := heap,
      tensor_count_current_group := tcc,
      torch_tensor_count := ttc } := by
  rcases p with t | cid
  all_goals rw [async_tensor_push] at h
  · by_cases hst : t.isStray = true
    · rw [if_pos hst] at h
      exact ⟨_, _, _, _, _, _, _, _, (pair_eq_fst (Option.some.inj h)).symm⟩
    · rw [if_neg hst] at h
      by_cases hmem : amem s.tensor_tag_to_state
          (s.current_group, s.tensor_count_current_group)
      · rw [if_pos hmem] at h
        simp at h
      · rw [if_neg hmem] at h
        by_cases hc : s.current_group < (s.num_offload_group : Int) ∧ chk t = true
        · rw [if_pos hc] at h
          exact ⟨_, _, _, _, _, _, _, _, (pair_eq_fst (Option.some.inj h)).symm⟩
        · rw [if_neg hc] at h
          exact ⟨_, _, _, _, _, _, _, _, (pair_eq_fst (Option.some.inj h)).symm⟩
  · by_cases hmem : amem s.tensor_tag_to_state
        (s.current_group, s.tensor_count_current_group)
    · rw [if_pos hmem] at h
      simp at h
    · rw [if_neg hmem] at h
      simp only [Option.bind_eq_bind, Option.pure_def] at h
      rw [Option.bind_eq_some] at h
      obtain ⟨comp, hcomp, h⟩ := h
      by_cases hcl : (push_quant_loop chk
          (decide (s.current_group < (s.num_offload_group : Int))) cid
          (prepare_for_saving comp).1).2.2 = true
      · rw [if_pos hcl] at h
        rw [Option.bind_eq_some] at h
        obtain ⟨c2, hc2, h⟩ := h
        exact ⟨_, _, _, _, _, _, _, _, (pair_eq_fst (Option.some.inj h)).symm⟩
      · rw [if_neg hcl] at h
        exact ⟨_, _, _, _, _, _, _, _, (pair_eq_fst (Option.some.inj h)).symm⟩

/-- C2 counterexample: with enabled=false and offload_activations=true
the factory does return a nullcontext, and the returned synchronizer
returns the very tensor it is given, but it is not an identity on the
handler: one application advances current_group of the freshly
constructed handler from 0 to 1 (and mutates further state), so it does
have an effect on handler state. -/
theorem disabled_factory_mutates_state :
    ((get_cpu_offload_context false 1 1 true false false [] 0).bind fun r =>
      r.handler.bind fun h =>
        (apply_synchronizer r.sync h probe_tensor).map fun p =>
          (r.ctx, decide (p.2 = probe_tensor), p.1.current_group,
            h.current_group, decide (p.1 = h))) =
      some (CtxKind.nullCtx, true, 1, 0, false) := by
  decide

/-- C2 amended: with enabled=false (and activations offload requested)
the factory returns a nullcontext and the group-commit synchronizer
closed over a freshly constructed handler; that synchronizer returns its
tensor argument unchanged but advances the handler's current_group.  The
pure identity lambda (with no handler at all) is returned only on the
deprecated weights-only path. -/
theorem disabled_factory_value_identity (G L : Nat) (db : Bool)
    (heap0 : List (Nat × Composite)) (nid : Nat) :
    (get_cpu_offload_context false G L true false db heap0 nid =
      some { ctx := CtxKind.nullCtx, sync := SyncKind.commitClosure,
             handler := some (async_init G L db heap0 nid) }) ∧
    (∀ s t s' t', apply_synchronizer SyncKind.commitClosure s t =
        some (s', t') →
      t' = t ∧ s'.current_group = s.current_group + 1) ∧
    (get_cpu_offload_context false G L false true db heap0 nid =
      some { ctx := CtxKind.nullCtx, sync := SyncKind.identityLambda,
             handler := none }) ∧
    (∀ s t, apply_synchronizer SyncKind.identityLambda s t = some (s, t)) := by
  refine ⟨rfl, ?_, rfl, fun s t => rfl⟩
  intro s t s' t' h
  unfold apply_synchronizer at h
  simp only [Option.bind_eq_bind, Option.pure_def, Option.bind_eq_some] at h
  obtain ⟨s1, h1, h2⟩ := h
  have hfields := on_group_commit_forward_shape _ _ _ h1
  have hs' : s' = s1 := (pair_eq_fst (Option.some.inj h2)).symm
  have ht' : t' = t := (pair_eq_snd (Option.some.inj h2)).symm
  subst hs'
  exact ⟨ht', hfields.1⟩

/-- Lookup distributes over append when the key is found on the left. -/
theorem alookup_append_left {α β : Type} [DecidableEq α]
    {l1 : List (α × β)} {k : α} {v : β} (l2 : List (α × β))
    (h : alookup l1 k = some v) : alookup (l1 ++ l2) k = some v := by
  induction l1 with
  | nil => simp [alookup] at h
  | cons p rest ih =>
      by_cases hp : p.1 = k
      · simp only [alookup, if_pos hp] at h
        simp [alookup, hp, h]
      · simp only [alookup, if_neg hp] at h
        simpa [alookup, hp] using ih h

/-- Lookup skips to the right part when the key is absent on the left. -/
theorem alookup_append_right {α β : Type} [DecidableEq α]
    {l1 : List (α × β)} {k : α} (l2 : List (α × β))
    (h : alookup l1 k = none) : alookup (l1 ++ l2) k = alookup l2 k := by
  induction l1 with
  | nil => simp
  | cons p rest ih =>
      by_cases hp : p.1 = k
      · simp [alookup, hp] at h
      · simp only [alookup, if_neg hp] at h
        simpa [alookup, hp] using ih h

/-- Keys of the window map built over an initial range are the range. -/
theorem alookup_range_map_none (f : Nat → Int) (n : Nat) :
    alookup ((List.range n).map fun (j : Nat) => ((j : Int), f j)) (n : Int) =
      none := by
  have hkeys : ((List.range n).map fun (j : Nat) => ((j : Int), f j)).map
      Prod.fst = (List.range n).map (fun (j : Nat) => (j : Int)) := by
    rw [List.map_map]
    simp [Function.comp]
  rw [alookup_eq_none, hkeys]
  intro hmem
  rw [List.mem_map] at hmem
  obtain ⟨j, hj, hje⟩ := hmem
  rw [List.mem_range] at hj
  omega

/-- Lookup in the range-indexed window map. -/
theorem alookup_range_map (f : Nat → Int) (n : Nat) (i : Nat) (hi : i < n) :
    alookup ((List.range n).map fun (j : Nat) => ((j : Int), f j)) (i : Int) =
      some (f i) := by
  induction n with
  | zero => omega
  | succ n ih =>
      rw [List.range_succ, List.map_append]
      by_cases hin : i < n
      · exact alookup_append_left _ (ih hin)
      · have hin' : i = n := by omega
        subst hin'
        rw [alookup_append_right _ (alookup_range_map_none f i)]
        simp [alookup]

/-- Characterization of the layer-window construction loop: after n
iterations the map holds the closed-form windows of 0..n-1 and the
constant accumulator equals min n (L mod G). -/
theorem layer_window_build_aux (L G : Nat) :
    ∀ n, (List.range n).foldl
      (fun (acc : List (Int × Int) × Int) (i : Nat) =>
        let base : Int := ((L / G : Nat) : Int) * ((i : Int) + 1) - 1
        if i < L % G then
          (ainsert acc.1 (i : Int) (base + ((i : Int) + 1)), (i : Int) + 1)
        else
          (ainsert acc.1 (i : Int) (base + acc.2), acc.2))
      ([], 0) =
      ((List.range n).map fun (j : Nat) => ((j : Int), wSpec L G j),
        ((min n (L % G) : Nat) : Int)) := by
  intro n
  induction n with
  | zero => simp
  | succ n ih =>
      rw [List.range_succ, List.foldl_append, ih]
      simp only [List.foldl_cons, List.foldl_nil]
      rw [List.map_append]
      by_cases hn : n < L % G
      · rw [if_pos hn]
        rw [ainsert_app_of_fresh _ (alookup_range_map_none _ n)]
        rw [Prod.mk.injEq]
        constructor
        · simp only [List.map_cons, List.map_nil]
          have hw : wSpec L G n =
              ((L / G : Nat) : Int) * ((n : Int) + 1) - 1 + ((n : Int) + 1) := by
            unfold wSpec
            have : min (n + 1) (L % G) = n + 1 := by omega
            rw [this]
            push_cast
            ring
          rw [hw]
        · have : min (n + 1) (L % G) = n + 1 := by omega
          rw [this]
          push_cast
          ring
      · rw [if_neg hn]
        rw [ainsert_app_of_fresh _ (alookup_range_map_none _ n)]
        rw [Prod.mk.injEq]
        constructor
        · simp only [List.map_cons, List.map_nil]
          have hw : wSpec L G n =
              ((L / G : Nat) : Int) * ((n : Int) + 1) - 1 +
                ((min n (L % G) : Nat) : Int) := by
            unfold wSpec
            have : min (n + 1) (L % G) = min n (L % G) := by omega
            rw [this]
          rw [hw]
        · have : min (n + 1) (L % G) = min n (L % G) := by omega
          rw [this]

/-- The built window map is exactly the closed-form table. -/
theorem layer_window_build_eq (L G : Nat) :
    (layer_window_build L G).1 =
      (List.range G).map fun (j : Nat) => ((j : Int), wSpec L G j) := by
  unfold layer_window_build
  rw [layer_window_build_aux]

/-- C4: the window plan built by the asynchronous handler's constructor.
Every entry i < G equals floor(L/G)*(i+1) - 1 stretched by one for each
of the first (L mod G) windows up to i (absorbing the remainder exactly),
the map is strictly increasing in i, and the last window is L - 1. -/
theorem layer_window_plan (G L : Nat) (db : Bool)
    (heap0 : List (Nat × Composite)) (nid : Nat) (hG : 1 ≤ G) (hL : G ≤ L) :
    (∀ i, i < G →
      alookup (async_init G L db heap0 nid).layer_window_map (i : Int) =
        some (((L / G : Nat) : Int) * ((i : Int) + 1) - 1 +
          ((min (i + 1) (L % G) : Nat) : Int))) ∧
    (∀ i j vi vj, i < j → j < G →
      alookup (async_init G L db heap0 nid).layer_window_map (i : Int) =
        some vi →
      alookup (async_init G L db heap0 nid).layer_window_map (j : Int) =
        some vj →
      vi < vj) ∧
    alookup (async_init G L db heap0 nid).layer_window_map ((G : Int) - 1) =
      some ((L : Int) - 1) := by
  have hmap : (async_init G L db heap0 nid).layer_window_map =
      (List.range G).map fun (j : Nat) => ((j : Int), wSpec L G j) :=
    layer_window_build_eq L G
  have hq : 1 ≤ L / G := (Nat.one_le_div_iff (by omega)).mpr hL
  have hmono : ∀ i j, i < j → j < G → wSpec L G i < wSpec L G j := by
    intro i j hij hj
    have h1 : (L / G) * (i + 1) < (L / G) * (j + 1) :=
      mul_lt_mul_of_pos_left (by omega) (by omega)
    have h2 : min (i + 1) (L % G) ≤ min (j + 1) (L % G) := by omega
    have hNat : (L / G) * (i + 1) + min (i + 1) (L % G) <
        (L / G) * (j + 1) + min (j + 1) (L % G) := by omega
    unfold wSpec
    have hcast := (Int.ofNat_lt).mpr hNat
    push_cast at hcast
    push_cast
    linarith
  have hlast : wSpec L G (G - 1) = (L : Int) - 1 := by
    unfold wSpec
    have hR : L % G < G := Nat.mod_lt _ (by omega)
    have h2 : min (G - 1 + 1) (L % G) = L % G := by omega
    rw [h2]
    have hdm : L / G * G + L % G = L := by
      rw [Nat.mul_comm]
      exact Nat.div_add_mod L G
    have hcast : ((L / G : Nat) : Int) * (G : Int) + ((L % G : Nat) : Int) =
        (L : Int) := by
      rw [← Nat.cast_mul, ← Nat.cast_add, hdm]
    have hg1 : ((G - 1 : Nat) : Int) = (G : Int) - 1 := by omega
    rw [hg1]
    have hg : ((G : Int) - 1 + 1) = (G : Int) := by ring
    rw [hg]
    linarith
  refine ⟨?_, ?_, ?_⟩
  · intro i hi
    rw [hmap, alookup_range_map _ _ _ hi]
    rfl
  · intro i j vi vj hij hj hvi hvj
    rw [hmap, alookup_range_map _ _ _ (by omega)] at hvi
    rw [hmap, alookup_range_map _ _ _ hj] at hvj
    rw [← Option.some.inj hvi, ← Option.some.inj hvj]
    exact hmono i j hij hj
  · have hcast : ((G : Int) - 1) = ((G - 1 : Nat) : Int) := by omega
    rw [hcast, hmap, alookup_range_map _ _ _ (by omega), hlast]

/-- Witness for C4 at G = 2 groups, L = 5 layers. -/
theorem layer_window_plan_witness :
    (1 ≤ 2 ∧ 2 ≤ 5) ∧
    alookup (async_init 2 5 false [] 0).layer_window_map ((2 : Int) - 1) =
      some ((5 : Int) - 1) :=
  ⟨⟨by decide, by decide⟩,
    (layer_window_plan 2 5 false [] 0 (by decide) (by decide)).2.2⟩

/-- C10: mark_activation_offload dispatches on the exact runtime type.
None arguments are skipped without effect; an argument typed exactly
torch.Tensor or torch.nn.Parameter only gets activation_offloading set
(never needs_force_clear, and its data-tensor list is untouched); every
other argument is routed to the composite branch, which fails when
get_data_tensors is missing and otherwise marks each non-None data
tensor with both activation_offloading and needs_force_clear. -/
theorem mark_activation_offload_dispatch (o : MarkObj)
    (rest : List (Option MarkObj)) :
    mark_activation_offload false (none :: rest) =
      (mark_activation_offload false rest).map (fun r => none :: r) ∧
    (o.ty = PyType.torchTensor ∨ o.ty = PyType.nnParameter →
      mark_one o =
        some { o with self := { o.self with activation_offloading := true } }) ∧
    (o.ty = PyType.otherSubclass → o.hasGetDataTensors = false →
      mark_one o = none) ∧
    (o.ty = PyType.otherSubclass → o.hasGetDataTensors = true →
      mark_one o = some { o with dataTensors := o.dataTensors.map (Option.map fun t =>
        { t with activation_offloading := true, needs_force_clear := true }) }) ∧
    (∀ o', o.ty = PyType.torchTensor ∨ o.ty = PyType.nnParameter →
      mark_one o = some o' →
      o'.self.needs_force_clear = o.self.needs_force_clear ∧
      o'.dataTensors = o.dataTensors) := by
  refine ⟨rfl, ?_, ?_, ?_, ?_⟩
  · intro h
    unfold mark_one
    rw [if_pos h]
  · intro h hg
    simp [mark_one, h, hg]
  · intro h hg
    simp [mark_one, h, hg]
  · intro o' h ho'
    unfold mark_one at ho'
    rw [if_pos h] at ho'
    have he := Option.some.inj ho'
    subst he
    exact ⟨rfl, rfl⟩

/-- Witness for C10 at a concrete plain-typed argument. -/
theorem mark_activation_offload_dispatch_witness :
    mark_one plain_mark_obj = some { plain_mark_obj with
      self := { plain_mark_obj.self with activation_offloading := true } } :=
  (mark_activation_offload_dispatch plain_mark_obj []).2.1 (Or.inl rfl)

/-- Witness for C1: push then pop through a fresh synchronous handler
with the checker constantly true. -/
theorem sync_round_trip_witness :
    ∃ s1 tag, sync_tensor_push (fun _ => true) (sync_init 1 0) probe_tensor =
        some (s1, tag) ∧
      ∃ s3 t', sync_tensor_pop s1 tag = some (s3, t') ∧
        t'.data = probe_tensor.data := by
  rcases h : sync_tensor_push (fun _ => true) (sync_init 1 0) probe_tensor
    with _ | ⟨s1, tag⟩
  · exact absurd h (by decide)
  · exact ⟨s1, tag, rfl,
      (sync_round_trip (fun _ => true) (sync_init 1 0) probe_tensor s1 tag h
        s1 rfl).1 (by decide)⟩

/-- Witness for C2 amended: the commit-closure synchronizer applied to a
fresh handler returns the probe tensor itself and bumps current_group. -/
theorem disabled_factory_value_identity_witness :
    ∃ s' t', apply_synchronizer SyncKind.commitClosure
        (async_init 1 2 false [] 0) probe_tensor = some (s', t') ∧
      t' = probe_tensor ∧
      s'.current_group = (async_init 1 2 false [] 0).current_group + 1 := by
  rcases h : apply_synchronizer SyncKind.commitClosure
      (async_init 1 2 false [] 0) probe_tensor with _ | ⟨s', t'⟩
  · exact absurd h (by decide)
  · exact ⟨s', t', rfl,
      (disabled_factory_value_identity 1 2 false [] 0).2.1
        (async_init 1 2 false [] 0) probe_tensor s' t' h⟩

/-- Witness for C9: popping the stored passthrough tensor under double
buffering returns it with _do_not_clear set. -/
theorem async_pop_sets_do_not_clear_witness :
    ∃ s' v, async_tensor_pop pop_probe_state (0, 0) = some (s', v) ∧
      pop_do_not_clear s' v = true := by
  rcases h : async_tensor_pop pop_probe_state (0, 0) with _ | ⟨s', v⟩
  · exact absurd h (by decide)
  · exact ⟨s', v, rfl,
      (async_pop_sets_do_not_clear pop_probe_state (0, 0) s' v rfl h).1⟩

/-- Appending a fresh element keeps a list duplicate-free. -/
theorem nodup_append_singleton {α : Type} {l : List α} {a : α}
    (hnd : l.Nodup) (ha : a ∉ l) : (l ++ [a]).Nodup := by
  induction l with
  | nil => simp
  | cons b bs ih =>
      rw [List.nodup_cons] at hnd
      rw [List.cons_append, List.nodup_cons]
      refine ⟨?_, ih hnd.2 (fun hm => ha (List.mem_cons_of_mem _ hm))⟩
      intro hb
      rcases List.mem_append.mp hb with hm | hm
      · exact hnd.1 hm
      · have hba : b = a := List.mem_singleton.mp hm
        subst hba
        exact ha (List.mem_cons_self _ _)

/-- One bulk-offload iteration rewrites only keys already present, so
the key list is unchanged. -/
theorem bulk_offload_entry_keys (chk : PTensor → Bool) (g : Int)
    (s s' : AState) (p : Tag × Slot) (hmem : p.1 ∈ stateKeys s)
    (h : bulk_offload_entry chk g s p = some s') :
    stateKeys s' = stateKeys s := by
  unfold bulk_offload_entry at h
  by_cases hg : p.1.1 = g
  · rw [if_pos hg] at h
    rcases p with ⟨tag, sl⟩
    rcases sl with t | ⟨d, ht⟩ | es | cid
    · rw [← Option.some.inj h]
      exact ainsert_keys_of_mem _ hmem
    · simp at h
    · rw [← Option.some.inj h]
      exact ainsert_keys_of_mem _ hmem
    · rw [← Option.some.inj h]
      exact ainsert_keys_of_mem _ hmem
  · rw [if_neg hg] at h
    rw [← Option.some.inj h]

/-- The bulk-offload loop keeps the key list when every visited key is
present. -/
theorem bulk_offload_fold_keys (chk : PTensor → Bool) (g : Int) :
    ∀ (li : List (Tag × Slot)) (s s' : AState),
      (∀ p ∈ li, p.1 ∈ stateKeys s) →
      bulk_offload_fold chk g s li = some s' →
      stateKeys s' = stateKeys s := by
  intro li
  induction li with
  | nil =>
      intro s s' hmem h
      simp only [bulk_offload_fold, Option.some_inj] at h
      rw [← h]
  | cons p ps ih =>
      intro s s' hmem h
      rw [bulk_offload_fold] at h
      simp only [Option.bind_eq_bind, Option.bind_eq_some] at h
      obtain ⟨s1, hstep, hrest⟩ := h
      have hk1 : stateKeys s1 = stateKeys s :=
        bulk_offload_entry_keys chk g s s1 p (hmem p (List.mem_cons_self _ _))
          hstep
      have hk2 : stateKeys s' = stateKeys s1 :=
        ih s1 s' (fun q hq => hk1 ▸ hmem q (List.mem_cons_of_mem _ hq)) hrest
      rw [hk2, hk1]

/-- bulk_offload_group keeps the key list. -/
theorem bulk_offload_group_keys (chk : PTensor → Bool) (g : Int)
    (s s' : AState) (h : bulk_offload_group chk s g = some s') :
    stateKeys s' = stateKeys s :=
  bulk_offload_fold_keys chk g s.tensor_tag_to_state s s'
    (fun p hp => List.mem_map_of_mem Prod.fst hp) h

/-- The first forward-sync block keeps the slot keys. -/
theorem sync_fwd_step1_keys (chk : PTensor → Bool) (cur : Int)
    (s s' : AState) (h : sync_fwd_step1 chk cur s = some s') :
    stateKeys s' = stateKeys s := by
  unfold sync_fwd_step1 at h
  by_cases hc : cur = 0
  · rw [if_pos hc] at h
    by_cases hdb : ¬ s.double_buffer_created
    · rw [if_pos hdb] at h
      simp only [Option.bind_eq_bind, Option.pure_def, Option.some_bind] at h
      rw [Option.bind_eq_some] at h
      obtain ⟨⟨half, nid⟩, hbb, h⟩ := h
      have hk := bulk_offload_group_keys chk 0 _ _ h
      exact hk
    · rw [if_neg hdb] at h
      simp only [Option.bind_eq_bind, Option.pure_def, Option.some_bind] at h
      exact bulk_offload_group_keys chk 0 _ _ h
  · rw [if_neg hc] at h
    rw [← Option.some.inj h]

/-- The window block keeps the slot keys. -/
theorem sync_fwd_step2_keys (chk : PTensor → Bool) (cur : Int)
    (s s' : AState) (h : sync_fwd_step2 chk cur s = some s') :
    stateKeys s' = stateKeys s := by
  unfold sync_fwd_step2 at h
  simp only [Option.bind_eq_bind, Option.pure_def] at h
  rw [Option.bind_eq_some] at h
  obtain ⟨w, hw, h⟩ := h
  by_cases hww : w = cur
  · rw [if_pos hww] at h
    by_cases hog : (free_bufs_of_group s s.offloaded_group_count
        ).offloaded_group_count <
        (free_bufs_of_group s s.offloaded_group_count).num_offload_group - 1
    · rw [if_pos hog] at h
      rw [Option.bind_eq_some] at h
      obtain ⟨sb, hb, hcc⟩ := h
      have hk : stateKeys sb =
          stateKeys (free_bufs_of_group s s.offloaded_group_count) :=
        bulk_offload_group_keys _ _ _ _ hb
      rw [← Option.some.inj hcc]
      exact hk
    · rw [if_neg hog] at h
      simp only [Option.some_bind] at h
      rw [← Option.some.inj h]
      rfl
  · rw [if_neg hww] at h
    rw [← Option.some.inj h]

/-- The final forward-sync block keeps the slot keys. -/
theorem sync_fwd_step3_keys (cur : Int) (s s' : AState)
    (h : sync_fwd_step3 cur s = some s') :
    stateKeys s' = stateKeys s := by
  obtain ⟨r2, c, n, rfl⟩ := sync_fwd_step3_shape cur s s' h
  rfl

/-- The forward commit barrier keeps the slot keys. -/
theorem on_group_commit_forward_keys (chk : PTensor → Bool) (s s' : AState)
    (h : on_group_commit_forward chk s = some s') :
    stateKeys s' = stateKeys s := by
  unfold on_group_commit_forward synchronize_on_group_commit_forward at h
  simp only [Option.bind_eq_bind, Option.pure_def] at h
  rw [Option.bind_eq_some] at h
  obtain ⟨s3, h3, hfin⟩ := h
  rw [Option.bind_eq_some] at h3
  obtain ⟨s1, h1, h23⟩ := h3
  rw [Option.bind_eq_some] at h23
  obtain ⟨s2, h2, h3'⟩ := h23
  rw [← Option.some.inj hfin]
  calc stateKeys s3 = stateKeys s2 := sync_fwd_step3_keys _ _ _ h3'
    _ = stateKeys s1 := sync_fwd_step2_keys _ _ _ _ h2
    _ = stateKeys s := sync_fwd_step1_keys _ _ _ _ h1

/-- Extending the slot dictionary by one fresh tag preserves the push
invariant. -/
theorem pushinv_extend {s s' : AState} {tag : Tag}
    (hkeys : stateKeys s' = stateKeys s ++ [tag])
    (hfresh : tag ∉ stateKeys s)
    (hcg : s'.current_group = s.current_group)
    (httc : s.torch_tensor_count ≤ s'.torch_tensor_count)
    (htag : tag.1 = -1 → tag.2 < s'.torch_tensor_count)
    (hinv : PushInv s) : PushInv s' := by
  refine ⟨by rw [hcg]; exact hinv.1, ?_, ?_⟩
  · intro i hm
    rw [hkeys] at hm
    rcases List.mem_append.mp hm with hm | hm
    · exact lt_of_lt_of_le (hinv.2.1 i hm) httc
    · have he : ((-1 : Int), i) = tag := List.mem_singleton.mp hm
      have h1 : tag.1 = -1 := by rw [← he]
      have h2 := htag h1
      rw [← he] at h2
      exact h2
  · rw [hkeys]
    exact nodup_append_singleton hinv.2.2 hfresh

/-- tensor_push of the asynchronous handler returns a tag that is fresh
with respect to the slot dictionary, appends exactly that key, preserves
the push invariant and leaves the group counter unchanged. -/
theorem async_tensor_push_tag (chk : PTensor → Bool) (p : PushSpec)
    (s s' : AState) (tag : Tag) (hinv : PushInv s)
    (h : async_tensor_push chk s p = some (s', tag)) :
    tag ∉ stateKeys s ∧
    stateKeys s' = stateKeys s ++ [tag] ∧
    PushInv s' ∧
    s'.current_group = s.current_group := by
  rcases p with t | cid
  all_goals rw [async_tensor_push] at h
  · by_cases hst : t.isStray = true
    · rw [if_pos hst] at h
      have h1 := Option.some.inj h
      have hs' : s' = _ := (pair_eq_fst h1).symm
      have htg : tag = ((-1 : Int), s.torch_tensor_count) :=
        (pair_eq_snd h1).symm
      subst hs'
      subst htg
      have hfresh : ((-1 : Int), s.torch_tensor_count) ∉ stateKeys s := by
        intro hm
        exact absurd (hinv.2.1 _ hm) (lt_irrefl _)
      have happ := ainsert_app_of_fresh (Slot.tens t)
        (alookup_eq_none.mpr hfresh)
      have hkeys : stateKeys { s with
          torch_tensor_count := s.torch_tensor_count + 1,
          tensor_tag_to_state := ainsert s.tensor_tag_to_state
            ((-1 : Int), s.torch_tensor_count) (Slot.tens t) } =
          stateKeys s ++ [((-1 : Int), s.torch_tensor_count)] := by
        show (ainsert s.tensor_tag_to_state _ _).map Prod.fst = _
        rw [happ, List.map_append]
        rfl
      exact ⟨hfresh, hkeys,
        pushinv_extend hkeys hfresh rfl (Nat.le_succ _)
          (fun _ => Nat.lt_succ_self _) hinv, rfl⟩
    · rw [if_neg hst] at h
      by_cases hmem : amem s.tensor_tag_to_state
          (s.current_group, s.tensor_count_current_group)
      · rw [if_pos hmem] at h
        simp at h
      · rw [if_neg hmem] at h
        have hnone : alookup s.tensor_tag_to_state
            (s.current_group, s.tensor_count_current_group) = none := by
          rcases hl : alookup s.tensor_tag_to_state
              (s.current_group, s.tensor_count_current_group) with _ | v
          · rfl
          · exact absurd (by rw [amem, hl]; rfl) hmem
        have hfresh := alookup_eq_none.mp hnone
        have happ := ainsert_app_of_fresh (Slot.tens t) hnone
        have htagc : ∀ s'' : AState,
            stateKeys s'' = stateKeys s ++
              [(s.current_group, s.tensor_count_current_group)] →
            s''.current_group = s.current_group →
            s.torch_tensor_count ≤ s''.torch_tensor_count →
            tag = (s.current_group, s.tensor_count_current_group) →
            tag ∉ stateKeys s ∧
            stateKeys s'' = stateKeys s ++ [tag] ∧
            PushInv s'' ∧
            s''.current_group = s.current_group := by
          intro s'' hkeys hcg httc htg
          subst htg
          refine ⟨hfresh, hkeys,
            pushinv_extend hkeys hfresh hcg httc ?_ hinv, hcg⟩
          intro h1
          have h1' : s.current_group = -1 := h1
          have h0 := hinv.1
          omega
        by_cases hc : s.current_group < (s.num_offload_group : Int) ∧
            chk t = true
        · rw [if_pos hc] at h
          have h1 := Option.some.inj h
          have hs' : s' = _ := (pair_eq_fst h1).symm
          subst hs'
          refine htagc _ ?_ rfl (le_refl _) (pair_eq_snd h1).symm
          show (ainsert s.tensor_tag_to_state _ _).map Prod.fst = _
          rw [happ, List.map_append]
          rfl
        · rw [if_neg hc] at h
          have h1 := Option.some.inj h
          have hs' : s' = _ := (pair_eq_fst h1).symm
          subst hs'
          refine htagc _ ?_ rfl (le_refl _) (pair_eq_snd h1).symm
          show (ainsert s.tensor_tag_to_state _ _).map Prod.fst = _
          rw [happ, List.map_append]
          rfl
  · by_cases hmem : amem s.tensor_tag_to_state
        (s.current_group, s.tensor_count_current_group)
    · rw [if_pos hmem] at h
      simp at h
    · rw [if_neg hmem] at h
      simp only [Option.bind_eq_bind, Option.pure_def] at h
      rw [Option.bind_eq_some] at h
      obtain ⟨comp, hcomp, h⟩ := h
      have hnone : alookup s.tensor_tag_to_state
          (s.current_group, s.tensor_count_current_group) = none := by
        rcases hl : alookup s.tensor_tag_to_state
            (s.current_group, s.tensor_count_current_group) with _ | v
        · rfl
        · exact absurd (by rw [amem, hl]; rfl) hmem
      have hfresh := alookup_eq_none.mp hnone
      have happ := ainsert_app_of_fresh (Slot.lst []) hnone
      have hmem2 : (s.current_group, s.tensor_count_current_group) ∈
          (ainsert s.tensor_tag_to_state
            (s.current_group, s.tensor_count_current_group)
            (Slot.lst [])).map Prod.fst := by
        rw [happ, List.map_append]
        exact List.mem_append.mpr (Or.inr (List.mem_singleton.mpr rfl))
      have hkeys2 : ∀ sl2, (ainsert (ainsert s.tensor_tag_to_state
          (s.current_group, s.tensor_count_current_group) (Slot.lst []))
          (s.current_group, s.tensor_count_current_group)
          sl2).map Prod.fst =
          stateKeys s ++ [(s.current_group, s.tensor_count_current_group)] := by
        intro sl2
        rw [ainsert_keys_of_mem _ hmem2, happ, List.map_append]
        rfl
      have htagc : ∀ s'' : AState,
          stateKeys s'' = stateKeys s ++
            [(s.current_group, s.tensor_count_current_group)] →
          s''.current_group = s.current_group →
          s.torch_tensor_count ≤ s''.torch_tensor_count →
          tag = (s.current_group, s.tensor_count_current_group) →
          tag ∉ stateKeys s ∧
          stateKeys s'' = stateKeys s ++ [tag] ∧
          PushInv s'' ∧
          s''.current_group = s.current_group := by
        intro s'' hkeys hcg httc htg
        subst htg
        refine ⟨hfresh, hkeys,
          pushinv_extend hkeys hfresh hcg httc ?_ hinv, hcg⟩
        intro h1
        have h1' : s.current_group = -1 := h1
        have h0 := hinv.1
        omega
      by_cases hcl : (push_quant_loop chk
          (decide (s.current_group < (s.num_offload_group : Int))) cid
          (prepare_for_saving comp).1).2.2 = true
      · rw [if_pos hcl] at h
        rw [Option.bind_eq_some] at h
        obtain ⟨c2, hc2, h⟩ := h
        have h1 := Option.some.inj h
        have hs' : s' = _ := (pair_eq_fst h1).symm
        subst hs'
        exact htagc _ (hkeys2 _) rfl (le_refl _) (pair_eq_snd h1).symm
      · rw [if_neg hcl] at h
        have h1 := Option.some.inj h
        have hs' : s' = _ := (pair_eq_fst h1).symm
        subst hs'
        exact htagc _ (hkeys2 _) rfl (le_refl _) (pair_eq_snd h1).symm

/-- Pushing the tensors of one layer appends exactly the returned tags
to the slot-dictionary keys and preserves the push invariant. -/
theorem push_layer_tags (chk : PTensor → Bool) :
    ∀ (ps : List PushSpec) (s s' : AState) (prs : List (Tag × PushSpec)),
      PushInv s → push_layer chk s ps = some (s', prs) →
      stateKeys s' = stateKeys s ++ prs.map Prod.fst ∧ PushInv s' := by
  intro ps
  induction ps with
  | nil =>
      intro s s' prs hinv h
      simp only [push_layer, Option.some_inj] at h
      have hs' : s' = s := (pair_eq_fst h).symm
      have hp : prs = [] := (pair_eq_snd h).symm
      subst hs'
      subst hp
      exact ⟨by simp, hinv⟩
  | cons p ps ih =>
      intro s s' prs hinv h
      rw [push_layer] at h
      simp only [Option.bind_eq_bind, Option.pure_def, Option.bind_eq_some] at h
      obtain ⟨⟨s1, tg⟩, hpush, ⟨s2, rest⟩, hrest, heq⟩ := h
      obtain ⟨hfresh, hkeys, hinv1, hcg⟩ :=
        async_tensor_push_tag chk p s s1 tg hinv hpush
      obtain ⟨hkeys2, hinv2⟩ := ih s1 s2 rest hinv1 hrest
      have hs' : s' = s2 := (pair_eq_fst (Option.some.inj heq)).symm
      have hp : prs = (tg, p) :: rest := (pair_eq_snd (Option.some.inj heq)).symm
      subst hs'
      subst hp
      refine ⟨?_, hinv2⟩
      rw [hkeys2, hkeys, List.map_cons, List.append_assoc]
      rfl

/-- The forward commit barrier preserves the push invariant. -/
theorem commit_fwd_pushinv (chk : PTensor → Bool) (s s' : AState)
    (h : on_group_commit_forward chk s = some s') (hinv : PushInv s) :
    PushInv s' := by
  have hsh := on_group_commit_forward_shape chk s s' h
  have hk := on_group_commit_forward_keys chk s s' h
  refine ⟨?_, ?_, ?_⟩
  · rw [hsh.1]
    have h0 := hinv.1
    omega
  · intro i hm
    rw [hk] at hm
    rw [hsh.2.2.1]
    exact hinv.2.1 i hm
  · rw [hk]
    exact hinv.2.2

/-- The forward phase appends exactly the handed-out tags, layer after
layer, to the slot-dictionary keys, and preserves the push invariant. -/
theorem run_forward_tags (chk : PTensor → Bool) :
    ∀ (ls : List (List PushSpec)) (s s' : AState)
      (tgs : List (List (Tag × PushSpec))),
      PushInv s → run_forward chk s ls = some (s', tgs) →
      stateKeys s' =
        stateKeys s ++ (tgs.map fun l => l.map Prod.fst).flatten ∧
      PushInv s' := by
  intro ls
  induction ls with
  | nil =>
      intro s s' tgs hinv h
      simp only [run_forward, Option.some_inj] at h
      have hs' : s' = s := (pair_eq_fst h).symm
      have hp : tgs = [] := (pair_eq_snd h).symm
      subst hs'
      subst hp
      exact ⟨by simp, hinv⟩
  | cons l ls ih =>
      intro s s' tgs hinv h
      rw [run_forward] at h
      simp only [Option.bind_eq_bind, Option.pure_def, Option.bind_eq_some] at h
      obtain ⟨⟨s1, prs⟩, hlayer, s2, hcommit, ⟨s3, rest⟩, hrest, heq⟩ := h
      obtain ⟨hkeys1, hinv1⟩ := push_layer_tags chk l s s1 prs hinv hlayer
      have hinv2 := commit_fwd_pushinv chk s1 s2 hcommit hinv1
      have hkc := on_group_commit_forward_keys chk s1 s2 hcommit
      obtain ⟨hkeys3, hinv3⟩ := ih s2 s3 rest hinv2 hrest
      have hs' : s' = s3 := (pair_eq_fst (Option.some.inj heq)).symm
      have hp : tgs = prs :: rest := (pair_eq_snd (Option.some.inj heq)).symm
      subst hs'
      subst hp
      refine ⟨?_, hinv3⟩
      rw [hkeys3, hkc, hkeys1, List.map_cons, List.flatten_cons,
        List.append_assoc]

/-- C7: tag uniqueness.  In every complete forward/backward session all
tags handed out by tensor_push are pairwise distinct (non-stray tags are
(current_group, intra-group counter) pairs, stray tags live under the -1
sentinel with their own counter); and pushing a non-stray tensor whose
allocated tag already exists in the slot dictionary trips the assertion
(the push fails). -/
theorem tag_uniqueness (G L : Nat) (db : Bool)
    (heap0 : List (Nat × Composite)) (nid : Nat)
    (layers : List (List PushSpec)) (out : SessionOut)
    (hrun : run_session G L db heap0 nid layers = some out) :
    (sessionTags out).Nodup ∧
    (∀ (chk : PTensor → Bool) (s : AState) (t : PTensor),
      t.isStray = false →
      amem s.tensor_tag_to_state
        (s.current_group, s.tensor_count_current_group) = true →
      async_tensor_push chk s (PushSpec.tensorV t) = none) := by
  constructor
  · unfold run_session at hrun
    simp only [Option.bind_eq_bind, Option.pure_def, Option.bind_eq_some]
      at hrun
    obtain ⟨⟨s1, ftags⟩, hfwd, ⟨s2, pops⟩, hbwd, heq⟩ := hrun
    have hinv0 : PushInv (async_init G L db heap0 nid) := by
      refine ⟨le_refl 0, ?_, ?_⟩ <;> simp [stateKeys, async_init]
    obtain ⟨hkeys, hinv⟩ :=
      run_forward_tags activations_checker layers _ s1 ftags hinv0 hfwd
    have hnd := hinv.2.2
    rw [hkeys] at hnd
    have hkeys0 : stateKeys (async_init G L db heap0 nid) = [] := rfl
    rw [hkeys0, List.nil_append] at hnd
    rw [← Option.some.inj heq]
    exact hnd
  · intro chk s t hst hmem
    rw [async_tensor_push, if_neg (by rw [hst]; exact Bool.false_ne_true),
      if_pos hmem]

/-- Witness for C7 on a concrete one-layer session. -/
theorem tag_uniqueness_witness :
    ∃ out, run_session 1 1 false [] 0 [[PushSpec.tensorV probe_tensor]] =
        some out ∧ (sessionTags out).Nodup := by
  rcases h : run_session 1 1 false [] 0 [[PushSpec.tensorV probe_tensor]]
    with _ | out
  · exact absurd h (by decide)
  · exact ⟨out, rfl, (tag_uniqueness 1 1 false [] 0 _ out h).1⟩

/-- The window block never decreases the offloaded-group counter. -/
theorem sync_fwd_step2_ogc_mono (chk : PTensor → Bool) (cur : Int)
    (s s' : AState) (h : sync_fwd_step2 chk cur s = some s') :
    s.offloaded_group_count ≤ s'.offloaded_group_count := by
  unfold sync_fwd_step2 at h
  simp only [Option.bind_eq_bind, Option.pure_def] at h
  rw [Option.bind_eq_some] at h
  obtain ⟨w, hw, h⟩ := h
  by_cases hww : w = cur
  · rw [if_pos hww] at h
    by_cases hog : (free_bufs_of_group s s.offloaded_group_count
        ).offloaded_group_count <
        (free_bufs_of_group s s.offloaded_group_count).num_offload_group - 1
    · rw [if_pos hog] at h
      rw [Option.bind_eq_some] at h
      obtain ⟨sb, hb, hcc⟩ := h
      obtain ⟨m2, n2, rfl⟩ := bulk_offload_group_shape _ _ _ _ hb
      have he2 : s.offloaded_group_count + 1 = s'.offloaded_group_count :=
        congrArg AState.offloaded_group_count (Option.some.inj hcc)
      omega
    · rw [if_neg hog] at h
      simp only [Option.some_bind] at h
      have he2 : s.offloaded_group_count + 1 = s'.offloaded_group_count :=
        congrArg AState.offloaded_group_count (Option.some.inj h)
      omega
  · rw [if_neg hww] at h
    have he2 : s.offloaded_group_count = s'.offloaded_group_count :=
      congrArg AState.offloaded_group_count (Option.some.inj h)
    omega

/-- C5 forward half, per commit: the forward commit barrier never
decreases the offloaded-group counter. -/
theorem on_group_commit_forward_ogc_mono (chk : PTensor → Bool)
    (s s' : AState) (h : on_group_commit_forward chk s = some s') :
    s.offloaded_group_count ≤ s'.offloaded_group_count := by
  unfold on_group_commit_forward synchronize_on_group_commit_forward at h
  simp only [Option.bind_eq_bind, Option.pure_def] at h
  rw [Option.bind_eq_some] at h
  obtain ⟨s3, h3, hfin⟩ := h
  rw [Option.bind_eq_some] at h3
  obtain ⟨s1, h1, h23⟩ := h3
  rw [Option.bind_eq_some] at h23
  obtain ⟨s2, h2, h3'⟩ := h23
  obtain ⟨m1, r1, n1, rfl⟩ := sync_fwd_step1_shape _ _ _ _ h1
  have hm0 := sync_fwd_step2_ogc_mono chk s.current_group _ s2 h2
  have hm : s.offloaded_group_count ≤ s2.offloaded_group_count := hm0
  obtain ⟨r2, c3, n3, rfl⟩ := sync_fwd_step3_shape _ _ _ h3'
  have he0 := congrArg AState.offloaded_group_count (Option.some.inj hfin)
  have he2 : s2.offloaded_group_count = s'.offloaded_group_count := he0
  omega

/-- Value of the offloaded-group counter through the window block, when
the window map is the constructor's plan and the counter is in range:
it advances exactly on a window hit. -/
theorem sync_fwd_step2_ogc_val (chk : PTensor → Bool) (cur : Int)
    (s s' : AState) (G L : Nat)
    (h : sync_fwd_step2 chk cur s = some s')
    (hwm : s.layer_window_map =
      (List.range G).map fun (j : Nat) => ((j : Int), wSpec L G j))
    (hc : s.offloaded_group_count < G) :
    s'.offloaded_group_count =
      if wSpec L G s.offloaded_group_count = cur then
        s.offloaded_group_count + 1
      else s.offloaded_group_count := by
  unfold sync_fwd_step2 at h
  rw [hwm, alookup_range_map (wSpec L G) G s.offloaded_group_count hc] at h
  simp only [Option.bind_eq_bind, Option.pure_def, Option.some_bind] at h
  by_cases hww : wSpec L G s.offloaded_group_count = cur
  · rw [if_pos hww] at h
    rw [if_pos hww]
    by_cases hog : (free_bufs_of_group s s.offloaded_group_count
        ).offloaded_group_count <
        (free_bufs_of_group s s.offloaded_group_count).num_offload_group - 1
    · rw [if_pos hog] at h
      rw [Option.bind_eq_some] at h
      obtain ⟨sb, hb, hcc⟩ := h
      obtain ⟨m2, n2, rfl⟩ := bulk_offload_group_shape _ _ _ _ hb
      exact (congrArg AState.offloaded_group_count (Option.some.inj hcc)).symm
    · rw [if_neg hog] at h
      exact (congrArg AState.offloaded_group_count (Option.some.inj h)).symm
  · rw [if_neg hww] at h
    rw [if_neg hww]
    exact (congrArg AState.offloaded_group_count (Option.some.inj h)).symm

/-- Value of the offloaded-group counter through the forward commit
barrier: it advances exactly when the current window ends at the group
being committed. -/
theorem on_group_commit_forward_ogc_val (chk : PTensor → Bool)
    (s s' : AState) (G L : Nat)
    (h : on_group_commit_forward chk s = some s')
    (hwm : s.layer_window_map =
      (List.range G).map fun (j : Nat) => ((j : Int), wSpec L G j))
    (hc : s.offloaded_group_count < G) :
    s'.offloaded_group_count =
      if wSpec L G s.offloaded_group_count = s.current_group then
        s.offloaded_group_count + 1
      else s.offloaded_group_count := by
  unfold on_group_commit_forward synchronize_on_group_commit_forward at h
  simp only [Option.bind_eq_bind, Option.pure_def] at h
  rw [Option.bind_eq_some] at h
  obtain ⟨s3, h3, hfin⟩ := h
  rw [Option.bind_eq_some] at h3
  obtain ⟨s1, h1, h23⟩ := h3
  rw [Option.bind_eq_some] at h23
  obtain ⟨s2, h2, h3'⟩ := h23
  obtain ⟨m1, r1, n1, rfl⟩ := sync_fwd_step1_shape _ _ _ _ h1
  have hv0 := sync_fwd_step2_ogc_val chk s.current_group _ s2 G L h2 hwm hc
  have hv : s2.offloaded_group_count =
      if wSpec L G s.offloaded_group_count = s.current_group then
        s.offloaded_group_count + 1
      else s.offloaded_group_count := hv0
  obtain ⟨r2, c3, n3, rfl⟩ := sync_fwd_step3_shape _ _ _ h3'
  have he0 := congrArg AState.offloaded_group_count (Option.some.inj hfin)
  have he2 : s2.offloaded_group_count = s'.offloaded_group_count := he0
  rw [← he2]
  exact hv

/-- The window plan closed form is strictly increasing below G. -/
theorem wSpec_strict_mono (L G : Nat) (hL : G ≤ L)
    (i j : Nat) (hij : i < j) (hj : j < G) : wSpec L G i < wSpec L G j := by
  have hq : 1 ≤ L / G := (Nat.one_le_div_iff (by omega)).mpr hL
  have h1 : (L / G) * (i + 1) < (L / G) * (j + 1) :=
    mul_lt_mul_of_pos_left (by omega) (by omega)
  have h2 : min (i + 1) (L % G) ≤ min (j + 1) (L % G) := by omega
  have hNat : (L / G) * (i + 1) + min (i + 1) (L % G) <
      (L / G) * (j + 1) + min (j + 1) (L % G) := by omega
  unfold wSpec
  have hcast := (Int.ofNat_lt).mpr hNat
  push_cast at hcast
  push_cast
  linarith

/-- The last window of the plan closed form ends at the last layer. -/
theorem wSpec_last (L G : Nat) (hG : 1 ≤ G) (hL : G ≤ L) :
    wSpec L G (G - 1) = (L : Int) - 1 := by
  unfold wSpec
  have hR : L % G < G := Nat.mod_lt _ (by omega)
  have h2 : min (G - 1 + 1) (L % G) = L % G := by omega
  rw [h2]
  have hdm : L / G * G + L % G = L := by
    rw [Nat.mul_comm]
    exact Nat.div_add_mod L G
  have hcast : ((L / G : Nat) : Int) * (G : Int) + ((L % G : Nat) : Int) =
      (L : Int) := by
    rw [← Nat.cast_mul, ← Nat.cast_add, hdm]
  have hg1 : ((G - 1 : Nat) : Int) = (G : Int) - 1 := by omega
  rw [hg1]
  have hg : ((G : Int) - 1 + 1) = (G : Int) := by ring
  rw [hg]
  linarith

/-- Every window of the plan ends no later than the last layer. -/
theorem wSpec_le_last (L G : Nat) (hG : 1 ≤ G) (hL : G ≤ L)
    (i : Nat) (hi : i < G) : wSpec L G i ≤ (L : Int) - 1 := by
  rcases Nat.lt_or_ge i (G - 1) with h | h
  · have hm := wSpec_strict_mono L G hL i (G - 1) h (by omega)
    rw [wSpec_last L G hG hL] at hm
    omega
  · have hie : i = G - 1 := by omega
    subst hie
    rw [wSpec_last L G hG hL]

/-- The first window of the plan ends at a non-negative layer. -/
theorem wSpec_nonneg0 (L G : Nat) (hG : 1 ≤ G) (hL : G ≤ L) :
    (0 : Int) ≤ wSpec L G 0 := by
  unfold wSpec
  have hq : 1 ≤ L / G := (Nat.one_le_div_iff (by omega)).mpr hL
  have h1 : (1 : Int) ≤ ((L / G : Nat) : Int) := by exact_mod_cast hq
  push_cast
  simp only [zero_add, mul_one]
  omega

/-- The invariant holds initially. -/
theorem OgcInv_zero (G L : Nat) (hG : 1 ≤ G) (hL : G ≤ L) :
    OgcInv G L 0 0 := by
  refine ⟨Nat.zero_le _, ?_, ?_⟩
  · intro i hi
    omega
  · intro _
    exact wSpec_nonneg0 L G hG hL

/-- One forward commit of the invariant: the counter is in window range,
and advances exactly on a window hit. -/
theorem OgcInv_step (G L : Nat) (hG : 1 ≤ G) (hL : G ≤ L) (c k : Nat)
    (hkL : k < L) (hinv : OgcInv G L c (k : Int)) :
    c < G ∧
    OgcInv G L (if wSpec L G c = (k : Int) then c + 1 else c)
      ((k : Int) + 1) := by
  have hcG : c < G := by
    rcases Nat.lt_or_ge c G with h | h
    · exact h
    · exfalso
      have hall := hinv.2.1 (G - 1) (by omega)
      have hlast := wSpec_last L G hG hL
      rw [hlast] at hall
      omega
  refine ⟨hcG, ?_⟩
  by_cases hit : wSpec L G c = (k : Int)
  · rw [if_pos hit]
    refine ⟨by omega, ?_, ?_⟩
    · intro i hi
      rcases Nat.lt_or_ge i c with h | h
      · have := hinv.2.1 i h
        omega
      · have hic : i = c := by omega
        subst hic
        omega
    · intro hlt
      have hm := wSpec_strict_mono L G hL c (c + 1) (by omega) hlt
      omega
  · rw [if_neg hit]
    have hge := hinv.2.2 hcG
    refine ⟨by omega, ?_, ?_⟩
    · intro i hi
      have := hinv.2.1 i hi
      omega
    · intro _
      omega

/-- At the end of forward (k = L) the invariant forces the counter to G. -/
theorem OgcInv_final (G L : Nat) (hG : 1 ≤ G) (hL : G ≤ L) (c : Nat)
    (hinv : OgcInv G L c (L : Int)) : c = G := by
  rcases Nat.lt_or_ge c G with h | h
  · exfalso
    have hge := hinv.2.2 h
    have hle := wSpec_le_last L G hG hL c h
    omega
  · exact le_antisymm hinv.1 h

/-- tensor_push leaves the group counters and the window plan alone. -/
theorem async_tensor_push_frame (chk : PTensor → Bool) (p : PushSpec)
    (s s' : AState) (tag : Tag)
    (h : async_tensor_push chk s p = some (s', tag)) :
    s'.current_group = s.current_group ∧
    s'.offloaded_group_count = s.offloaded_group_count ∧
    s'.layer_window_map = s.layer_window_map := by
  obtain ⟨m, bufm, fp, cache, dl, heap, tcc, ttc, rfl⟩ :=
    async_tensor_push_shape chk p s s' tag h
  exact ⟨rfl, rfl, rfl⟩

/-- Pushing a whole layer leaves the group counters and the window plan
alone. -/
theorem push_layer_frame (chk : PTensor → Bool) :
    ∀ (ps : List PushSpec) (s s' : AState) (prs : List (Tag × PushSpec)),
      push_layer chk s ps = some (s', prs) →
      s'.current_group = s.current_group ∧
      s'.offloaded_group_count = s.offloaded_group_count ∧
      s'.layer_window_map = s.layer_window_map := by
  intro ps
  induction ps with
  | nil =>
      intro s s' prs h
      simp only [push_layer, Option.some_inj] at h
      have hs' : s' = s := (pair_eq_fst h).symm
      subst hs'
      exact ⟨rfl, rfl, rfl⟩
  | cons p ps ih =>
      intro s s' prs h
      rw [push_layer] at h
      simp only [Option.bind_eq_bind, Option.pure_def, Option.bind_eq_some] at h
      obtain ⟨⟨s1, tg⟩, hpush, ⟨s2, rest⟩, hrest, heq⟩ := h
      obtain ⟨h1, h2, h3⟩ := async_tensor_push_frame chk p s s1 tg hpush
      obtain ⟨g1, g2, g3⟩ := ih s1 s2 rest hrest
      have hs' : s' = s2 := (pair_eq_fst (Option.some.inj heq)).symm
      subst hs'
      exact ⟨g1.trans h1, g2.trans h2, g3.trans h3⟩

/-- tensor_pop leaves the group counters and the window plan alone. -/
theorem async_tensor_pop_frame (s : AState) (tag : Tag) (s' : AState)
    (v : PopVal) (hpop : async_tensor_pop s tag = some (s', v)) :
    s'.current_group = s.current_group ∧
    s'.offloaded_group_count = s.offloaded_group_count ∧
    s'.layer_window_map = s.layer_window_map := by
  unfold async_tensor_pop at hpop
  rcases hsl : alookup s.tensor_tag_to_state tag with _ | slot
  · rw [hsl] at hpop
    simp only [Option.pure_def, Option.bind_eq_bind, Option.none_bind] at hpop
    exact absurd hpop (by simp)
  · rw [hsl] at hpop
    rcases slot with t | ⟨d, hh⟩ | es | cid
    · simp only [Option.pure_def, Option.bind_eq_bind, Option.some_bind]
        at hpop
      have h1 := pair_eq_fst (Option.some.inj hpop)
      refine ⟨?_, ?_, ?_⟩ <;>
        · rw [← h1]
    · simp only [Option.pure_def, Option.bind_eq_bind, Option.some_bind]
        at hpop
      exact absurd hpop (by simp)
    · simp only [Option.pure_def, Option.bind_eq_bind, Option.some_bind,
        Option.bind_eq_some] at hpop
      obtain ⟨s1, hded, cid, hfp8, s2, hset, hpop⟩ := hpop
      obtain ⟨dl1, heap1, rfl⟩ := dedup_restore_step_shape _ _ _ _ hded
      obtain ⟨heap2, rfl⟩ := set_do_not_clear_step_shape _ _ _ hset
      have h1 := pair_eq_fst (Option.some.inj hpop)
      refine ⟨?_, ?_, ?_⟩ <;>
        · rw [← h1]
    · simp only [Option.pure_def, Option.bind_eq_bind, Option.some_bind,
        Option.bind_eq_some] at hpop
      obtain ⟨s2, hset, hpop⟩ := hpop
      obtain ⟨heap2, rfl⟩ := set_do_not_clear_step_shape _ _ _ hset
      have h1 := pair_eq_fst (Option.some.inj hpop)
      refine ⟨?_, ?_, ?_⟩ <;>
        · rw [← h1]

/-- Popping a whole layer leaves the group counters and the window plan
alone. -/
theorem pop_layer_frame :
    ∀ (ps : List (Tag × PushSpec)) (s s' : AState)
      (pv : List (Tag × PopVal)),
      pop_layer s ps = some (s', pv) →
      s'.current_group = s.current_group ∧
      s'.offloaded_group_count = s.offloaded_group_count ∧
      s'.layer_window_map = s.layer_window_map := by
  intro ps
  induction ps with
  | nil =>
      intro s s' pv h
      simp only [pop_layer, Option.some_inj] at h
      have hs' : s' = s := (pair_eq_fst h).symm
      subst hs'
      exact ⟨rfl, rfl, rfl⟩
  | cons p ps ih =>
      intro s s' pv h
      rcases p with ⟨tg, sp⟩
      rw [pop_layer] at h
      simp only [Option.bind_eq_bind, Option.pure_def, Option.bind_eq_some] at h
      obtain ⟨⟨s1, v⟩, hp, ⟨s2, rest⟩, hrest, heq⟩ := h
      obtain ⟨h1, h2, h3⟩ := async_tensor_pop_frame s tg s1 v hp
      obtain ⟨g1, g2, g3⟩ := ih s1 s2 rest hrest
      have hs' : s' = s2 := (pair_eq_fst (Option.some.inj heq)).symm
      subst hs'
      exact ⟨g1.trans h1, g2.trans h2, g3.trans h3⟩

/-- The backward window block never increases the offloaded-group
counter and leaves current_group alone. -/
theorem bwd_window_step_ogc (s s' : AState)
    (h : bwd_window_step s = some s') :
    s'.offloaded_group_count ≤ s.offloaded_group_count ∧
    s'.current_group = s.current_group := by
  unfold bwd_window_step at h
  simp only [Option.bind_eq_bind, Option.pure_def] at h
  rw [Option.bind_eq_some] at h
  obtain ⟨w, hw, h⟩ := h
  by_cases hww : w = s.current_group
  · rw [if_pos hww] at h
    rw [Option.bind_eq_some] at h
    obtain ⟨s1, hb, hcc⟩ := h
    obtain ⟨m, dl, fp, cache, heap, n, rfl⟩ := bulk_reload_group_shape _ _ _ hb
    have he0 := congrArg AState.offloaded_group_count (Option.some.inj hcc)
    have he2 : (if 1 < s.offloaded_group_count then
        s.offloaded_group_count - 1 else s.offloaded_group_count) =
        s'.offloaded_group_count := he0
    have hc0 := congrArg AState.current_group (Option.some.inj hcc)
    have hc2 : s.current_group = s'.current_group := hc0
    refine ⟨?_, hc2.symm⟩
    by_cases h1 : 1 < s.offloaded_group_count
    · rw [if_pos h1] at he2
      omega
    · rw [if_neg h1] at he2
      omega
  · rw [if_neg hww] at h
    have hs' : s' = s := (Option.some.inj h).symm
    subst hs'
    exact ⟨le_refl _, rfl⟩

/-- C5 backward half, per commit: the backward commit barrier decrements
current_group, never increases the offloaded-group counter, and resets
it to 0 on the last commit. -/
theorem on_group_commit_backward_ogc (s s' : AState)
    (h : on_group_commit_backward s = some s') :
    s'.offloaded_group_count ≤ s.offloaded_group_count ∧
    s'.current_group = s.current_group - 1 ∧
    (s.current_group - 1 = 0 → s'.offloaded_group_count = 0) := by
  unfold on_group_commit_backward at h
  by_cases hneg : s.current_group - 1 < 0
  · rw [if_pos hneg] at h
    simp at h
  · rw [if_neg hneg] at h
    simp only [Option.bind_eq_bind, Option.pure_def] at h
    rw [Option.bind_eq_some] at h
    obtain ⟨s1, h1, h2⟩ := h
    have hws := bwd_window_step_ogc _ _ h1
    have hog1 : s1.offloaded_group_count ≤ s.offloaded_group_count := hws.1
    have hcg1 : s1.current_group = s.current_group - 1 := hws.2
    by_cases hz : s1.current_group = 0
    · rw [if_pos hz] at h2
      have he0 := congrArg AState.offloaded_group_count (Option.some.inj h2)
      have he2 : (0 : Nat) = s'.offloaded_group_count := he0
      have hc0 := congrArg AState.current_group (Option.some.inj h2)
      have hc2 : s1.current_group = s'.current_group := hc0
      exact ⟨by omega, by omega, fun _ => by omega⟩
    · rw [if_neg hz] at h2
      have hs' : s' = s1 := (Option.some.inj h2).symm
      subst hs'
      exact ⟨hog1, hcg1, fun hcz => absurd (hcg1.trans hcz) hz⟩

/-- The forward phase of a session: after the last forward commit,
current_group has reached the number of layers and the offloaded-group
counter has reached the number of offload groups. -/
theorem run_forward_ogc (G L : Nat) (hG : 1 ≤ G) (hL : G ≤ L) :
    ∀ (ls : List (List PushSpec)) (s s' : AState)
      (tgs : List (List (Tag × PushSpec))) (k : Nat),
      s.current_group = (k : Int) →
      k + ls.length = L →
      OgcInv G L s.offloaded_group_count (k : Int) →
      s.layer_window_map =
        (List.range G).map (fun (j : Nat) => ((j : Int), wSpec L G j)) →
      run_forward activations_checker s ls = some (s', tgs) →
      s'.current_group = (L : Int) ∧ s'.offloaded_group_count = G := by
  intro ls
  induction ls with
  | nil =>
      intro s s' tgs k hk hlen hinv hwm h
      simp only [run_forward, Option.some_inj] at h
      have hs' : s' = s := (pair_eq_fst h).symm
      subst hs'
      have hkL : k = L := by
        simp only [List.length_nil] at hlen
        omega
      rw [hkL] at hk hinv
      exact ⟨hk, OgcInv_final G L hG hL _ hinv⟩
  | cons l ls ih =>
      intro s s' tgs k hk hlen hinv hwm h
      rw [run_forward] at h
      simp only [Option.bind_eq_bind, Option.pure_def, Option.bind_eq_some] at h
      obtain ⟨⟨s1, prs⟩, hlayer, s2, hcommit, ⟨s3, rest⟩, hrest, heq⟩ := h
      obtain ⟨hf1, hf2, hf3⟩ :=
        push_layer_frame activations_checker l s s1 prs hlayer
      have hlen' : k + (ls.length + 1) = L := by
        simpa using hlen
      have hkL : k < L := by omega
      obtain ⟨hcG, hinv'⟩ :=
        OgcInv_step G L hG hL s.offloaded_group_count k hkL hinv
      have hsh := on_group_commit_forward_shape activations_checker s1 s2
        hcommit
      have hval := on_group_commit_forward_ogc_val activations_checker s1 s2
        G L hcommit (by rw [hf3]; exact hwm) (by rw [hf2]; exact hcG)
      rw [hf2, hf1, hk] at hval
      have hcg2 : s2.current_group = ((k + 1 : Nat) : Int) := by
        rw [hsh.1, hf1, hk]
        push_cast
        ring
      have hwm2 : s2.layer_window_map =
          (List.range G).map (fun (j : Nat) => ((j : Int), wSpec L G j)) := by
        rw [hsh.2.2.2.2.2.1, hf3]
        exact hwm
      have hinv2 : OgcInv G L s2.offloaded_group_count ((k + 1 : Nat) : Int)
          := by
        rw [hval]
        have hcast : ((k + 1 : Nat) : Int) = (k : Int) + 1 := by
          push_cast
          ring
        rw [hcast]
        exact hinv'
      have hs' : s' = s3 := (pair_eq_fst (Option.some.inj heq)).symm
      subst hs'
      exact ih s2 s' rest (k + 1) hcg2 (by omega) hinv2 hwm2 hrest

/-- The backward phase of a session: current_group returns to 0 and, as
soon as at least one backward commit ran, the offloaded-group counter is
reset to 0. -/
theorem run_backward_rev_final :
    ∀ (ls : List (List (Tag × PushSpec))) (s s2 : AState)
      (pops : List (List (Tag × PopVal))),
      s.current_group = (ls.length : Int) →
      run_backward_rev s ls = some (s2, pops) →
      s2.current_group = 0 ∧
      (0 < ls.length → s2.offloaded_group_count = 0) ∧
      (ls = [] → s2 = s) := by
  intro ls
  induction ls with
  | nil =>
      intro s s2 pops hcg h
      simp only [run_backward_rev, Option.some_inj] at h
      have hs2 : s2 = s := (pair_eq_fst h).symm
      subst hs2
      refine ⟨by rw [hcg]; simp, ?_, fun _ => rfl⟩
      intro h0
      simp at h0
  | cons l ls ih =>
      intro s s2 pops hcg h
      rw [run_backward_rev] at h
      simp only [Option.bind_eq_bind, Option.pure_def, Option.bind_eq_some] at h
      obtain ⟨s1, hcommit, ⟨sp, prs⟩, hpop, ⟨s3, rest⟩, hrest, heq⟩ := h
      have hb := on_group_commit_backward_ogc s s1 hcommit
      obtain ⟨hp1, hp2, hp3⟩ := pop_layer_frame l s1 sp prs hpop
      have hcg1 : s1.current_group = (ls.length : Int) := by
        rw [hb.2.1, hcg]
        push_cast [List.length_cons]
        ring
      have hcgsp : sp.current_group = (ls.length : Int) := by
        rw [hp1, hcg1]
      obtain ⟨r1, r2, r3⟩ := ih sp s3 rest hcgsp hrest
      have hs2 : s2 = s3 := (pair_eq_fst (Option.some.inj heq)).symm
      subst hs2
      refine ⟨r1, fun _ => ?_, fun hnil => absurd hnil (by simp)⟩
      rcases Nat.eq_zero_or_pos ls.length with hz | hpos
      · have hlsnil : ls = [] := List.length_eq_zero.mp hz
        have hs3 : s2 = sp := r3 hlsnil
        have hl1 : ((l :: ls).length : Int) = (ls.length : Int) + 1 := by
          push_cast [List.length_cons]
          ring
        have hzero : s.current_group - 1 = 0 := by omega
        have h0 := hb.2.2 hzero
        rw [hs3, hp2]
        exact h0
      · exact r2 hpos

/-- The forward phase returns one tag list per layer. -/
theorem run_forward_length (chk : PTensor → Bool) :
    ∀ (ls : List (List PushSpec)) (s s' : AState)
      (tgs : List (List (Tag × PushSpec))),
      run_forward chk s ls = some (s', tgs) → tgs.length = ls.length := by
  intro ls
  induction ls with
  | nil =>
      intro s s' tgs h
      simp only [run_forward, Option.some_inj] at h
      have hp : tgs = [] := (pair_eq_snd h).symm
      subst hp
      rfl
  | cons l ls ih =>
      intro s s' tgs h
      rw [run_forward] at h
      simp only [Option.bind_eq_bind, Option.pure_def, Option.bind_eq_some] at h
      obtain ⟨⟨s1, prs⟩, hlayer, s2, hcommit, ⟨s3, rest⟩, hrest, heq⟩ := h
      have hp : tgs = prs :: rest := (pair_eq_snd (Option.some.inj heq)).symm
      subst hp
      simp only [List.length_cons, ih s2 s3 rest hrest]

/-- C5: group-count monotonicity.  Forward commits never decrease
offloaded_group_count; in a complete session with G offload groups and
L >= G layers the forward phase ends with current_group = L and
offloaded_group_count = G.  Backward commits never increase
offloaded_group_count; the backward phase ends with current_group = 0
and offloaded_group_count = 0. -/
theorem group_count_monotonic (G L : Nat) (db : Bool)
    (heap0 : List (Nat × Composite)) (nid : Nat)
    (layers : List (List PushSpec)) (out : SessionOut)
    (hG : 1 ≤ G) (hL : G ≤ L) (hlen : layers.length = L)
    (hrun : run_session G L db heap0 nid layers = some out) :
    (∀ (chk : PTensor → Bool) (s s' : AState),
      on_group_commit_forward chk s = some s' →
      s.offloaded_group_count ≤ s'.offloaded_group_count) ∧
    out.sForward.current_group = (L : Int) ∧
    out.sForward.offloaded_group_count = G ∧
    (∀ s s' : AState, on_group_commit_backward s = some s' →
      s'.offloaded_group_count ≤ s.offloaded_group_count) ∧
    out.sFinal.current_group = 0 ∧
    out.sFinal.offloaded_group_count = 0 := by
  unfold run_session at hrun
  simp only [Option.bind_eq_bind, Option.pure_def, Option.bind_eq_some]
    at hrun
  obtain ⟨⟨s1, ftags⟩, hfwd, ⟨s2, pops⟩, hbwd, heq⟩ := hrun
  have h0cg : (async_init G L db heap0 nid).current_group = ((0 : Nat) : Int)
      := by simp [async_init]
  have h0len : (0 : Nat) + layers.length = L := by omega
  have h0inv : OgcInv G L
      (async_init G L db heap0 nid).offloaded_group_count ((0 : Nat) : Int)
      := by
    have h := OgcInv_zero G L hG hL
    simpa [async_init] using h
  have h0wm : (async_init G L db heap0 nid).layer_window_map =
      (List.range G).map (fun (j : Nat) => ((j : Int), wSpec L G j)) :=
    layer_window_build_eq L G
  obtain ⟨hcgf, hogcf⟩ := run_forward_ogc G L hG hL layers _ s1 ftags 0
    h0cg h0len h0inv h0wm hfwd
  have hlenf : ftags.length = layers.length :=
    run_forward_length activations_checker layers _ s1 ftags hfwd
  have hrevlen : ftags.reverse.length = L := by
    rw [List.length_reverse, hlenf, hlen]
  have hcgrev : s1.current_group = (ftags.reverse.length : Int) := by
    rw [hcgf, hrevlen]
  obtain ⟨hb1, hb2, _⟩ := run_backward_rev_final ftags.reverse s1 s2 pops
    hcgrev hbwd
  have hbpos : 0 < ftags.reverse.length := by omega
  rw [← Option.some.inj heq]
  exact ⟨fun chk s s' h => on_group_commit_forward_ogc_mono chk s s' h,
    hcgf, hogcf,
    fun s s' h => (on_group_commit_backward_ogc s s' h).1,
    hb1, hb2 hbpos⟩

/-- Witness for C5 on a concrete one-layer one-group session. -/
theorem group_count_monotonic_witness :
    ∃ out, run_session 1 1 false [] 0 [[PushSpec.tensorV probe_tensor]] =
        some out ∧ out.sForward.offloaded_group_count = 1 ∧
        out.sFinal.offloaded_group_count = 0 := by
  rcases h : run_session 1 1 false [] 0 [[PushSpec.tensorV probe_tensor]]
    with _ | out
  · exact absurd h (by decide)
  · have hc := group_count_monotonic 1 1 false [] 0
      [[PushSpec.tensorV probe_tensor]] out (by decide) (by decide)
      (by decide) h
    exact ⟨out, rfl, hc.2.2.1, hc.2.2.2.2.2⟩

theorem heapCountEq_refl (h : List (Nat × Composite)) : heapCountEq h h :=
  fun _ => rfl

theorem heapCountEq_trans {a b c : List (Nat × Composite)}
    (h1 : heapCountEq a b) (h2 : heapCountEq b c) : heapCountEq a c :=
  fun x => (h2 x).trans (h1 x)

/-- Rewriting one composite without touching its restore count keeps all
counts. -/
theorem heapCountEq_ainsert (h : List (Nat × Composite)) (cid : Nat)
    (comp comp' : Composite) (hl : alookup h cid = some comp)
    (hc : comp'.restoreCount = comp.restoreCount) :
    heapCountEq h (ainsert h cid comp') := by
  intro x
  by_cases hx : x = cid
  · subst hx
    rw [alookup_ainsert_self, hl]
    simp [hc]
  · rw [alookup_ainsert_ne]
    exact hx

/-- Inversion of the dedup branch. -/
theorem dedup_restore_step_inv (tag : Tag) (tl : List Entry) (s s' : AState)
    (h : dedup_restore_step tag tl s = some s') :
    (tag ∈ s.dereferencing_list ∧
      s' = { s with
             dereferencing_list := s.dereferencing_list.erase tag }) ∨
    (tag ∉ s.dereferencing_list ∧
      ∃ cid comp, alookup s.fp8_tensor_object_map tag = some cid ∧
        alookup s.compHeap cid = some comp ∧
        s' = { s with compHeap :=
                ainsert s.compHeap cid (restore_from_saved comp tl) }) := by
  unfold dedup_restore_step at h
  by_cases hdl : tag ∈ s.dereferencing_list
  · rw [if_pos hdl] at h
    exact Or.inl ⟨hdl, (Option.some.inj h).symm⟩
  · rw [if_neg hdl] at h
    simp only [Option.bind_eq_bind, Option.pure_def, Option.bind_eq_some] at h
    obtain ⟨cid, hcid, comp, hcomp, h⟩ := h
    exact Or.inr ⟨hdl, cid, comp, hcid, hcomp, (Option.some.inj h).symm⟩

/-- The _do_not_clear step keeps every restore count and every other
field. -/
theorem set_do_not_clear_step_count (cid : Nat) (s s' : AState)
    (h : set_do_not_clear_step cid s = some s') :
    ∃ heap, s' = { s with compHeap := heap } ∧
      heapCountEq s.compHeap heap := by
  unfold set_do_not_clear_step at h
  by_cases hdb : s.double_buffering = true
  · rw [if_pos hdb] at h
    simp only [Option.bind_eq_bind, Option.pure_def, Option.bind_eq_some] at h
    obtain ⟨comp, hcomp, h⟩ := h
    refine ⟨_, (Option.some.inj h).symm, ?_⟩
    exact heapCountEq_ainsert _ _ _ _ hcomp rfl
  · rw [if_neg hdb] at h
    exact ⟨s.compHeap, (Option.some.inj h).symm, heapCountEq_refl _⟩

/-- The Float8 write-back step keeps every restore count; it touches only
the heap and the transpose-flag cache. -/
theorem reload_float8_step_count (tag : Tag) (s s' : AState)
    (h : reload_float8_step tag s = some s') :
    ∃ heap cache, s' = { s with
        compHeap := heap, float8_transpose_cache_valid := cache } ∧
      heapCountEq s.compHeap heap := by
  unfold reload_float8_step at h
  simp only [Option.bind_eq_bind, Option.pure_def, Option.bind_eq_some] at h
  obtain ⟨cid, hcid, comp, hcomp, h⟩ := h
  by_cases hf8 : comp.isFloat8 = true
  · rw [if_pos hf8] at h
    simp only [Option.bind_eq_bind, Option.pure_def, Option.bind_eq_some] at h
    obtain ⟨b, hb, h⟩ := h
    refine ⟨_, _, (Option.some.inj h).symm, ?_⟩
    exact heapCountEq_ainsert _ _ _ _ hcomp rfl
  · rw [if_neg hf8] at h
    exact ⟨s.compHeap, s.float8_transpose_cache_valid,
      (Option.some.inj h).symm, heapCountEq_refl _⟩

/-- Inversion of a plain-tensor push: the composite bookkeeping is
untouched and only the allocated tag's slot is written. -/
theorem async_tensor_push_tensor_inv (chk : PTensor → Bool) (s s' : AState)
    (t : PTensor) (tag : Tag)
    (h : async_tensor_push chk s (PushSpec.tensorV t) = some (s', tag)) :
    s'.compHeap = s.compHeap ∧
    s'.fp8_tensor_object_map = s.fp8_tensor_object_map ∧
    s'.dereferencing_list = s.dereferencing_list ∧
    (∀ t', t' ≠ tag → alookup s'.tensor_tag_to_state t' =
      alookup s.tensor_tag_to_state t') := by
  rw [async_tensor_push] at h
  by_cases hst : t.isStray = true
  · rw [if_pos hst] at h
    have h1 := Option.some.inj h
    have hs' : s' = _ := (pair_eq_fst h1).symm
    have htg : tag = ((-1 : Int), s.torch_tensor_count) :=
      (pair_eq_snd h1).symm
    subst hs'
    subst htg
    refine ⟨rfl, rfl, rfl, fun t' ht' => ?_⟩
    exact alookup_ainsert_ne _ _ _ _ ht'
  · rw [if_neg hst] at h
    by_cases hmem : amem s.tensor_tag_to_state
        (s.current_group, s.tensor_count_current_group)
    · rw [if_pos hmem] at h
      simp at h
    · rw [if_neg hmem] at h
      by_cases hc : s.current_group < (s.num_offload_group : Int) ∧
          chk t = true
      · rw [if_pos hc] at h
        have h1 := Option.some.inj h
        have hs' : s' = _ := (pair_eq_fst h1).symm
        have htg : tag = (s.current_group, s.tensor_count_current_group) :=
          (pair_eq_snd h1).symm
        subst hs'
        subst htg
        refine ⟨rfl, rfl, rfl, fun t' ht' => ?_⟩
        exact alookup_ainsert_ne _ _ _ _ ht'
      · rw [if_neg hc] at h
        have h1 := Option.some.inj h
        have hs' : s' = _ := (pair_eq_fst h1).symm
        have htg : tag = (s.current_group, s.tensor_count_current_group) :=
          (pair_eq_snd h1).symm
        subst hs'
        subst htg
        refine ⟨rfl, rfl, rfl, fun t' ht' => ?_⟩
        exact alookup_ainsert_ne _ _ _ _ ht'

/-- Inversion of a composite push: the tag's slot becomes a list, the
fp8 map gains the tag, the dereferencing list gains the tag exactly when
the composite was already registered, and no restore count changes. -/
theorem async_tensor_push_quant_inv (chk : PTensor → Bool) (s s' : AState)
    (cid : Nat) (tag : Tag)
    (h : async_tensor_push chk s (PushSpec.quantV cid) = some (s', tag)) :
    tag = (s.current_group, s.tensor_count_current_group) ∧
    heapCountEq s.compHeap s'.compHeap ∧
    s'.fp8_tensor_object_map = ainsert s.fp8_tensor_object_map tag cid ∧
    s'.dereferencing_list =
      (if s.fp8_tensor_object_map.any (fun kv => kv.2 = cid) then
        s.dereferencing_list ++ [tag] else s.dereferencing_list) ∧
    (∃ es, alookup s'.tensor_tag_to_state tag = some (Slot.lst es)) ∧
    (∀ t', t' ≠ tag → alookup s'.tensor_tag_to_state t' =
      alookup s.tensor_tag_to_state t') := by
  rw [async_tensor_push] at h
  by_cases hmem : amem s.tensor_tag_to_state
      (s.current_group, s.tensor_count_current_group)
  · rw [if_pos hmem] at h
    simp at h
  · rw [if_neg hmem] at h
    simp only [Option.bind_eq_bind, Option.pure_def] at h
    rw [Option.bind_eq_some] at h
    obtain ⟨comp, hcomp, h⟩ := h
    have hcnt1 : heapCountEq s.compHeap
        (ainsert s.compHeap cid (prepare_for_saving comp).2) :=
      heapCountEq_ainsert _ _ _ _ hcomp rfl
    by_cases hcl : (push_quant_loop chk
        (decide (s.current_group < (s.num_offload_group : Int))) cid
        (prepare_for_saving comp).1).2.2 = true
    · rw [if_pos hcl] at h
      rw [Option.bind_eq_some] at h
      obtain ⟨c2, hc2, h⟩ := h
      have h1 := Option.some.inj h
      have hs' : s' = _ := (pair_eq_fst h1).symm
      have htg : tag = (s.current_group, s.tensor_count_current_group) :=
        (pair_eq_snd h1).symm
      subst hs'
      subst htg
      have hc2v : c2 = (prepare_for_saving comp).2 := by
        rw [alookup_ainsert_self] at hc2
        exact (Option.some.inj hc2).symm
      refine ⟨rfl, ?_, rfl, rfl, ⟨_, alookup_ainsert_self _ _ _⟩,
        fun t' ht' => ?_⟩
      · refine heapCountEq_trans hcnt1 ?_
        refine heapCountEq_ainsert _ _ _ _ (alookup_ainsert_self _ _ _) ?_
        rw [hc2v]
        rfl
      · rw [alookup_ainsert_ne _ _ _ _ ht', alookup_ainsert_ne _ _ _ _ ht']
    · rw [if_neg hcl] at h
      have h1 := Option.some.inj h
      have hs' : s' = _ := (pair_eq_fst h1).symm
      have htg : tag = (s.current_group, s.tensor_count_current_group) :=
        (pair_eq_snd h1).symm
      subst hs'
      subst htg
      refine ⟨rfl, hcnt1, rfl, rfl, ⟨_, alookup_ainsert_self _ _ _⟩,
        fun t' ht' => ?_⟩
      rw [alookup_ainsert_ne _ _ _ _ ht', alookup_ainsert_ne _ _ _ _ ht']

/-- Transport of a restore-count fact along a pointwise count equality. -/
theorem count_at_transport {h h' : List (Nat × Composite)} {x n : Nat}
    (hq : (alookup h' x).map Composite.restoreCount =
      (alookup h x).map Composite.restoreCount)
    (hx : ∃ comp, alookup h x = some comp ∧ comp.restoreCount = n) :
    ∃ comp', alookup h' x = some comp' ∧ comp'.restoreCount = n := by
  obtain ⟨comp, hl, hn⟩ := hx
  rw [hl] at hq
  rcases hl' : alookup h' x with _ | comp'
  · rw [hl'] at hq
    simp at hq
  · rw [hl'] at hq
    simp only [Option.map_some'] at hq
    exact ⟨comp', rfl, (Option.some.inj hq).trans hn⟩

/-- Transport of a restore-count fact along count-preserving heaps. -/
theorem heapCountEq_at {h h' : List (Nat × Composite)}
    (hq : heapCountEq h h') (x n : Nat)
    (hx : ∃ comp, alookup h x = some comp ∧ comp.restoreCount = n) :
    ∃ comp', alookup h' x = some comp' ∧ comp'.restoreCount = n :=
  count_at_transport (hq x) hx

/-- With duplicate-free keys, a value is absent from a map exactly when
no lookup returns it. -/
theorem any_val_eq_false {m : List (Tag × Nat)} {c : Nat}
    (hnd : (m.map Prod.fst).Nodup)
    (h : ∀ t, alookup m t ≠ some c) :
    m.any (fun kv => kv.2 = c) = false := by
  rw [Bool.eq_false_iff]
  intro hany
  rw [List.any_eq_true] at hany
  obtain ⟨kv, hmem, hkv⟩ := hany
  have hl := alookup_of_mem_nodup hnd (by rw [← Prod.mk.eta (p := kv)] at hmem; exact hmem)
  rw [of_decide_eq_true hkv] at hl
  exact h kv.1 hl

/-- A looked-up value witnesses a positive membership test. -/
theorem any_val_eq_true {m : List (Tag × Nat)} {c : Nat} {t : Tag}
    (h : alookup m t = some c) :
    m.any (fun kv => kv.2 = c) = true := by
  rw [List.any_eq_true]
  exact ⟨(t, c), mem_of_alookup h, by simp⟩

/-- One bulk-offload iteration: lookups at other keys are untouched and
a list slot is rewritten to a list slot. -/
theorem bulk_offload_entry_lookup (chk : PTensor → Bool) (g : Int)
    (s s1 : AState) (ptag : Tag) (sl : Slot)
    (hstep : bulk_offload_entry chk g s (ptag, sl) = some s1) :
    (∀ t', t' ≠ ptag → alookup s1.tensor_tag_to_state t' =
      alookup s.tensor_tag_to_state t') ∧
    (∀ es, sl = Slot.lst es →
      alookup s.tensor_tag_to_state ptag = some sl →
      ∃ es', alookup s1.tensor_tag_to_state ptag = some (Slot.lst es')) := by
  unfold bulk_offload_entry at hstep
  by_cases hg : ptag.1 = g
  · rw [if_pos hg] at hstep
    rcases sl with t | ⟨d, hh⟩ | es | cid
    · obtain ⟨sl2, nid2, hbs⟩ : ∃ sl2 nid2,
          bulk_offload_slot chk s.nextId (Slot.tens t) = (sl2, nid2) :=
        ⟨_, _, rfl⟩
      have hstep' : (match bulk_offload_slot chk s.nextId (Slot.tens t) with
          | (sl', nid) => some { s with
              nextId := nid,
              tensor_tag_to_state :=
                ainsert s.tensor_tag_to_state ptag sl' }) = some s1 := hstep
      rw [hbs] at hstep'
      have he := congrArg AState.tensor_tag_to_state
        (Option.some.inj hstep')
      have he2 : ainsert s.tensor_tag_to_state ptag sl2 =
          s1.tensor_tag_to_state := he
      refine ⟨fun t' ht' => ?_, fun es' hes' _ => by simp at hes'⟩
      rw [← he2]
      exact alookup_ainsert_ne _ _ _ _ ht'
    · simp at hstep
    · obtain ⟨sl2, nid2, hbs⟩ : ∃ sl2 nid2,
          bulk_offload_slot chk s.nextId (Slot.lst es) = (sl2, nid2) :=
        ⟨_, _, rfl⟩
      have hlst2 : ∃ es2, sl2 = Slot.lst es2 := by
        have hfst := congrArg Prod.fst hbs
        have hfst2 : Slot.lst ((es.foldr
            (fun e (acc : List Entry × Nat) =>
              match e with
              | Entry.tens t =>
                  if chk t then
                    ((fun st => Entry.offd st.1 st.2)
                        (offload acc.2 t true).1 :: acc.1,
                      (offload acc.2 t true).2)
                  else (e :: acc.1, acc.2)
              | e => (e :: acc.1, acc.2))
            ([], s.nextId)).1) = sl2 := hfst
        exact ⟨_, hfst2.symm⟩
      obtain ⟨es2, hes2⟩ := hlst2
      have hstep' : (match bulk_offload_slot chk s.nextId (Slot.lst es) with
          | (sl', nid) => some { s with
              nextId := nid,
              tensor_tag_to_state :=
                ainsert s.tensor_tag_to_state ptag sl' }) = some s1 := hstep
      rw [hbs] at hstep'
      have he := congrArg AState.tensor_tag_to_state
        (Option.some.inj hstep')
      have he2 : ainsert s.tensor_tag_to_state ptag sl2 =
          s1.tensor_tag_to_state := he
      refine ⟨fun t' ht' => ?_, fun es' hes' _ => ?_⟩
      · rw [← he2]
        exact alookup_ainsert_ne _ _ _ _ ht'
      · refine ⟨es2, ?_⟩
        rw [← he2, hes2]
        exact alookup_ainsert_self _ _ _
    · obtain ⟨sl2, nid2, hbs⟩ : ∃ sl2 nid2,
          bulk_offload_slot chk s.nextId (Slot.comp cid) = (sl2, nid2) :=
        ⟨_, _, rfl⟩
      have hstep' : (match bulk_offload_slot chk s.nextId (Slot.comp cid) with
          | (sl', nid) => some { s with
              nextId := nid,
              tensor_tag_to_state :=
                ainsert s.tensor_tag_to_state ptag sl' }) = some s1 := hstep
      rw [hbs] at hstep'
      have he := congrArg AState.tensor_tag_to_state
        (Option.some.inj hstep')
      have he2 : ainsert s.tensor_tag_to_state ptag sl2 =
          s1.tensor_tag_to_state := he
      refine ⟨fun t' ht' => ?_, fun es' hes' _ => by simp at hes'⟩
      rw [← he2]
      exact alookup_ainsert_ne _ _ _ _ ht'
  · rw [if_neg hg] at hstep
    have hs1 : s1 = s := (Option.some.inj hstep).symm
    subst hs1
    exact ⟨fun t' ht' => rfl, fun es hes hlook => ⟨es, by rw [hlook, hes]⟩⟩

/-- The bulk-offload loop turns list slots into list slots: a tag whose
slot is a list still holds a list afterwards. -/
theorem bulk_offload_fold_lst (chk : PTensor → Bool) (g : Int) :
    ∀ (li : List (Tag × Slot)) (s s' : AState) (t : Tag),
      (∀ p ∈ li, alookup s.tensor_tag_to_state p.1 = some p.2) →
      ((li.map Prod.fst).Nodup) →
      bulk_offload_fold chk g s li = some s' →
      (∃ es, alookup s.tensor_tag_to_state t = some (Slot.lst es)) →
      ∃ es', alookup s'.tensor_tag_to_state t = some (Slot.lst es') := by
  intro li
  induction li with
  | nil =>
      intro s s' t hpair hnd h hlst
      simp only [bulk_offload_fold, Option.some_inj] at h
      rw [← h]
      exact hlst
  | cons p ps ih =>
      intro s s' t hpair hnd h hlst
      rw [bulk_offload_fold] at h
      simp only [Option.bind_eq_bind, Option.bind_eq_some] at h
      obtain ⟨s1, hstep, hrest⟩ := h
      rw [List.map_cons, List.nodup_cons] at hnd
      rcases p with ⟨ptag, sl⟩
      obtain ⟨hkey, hlstk⟩ :=
        bulk_offload_entry_lookup chk g s s1 ptag sl hstep
      have hlst1 : ∃ es, alookup s1.tensor_tag_to_state t =
          some (Slot.lst es) := by
        by_cases htp : t = ptag
        · subst htp
          have hp2 : alookup s.tensor_tag_to_state t = some sl :=
            hpair (t, sl) (List.mem_cons_self _ _)
          obtain ⟨es, hes⟩ := hlst
          rw [hp2] at hes
          have hsl : sl = Slot.lst es := Option.some.inj hes
          exact hlstk es hsl (by rw [hp2])
        · rw [hkey t htp]
          exact hlst
      have hpair1 : ∀ q ∈ ps, alookup s1.tensor_tag_to_state q.1 =
          some q.2 := by
        intro q hq
        have hne : q.1 ≠ ptag := by
          intro he
          apply hnd.1
          show ptag ∈ List.map Prod.fst ps
          rw [← he]
          exact List.mem_map_of_mem Prod.fst hq
        rw [hkey q.1 hne]
        exact hpair q (List.mem_cons_of_mem _ hq)
      exact ih s1 s' t hpair1 hnd.2 hrest hlst1

/-- bulk_offload_group keeps list slots list slots. -/
theorem bulk_offload_group_lst (chk : PTensor → Bool) (g : Int)
    (s s' : AState) (h : bulk_offload_group chk s g = some s')
    (hnd : (stateKeys s).Nodup) (t : Tag)
    (hlst : ∃ es, alookup s.tensor_tag_to_state t = some (Slot.lst es)) :
    ∃ es', alookup s'.tensor_tag_to_state t = some (Slot.lst es') := by
  refine bulk_offload_fold_lst chk g s.tensor_tag_to_state s s' t
    (fun p hp => ?_) hnd h hlst
  have hp' : (p.1, p.2) ∈ s.tensor_tag_to_state := by
    rw [Prod.mk.eta]
    exact hp
  exact alookup_of_mem_nodup hnd hp'

/-- The first forward-sync block keeps list slots list slots. -/
theorem sync_fwd_step1_lst (chk : PTensor → Bool) (cur : Int)
    (s s' : AState) (h : sync_fwd_step1 chk cur s = some s')
    (hnd : (stateKeys s).Nodup) (t : Tag)
    (hlst : ∃ es, alookup s.tensor_tag_to_state t = some (Slot.lst es)) :
    ∃ es', alookup s'.tensor_tag_to_state t = some (Slot.lst es') := by
  unfold sync_fwd_step1 at h
  by_cases hc : cur = 0
  · rw [if_pos hc] at h
    by_cases hdb : ¬ s.double_buffer_created
    · rw [if_pos hdb] at h
      simp only [Option.bind_eq_bind, Option.pure_def, Option.some_bind] at h
      rw [Option.bind_eq_some] at h
      obtain ⟨⟨half, nid⟩, hbb, h⟩ := h
      exact bulk_offload_group_lst chk 0 _ _ h hnd t hlst
    · rw [if_neg hdb] at h
      simp only [Option.bind_eq_bind, Option.pure_def, Option.some_bind] at h
      exact bulk_offload_group_lst chk 0 _ _ h hnd t hlst
  · rw [if_neg hc] at h
    rw [← Option.some.inj h]
    exact hlst

/-- The window block keeps list slots list slots. -/
theorem sync_fwd_step2_lst (chk : PTensor → Bool) (cur : Int)
    (s s' : AState) (h : sync_fwd_step2 chk cur s = some s')
    (hnd : (stateKeys s).Nodup) (t : Tag)
    (hlst : ∃ es, alookup s.tensor_tag_to_state t = some (Slot.lst es)) :
    ∃ es', alookup s'.tensor_tag_to_state t = some (Slot.lst es') := by
  unfold sync_fwd_step2 at h
  simp only [Option.bind_eq_bind, Option.pure_def] at h
  rw [Option.bind_eq_some] at h
  obtain ⟨w, hw, h⟩ := h
  by_cases hww : w = cur
  · rw [if_pos hww] at h
    by_cases hog : (free_bufs_of_group s s.offloaded_group_count
        ).offloaded_group_count <
        (free_bufs_of_group s s.offloaded_group_count).num_offload_group - 1
    · rw [if_pos hog] at h
      rw [Option.bind_eq_some] at h
      obtain ⟨sb, hb, hcc⟩ := h
      have hl1 := bulk_offload_group_lst _ _ _ _ hb hnd t hlst
      have he := congrArg AState.tensor_tag_to_state (Option.some.inj hcc)
      have he2 : sb.tensor_tag_to_state = s'.tensor_tag_to_state := he
      rw [← he2]
      exact hl1
    · rw [if_neg hog] at h
      have he := congrArg AState.tensor_tag_to_state (Option.some.inj h)
      have he2 : s.tensor_tag_to_state = s'.tensor_tag_to_state := he
      rw [← he2]
      exact hlst
  · rw [if_neg hww] at h
    rw [← Option.some.inj h]
    exact hlst

/-- The forward commit barrier keeps list slots list slots. -/
theorem on_group_commit_forward_lst (chk : PTensor → Bool) (s s' : AState)
    (h : on_group_commit_forward chk s = some s')
    (hnd : (stateKeys s).Nodup) (t : Tag)
    (hlst : ∃ es, alookup s.tensor_tag_to_state t = some (Slot.lst es)) :
    ∃ es', alookup s'.tensor_tag_to_state t = some (Slot.lst es') := by
  unfold on_group_commit_forward synchronize_on_group_commit_forward at h
  simp only [Option.bind_eq_bind, Option.pure_def] at h
  rw [Option.bind_eq_some] at h
  obtain ⟨s3, h3, hfin⟩ := h
  rw [Option.bind_eq_some] at h3
  obtain ⟨s1, h1, h23⟩ := h3
  rw [Option.bind_eq_some] at h23
  obtain ⟨s2, h2, h3'⟩ := h23
  have hk1 := sync_fwd_step1_keys chk s.current_group s s1 h1
  have hl1 := sync_fwd_step1_lst chk s.current_group s s1 h1 hnd t hlst
  have hnd1 : (stateKeys s1).Nodup := by
    rw [hk1]
    exact hnd
  have hl2 := sync_fwd_step2_lst chk s.current_group s1 s2 h2 hnd1 t hl1
  obtain ⟨r2, c3, n3, rfl⟩ := sync_fwd_step3_shape _ _ _ h3'
  have he := congrArg AState.tensor_tag_to_state (Option.some.inj hfin)
  have he2 : s2.tensor_tag_to_state = s'.tensor_tag_to_state := he
  rw [← he2]
  exact hl2

/-- The forward commit barrier preserves the tracked-composite stage and
the map hygiene. -/
theorem c3_commit (c rc0 : Nat) (chk : PTensor → Bool) (s s' : AState)
    (st : C3St) (hnd : (stateKeys s).Nodup)
    (hst : C3state c rc0 s st) (haux : AuxF s)
    (h : on_group_commit_forward chk s = some s') :
    C3state c rc0 s' st ∧ AuxF s' := by
  have hsh := on_group_commit_forward_shape chk s s' h
  have hk := on_group_commit_forward_keys chk s s' h
  have hfp8 := hsh.2.2.2.2.2.2.2.1
  have hdl := hsh.2.2.2.2.2.2.2.2.2.1
  have hheap := hsh.2.2.2.2.2.2.2.2.2.2
  have haux' : AuxF s' := by
    refine ⟨?_, ?_, ?_⟩
    · rw [hfp8]
      exact haux.1
    · intro t ht
      rw [hfp8] at ht
      have := haux.2.1 t ht
      show t ∈ stateKeys s'
      rw [hk]
      exact this
    · intro t ht
      rw [hdl] at ht
      have := haux.2.2 t ht
      show t ∈ stateKeys s'
      rw [hk]
      exact this
  refine ⟨?_, haux'⟩
  rcases st with _ | t1 | ⟨t1, t2⟩
  · obtain ⟨hheapc, hnofp⟩ := hst
    refine ⟨?_, ?_⟩
    · rw [hheap]
      exact hheapc
    · intro t
      rw [hfp8]
      exact hnofp t
  · obtain ⟨hheapc, hslot, hfp, hdl1, honly⟩ := hst
    refine ⟨?_, ?_, ?_, ?_, ?_⟩
    · rw [hheap]
      exact hheapc
    · exact on_group_commit_forward_lst chk s s' h hnd t1 hslot
    · rw [hfp8]
      exact hfp
    · rw [hdl]
      exact hdl1
    · intro t ht
      rw [hfp8] at ht
      exact honly t ht
  · obtain ⟨hheapc, hp1, hq1, hp2, hq2, honly, hnds, hndf, hne⟩ := hst
    refine ⟨?_, ?_, ?_, ?_, ?_, ?_, ?_, ?_, hne⟩
    · rw [hheap]
      obtain ⟨comp, hl, hc⟩ := hheapc
      exact ⟨comp, hl, hc⟩
    · intro _
      obtain ⟨hs1, hf1, hd1⟩ := hp1 rfl
      refine ⟨on_group_commit_forward_lst chk s s' h hnd t1 hs1, ?_, ?_⟩
      · rw [hfp8]
        exact hf1
      · rw [hdl]
        exact hd1
    · intro he
      exact absurd he (by simp)
    · intro _
      obtain ⟨hs2, hf2, hd2⟩ := hp2 rfl
      refine ⟨on_group_commit_forward_lst chk s s' h hnd t2 hs2, ?_, ?_⟩
      · rw [hfp8]
        exact hf2
      · rw [hdl]
        exact hd2
    · intro he
      exact absurd he (by simp)
    · intro t ht
      rw [hfp8] at ht
      exact honly t ht
    · rw [hk]
      exact hnds
    · rw [hfp8]
      exact hndf

/-- tensor_push advances the tracked-composite stage: a plain push keeps
the stage, a push of the tracked composite allocates its next tag, any
other composite push keeps the stage. -/
theorem c3_push (c rc0 : Nat) (chk : PTensor → Bool) (p : PushSpec)
    (s s' : AState) (tag : Tag) (st : C3St)
    (hpi : PushInv s) (haux : AuxF s) (hst : C3state c rc0 s st)
    (hcnt : stCount st + (if p = PushSpec.quantV c then 1 else 0) ≤ 2)
    (h : async_tensor_push chk s p = some (s', tag)) :
    ∃ st', C3state c rc0 s' st' ∧ AuxF s' ∧
      stCount st' = stCount st +
        (if p = PushSpec.quantV c then 1 else 0) := by
  obtain ⟨hfresh, hkeys, hpi', hcg⟩ :=
    async_tensor_push_tag chk p s s' tag hpi h
  have hmemkeys : ∀ t : Tag, t ∈ stateKeys s → t ∈ stateKeys s' := by
    intro t ht
    rw [hkeys]
    exact List.mem_append_left _ ht
  have htagmem : tag ∈ stateKeys s' := by
    rw [hkeys]
    exact List.mem_append_right _ (List.mem_singleton.mpr rfl)
  have hne : ∀ t' : Tag, t' ∈ stateKeys s → t' ≠ tag := by
    intro t' ht' he
    exact hfresh (he ▸ ht')
  rcases p with t | cid
  · obtain ⟨hheap, hfp8, hdl, hstate⟩ :=
      async_tensor_push_tensor_inv chk s s' t tag h
    have hifz : (if PushSpec.tensorV t = PushSpec.quantV c then 1 else 0)
        = 0 := by simp
    have haux' : AuxF s' := by
      refine ⟨?_, ?_, ?_⟩
      · rw [hfp8]
        exact haux.1
      · intro x hx
        rw [hfp8] at hx
        exact hmemkeys x (haux.2.1 x hx)
      · intro x hx
        rw [hdl] at hx
        exact hmemkeys x (haux.2.2 x hx)
    refine ⟨st, ?_, haux', by simp [hifz]⟩
    rcases st with _ | t1 | ⟨t1, t2⟩
    · obtain ⟨hheapc, hnofp⟩ := hst
      refine ⟨by rw [hheap]; exact hheapc, ?_⟩
      intro x
      rw [hfp8]
      exact hnofp x
    · obtain ⟨hheapc, hslot, hfp, hdl1, honly⟩ := hst
      have hmem1 : t1 ∈ stateKeys s := by
        obtain ⟨es, hes⟩ := hslot
        exact List.mem_map_of_mem Prod.fst (mem_of_alookup hes)
      refine ⟨by rw [hheap]; exact hheapc, ?_, by rw [hfp8]; exact hfp,
        by rw [hdl]; exact hdl1, ?_⟩
      · rw [hstate t1 (hne t1 hmem1)]
        exact hslot
      · intro x hx
        rw [hfp8] at hx
        exact honly x hx
    · obtain ⟨hheapc, hp1, hq1, hp2, hq2, honly, hnds, hndf, hne12⟩ := hst
      obtain ⟨hs1, hf1, hd1⟩ := hp1 rfl
      obtain ⟨hs2, hf2, hd2⟩ := hp2 rfl
      have hmem1 : t1 ∈ stateKeys s := by
        obtain ⟨es, hes⟩ := hs1
        exact List.mem_map_of_mem Prod.fst (mem_of_alookup hes)
      have hmem2 : t2 ∈ stateKeys s := by
        obtain ⟨es, hes⟩ := hs2
        exact List.mem_map_of_mem Prod.fst (mem_of_alookup hes)
      refine ⟨by rw [hheap]; exact hheapc, ?_, ?_, ?_, ?_, ?_,
        hpi'.2.2, by rw [hfp8]; exact hndf, hne12⟩
      · intro _
        refine ⟨?_, by rw [hfp8]; exact hf1, by rw [hdl]; exact hd1⟩
        rw [hstate t1 (hne t1 hmem1)]
        exact hs1
      · intro he
        exact absurd he (by simp)
      · intro _
        refine ⟨?_, by rw [hfp8]; exact hf2, by rw [hdl]; exact hd2⟩
        rw [hstate t2 (hne t2 hmem2)]
        exact hs2
      · intro he
        exact absurd he (by simp)
      · intro x hx
        rw [hfp8] at hx
        exact honly x hx
  · obtain ⟨htg, hcnteq, hfp8, hdl, hslotnew, hstate⟩ :=
      async_tensor_push_quant_inv chk s s' cid tag h
    have htagfp : tag ∉ s.fp8_tensor_object_map.map Prod.fst := by
      intro hm
      exact hfresh (haux.2.1 tag hm)
    have hfpapp : ainsert s.fp8_tensor_object_map tag cid =
        s.fp8_tensor_object_map ++ [(tag, cid)] :=
      ainsert_app_of_fresh _ (alookup_eq_none.mpr htagfp)
    have haux' : AuxF s' := by
      refine ⟨?_, ?_, ?_⟩
      · rw [hfp8, hfpapp, List.map_append]
        exact nodup_append_singleton haux.1 htagfp
      · intro x hx
        rw [hfp8, hfpapp, List.map_append] at hx
        rcases List.mem_append.mp hx with hx | hx
        · exact hmemkeys x (haux.2.1 x hx)
        · have : x = tag := List.mem_singleton.mp hx
          subst this
          exact htagmem
      · intro x hx
        rw [hdl] at hx
        by_cases hany : s.fp8_tensor_object_map.any
            (fun kv => kv.2 = cid) = true
        · rw [if_pos hany] at hx
          rcases List.mem_append.mp hx with hx | hx
          · exact hmemkeys x (haux.2.2 x hx)
          · have : x = tag := List.mem_singleton.mp hx
            subst this
            exact htagmem
        · rw [if_neg hany] at hx
          exact hmemkeys x (haux.2.2 x hx)
    by_cases hcc : cid = c
    · subst cid
      have hif1 : (if PushSpec.quantV c = PushSpec.quantV c then 1
          else 0) = 1 := by simp
      rcases st with _ | t1 | ⟨t1, t2⟩
      · obtain ⟨hheapc, hnofp⟩ := hst
        have hany : s.fp8_tensor_object_map.any
            (fun kv => kv.2 = c) = false :=
          any_val_eq_false haux.1 hnofp
        have hdl' : s'.dereferencing_list = s.dereferencing_list := by
          rw [hdl, hany]
          simp
        refine ⟨C3St.one tag, ⟨?_, hslotnew, ?_, ?_, ?_⟩, haux',
          by simp [stCount, hif1]⟩
        · exact heapCountEq_at hcnteq c rc0 hheapc
        · rw [hfp8]
          exact alookup_ainsert_self _ _ _
        · rw [hdl']
          intro hm
          exact hfresh (haux.2.2 tag hm)
        · intro x hx
          rw [hfp8] at hx
          by_cases hxt : x = tag
          · exact hxt
          · rw [alookup_ainsert_ne _ _ _ _ hxt] at hx
            exact absurd hx (hnofp x)
      · obtain ⟨hheapc, hslot, hfp, hdl1, honly⟩ := hst
        have hmem1 : t1 ∈ stateKeys s := by
          obtain ⟨es, hes⟩ := hslot
          exact List.mem_map_of_mem Prod.fst (mem_of_alookup hes)
        have hne1 : t1 ≠ tag := hne t1 hmem1
        have hany : s.fp8_tensor_object_map.any
            (fun kv => kv.2 = c) = true := any_val_eq_true hfp
        have hdl' : s'.dereferencing_list =
            s.dereferencing_list ++ [tag] := by
          rw [hdl, hany]
          simp
        refine ⟨C3St.two t1 tag, ⟨?_, ?_, ?_, ?_, ?_, ?_,
          hpi'.2.2, ?_, hne1⟩, haux', by simp [stCount, hif1]⟩
        · exact heapCountEq_at hcnteq c rc0 hheapc
        · intro _
          refine ⟨?_, ?_, ?_⟩
          · rw [hstate t1 hne1]
            exact hslot
          · rw [hfp8, alookup_ainsert_ne _ _ _ _ hne1]
            exact hfp
          · rw [hdl']
            intro hm
            rcases List.mem_append.mp hm with hm | hm
            · exact hdl1 hm
            · exact hne1 (List.mem_singleton.mp hm)
        · intro he
          exact absurd he (by simp)
        · intro _
          refine ⟨hslotnew, ?_, ?_⟩
          · rw [hfp8]
            exact alookup_ainsert_self _ _ _
          · rw [hdl']
            exact List.mem_append_right _ (List.mem_singleton.mpr rfl)
        · intro he
          exact absurd he (by simp)
        · intro x hx
          rw [hfp8] at hx
          by_cases hxt : x = tag
          · exact Or.inr hxt
          · rw [alookup_ainsert_ne _ _ _ _ hxt] at hx
            exact Or.inl (honly x hx)
        · rw [hfp8, hfpapp, List.map_append]
          exact nodup_append_singleton haux.1 htagfp
      · exfalso
        rw [hif1] at hcnt
        simp [stCount] at hcnt
    · have hif0 : (if PushSpec.quantV cid = PushSpec.quantV c then 1
          else 0) = 0 := by simp [hcc]
      have hlook' : ∀ x, alookup s'.fp8_tensor_object_map x = some c →
          alookup s.fp8_tensor_object_map x = some c := by
        intro x hx
        rw [hfp8] at hx
        by_cases hxt : x = tag
        · subst hxt
          rw [alookup_ainsert_self] at hx
          exact absurd (Option.some.inj hx) hcc
        · rw [alookup_ainsert_ne _ _ _ _ hxt] at hx
          exact hx
      have hdlmem : ∀ x : Tag, x ∈ s.dereferencing_list →
          x ∈ s'.dereferencing_list := by
        intro x hx
        rw [hdl]
        by_cases hany : s.fp8_tensor_object_map.any
            (fun kv => kv.2 = cid) = true
        · rw [if_pos hany]
          exact List.mem_append_left _ hx
        · rw [if_neg hany]
          exact hx
      have hdlnot : ∀ x : Tag, x ∉ s.dereferencing_list → x ≠ tag →
          x ∉ s'.dereferencing_list := by
        intro x hx hxt
        rw [hdl]
        by_cases hany : s.fp8_tensor_object_map.any
            (fun kv => kv.2 = cid) = true
        · rw [if_pos hany]
          intro hm
          rcases List.mem_append.mp hm with hm | hm
          · exact hx hm
          · exact hxt (List.mem_singleton.mp hm)
        · rw [if_neg hany]
          exact hx
      refine ⟨st, ?_, haux', by simp [hif0, hcc]⟩
      rcases st with _ | t1 | ⟨t1, t2⟩
      · obtain ⟨hheapc, hnofp⟩ := hst
        refine ⟨heapCountEq_at hcnteq c rc0 hheapc, ?_⟩
        intro x hx
        exact hnofp x (hlook' x hx)
      · obtain ⟨hheapc, hslot, hfp, hdl1, honly⟩ := hst
        have hmem1 : t1 ∈ stateKeys s := by
          obtain ⟨es, hes⟩ := hslot
          exact List.mem_map_of_mem Prod.fst (mem_of_alookup hes)
        have hne1 : t1 ≠ tag := hne t1 hmem1
        refine ⟨heapCountEq_at hcnteq c rc0 hheapc, ?_, ?_, ?_, ?_⟩
        · rw [hstate t1 hne1]
          exact hslot
        · rw [hfp8, alookup_ainsert_ne _ _ _ _ hne1]
          exact hfp
        · exact hdlnot t1 hdl1 hne1
        · intro x hx
          exact honly x (hlook' x hx)
      · obtain ⟨hheapc, hp1, hq1, hp2, hq2, honly, hnds, hndf, hne12⟩ := hst
        obtain ⟨hs1, hf1, hd1⟩ := hp1 rfl
        obtain ⟨hs2, hf2, hd2⟩ := hp2 rfl
        have hmem1 : t1 ∈ stateKeys s := by
          obtain ⟨es, hes⟩ := hs1
          exact List.mem_map_of_mem Prod.fst (mem_of_alookup hes)
        have hmem2 : t2 ∈ stateKeys s := by
          obtain ⟨es, hes⟩ := hs2
          exact List.mem_map_of_mem Prod.fst (mem_of_alookup hes)
        have hne1 : t1 ≠ tag := hne t1 hmem1
        have hne2 : t2 ≠ tag := hne t2 hmem2
        refine ⟨heapCountEq_at hcnteq c rc0 hheapc, ?_, ?_, ?_, ?_, ?_,
          hpi'.2.2, ?_, hne12⟩
        · intro _
          refine ⟨?_, ?_, hdlnot t1 hd1 hne1⟩
          · rw [hstate t1 hne1]
            exact hs1
          · rw [hfp8, alookup_ainsert_ne _ _ _ _ hne1]
            exact hf1
        · intro he
          exact absurd he (by simp)
        · intro _
          refine ⟨?_, ?_, hdlmem t2 hd2⟩
          · rw [hstate t2 hne2]
            exact hs2
          · rw [hfp8, alookup_ainsert_ne _ _ _ _ hne2]
            exact hf2
        · intro he
          exact absurd he (by simp)
        · intro x hx
          exact honly x (hlook' x hx)
        · rw [hfp8, hfpapp, List.map_append]
          exact nodup_append_singleton haux.1 htagfp

theorem countQuantC_cons (c : Nat) (p : PushSpec) (l : List PushSpec) :
    countQuantC c (p :: l) =
      (if p = PushSpec.quantV c then 1 else 0) + countQuantC c l := by
  unfold countQuantC
  rw [List.countP_cons]
  by_cases hp : p = PushSpec.quantV c
  · simp [hp]
    omega
  · simp [hp]

theorem countQuantC_append (c : Nat) (a b : List PushSpec) :
    countQuantC c (a ++ b) = countQuantC c a + countQuantC c b := by
  unfold countQuantC
  rw [List.countP_append]

/-- One layer of pushes advances the tracked-composite stage by exactly
the number of pushes of the tracked composite in that layer. -/
theorem c3_push_layer (c rc0 : Nat) (chk : PTensor → Bool) :
    ∀ (ps : List PushSpec) (s s' : AState)
      (prs : List (Tag × PushSpec)) (st : C3St),
      PushInv s → AuxF s → C3state c rc0 s st →
      stCount st + countQuantC c ps ≤ 2 →
      push_layer chk s ps = some (s', prs) →
      ∃ st', C3state c rc0 s' st' ∧ AuxF s' ∧ PushInv s' ∧
        stCount st' = stCount st + countQuantC c ps := by
  intro ps
  induction ps with
  | nil =>
      intro s s' prs st hpi haux hst hcnt h
      simp only [push_layer, Option.some_inj] at h
      have hs' : s' = s := (pair_eq_fst h).symm
      subst hs'
      exact ⟨st, hst, haux, hpi, by simp [countQuantC]⟩
  | cons p ps ih =>
      intro s s' prs st hpi haux hst hcnt h
      rw [push_layer] at h
      simp only [Option.bind_eq_bind, Option.pure_def, Option.bind_eq_some] at h
      obtain ⟨⟨s1, tg⟩, hpush, ⟨s2, rest⟩, hrest, heq⟩ := h
      rw [countQuantC_cons] at hcnt
      obtain ⟨_, _, hpi1, _⟩ := async_tensor_push_tag chk p s s1 tg hpi hpush
      obtain ⟨st1, hst1, haux1, hc1⟩ :=
        c3_push c rc0 chk p s s1 tg st hpi haux hst (by omega) hpush
      obtain ⟨st2, hst2, haux2, hpi2, hc2⟩ :=
        ih s1 s2 rest st1 hpi1 haux1 hst1 (by omega) hrest
      have hs' : s' = s2 := (pair_eq_fst (Option.some.inj heq)).symm
      subst hs'
      refine ⟨st2, hst2, haux2, hpi2, ?_⟩
      rw [hc2, hc1, countQuantC_cons]
      omega

/-- The forward phase advances the tracked-composite stage by exactly
the number of pushes of the tracked composite. -/
theorem c3_run_forward (c rc0 : Nat) :
    ∀ (ls : List (List PushSpec)) (s s' : AState)
      (tgs : List (List (Tag × PushSpec))) (st : C3St),
      PushInv s → AuxF s → C3state c rc0 s st →
      stCount st + countQuantC c ls.flatten ≤ 2 →
      run_forward activations_checker s ls = some (s', tgs) →
      ∃ st', C3state c rc0 s' st' ∧ AuxF s' ∧ PushInv s' ∧
        stCount st' = stCount st + countQuantC c ls.flatten := by
  intro ls
  induction ls with
  | nil =>
      intro s s' tgs st hpi haux hst hcnt h
      simp only [run_forward, Option.some_inj] at h
      have hs' : s' = s := (pair_eq_fst h).symm
      subst hs'
      exact ⟨st, hst, haux, hpi, by simp [countQuantC]⟩
  | cons l ls ih =>
      intro s s' tgs st hpi haux hst hcnt h
      rw [run_forward] at h
      simp only [Option.bind_eq_bind, Option.pure_def, Option.bind_eq_some] at h
      obtain ⟨⟨s1, prs⟩, hlayer, s2, hcommit, ⟨s3, rest⟩, hrest, heq⟩ := h
      rw [List.flatten_cons, countQuantC_append] at hcnt
      obtain ⟨st1, hst1, haux1, hpi1, hc1⟩ :=
        c3_push_layer c rc0 activations_checker l s s1 prs st hpi haux hst
          (by omega) hlayer
      obtain ⟨hst2, haux2⟩ := c3_commit c rc0 activations_checker s1 s2 st1
        hpi1.2.2 hst1 haux1 hcommit
      have hpi2 := commit_fwd_pushinv activations_checker s1 s2 hcommit hpi1
      obtain ⟨st3, hst3, haux3, hpi3, hc3⟩ :=
        ih s2 s3 rest st1 hpi2 haux2 hst2 (by omega) hrest
      have hs' : s' = s3 := (pair_eq_fst (Option.some.inj heq)).symm
      subst hs'
      refine ⟨st3, hst3, haux3, hpi3, ?_⟩
      rw [hc3, hc1, List.flatten_cons, countQuantC_append]
      omega

/-- Frame rule for the dedup invariant: any transition that preserves
the tracked lookups preserves the invariant with the same flags. -/
theorem binv_frame (c : Nat) (t1 t2 : Tag) (rc0 : Nat) (d1 d2 : Bool)
    (s s' : AState) (hinv : BInv c t1 t2 rc0 d1 d2 s)
    (hheap : (alookup s'.compHeap c).map Composite.restoreCount =
      (alookup s.compHeap c).map Composite.restoreCount)
    (hst1 : alookup s'.tensor_tag_to_state t1 =
      alookup s.tensor_tag_to_state t1)
    (hst2 : alookup s'.tensor_tag_to_state t2 =
      alookup s.tensor_tag_to_state t2)
    (hfp1 : alookup s'.fp8_tensor_object_map t1 =
      alookup s.fp8_tensor_object_map t1)
    (hfp2 : alookup s'.fp8_tensor_object_map t2 =
      alookup s.fp8_tensor_object_map t2)
    (hfpc : ∀ x, alookup s'.fp8_tensor_object_map x = some c →
      x = t1 ∨ x = t2)
    (hdl1 : t1 ∉ s.dereferencing_list → t1 ∉ s'.dereferencing_list)
    (hdl2 : t2 ∈ s.dereferencing_list → t2 ∈ s'.dereferencing_list)
    (hnds' : (stateKeys s').Nodup)
    (hndf' : (s'.fp8_tensor_object_map.map Prod.fst).Nodup) :
    BInv c t1 t2 rc0 d1 d2 s' := by
  obtain ⟨hheapc, hp1, hq1, hp2, hq2, honly, hnds, hndf, hne12⟩ := hinv
  refine ⟨?_, ?_, ?_, ?_, ?_, hfpc, hnds', hndf', hne12⟩
  · exact count_at_transport hheap hheapc
  · intro hd
    obtain ⟨hs1, hf1, hd1⟩ := hp1 hd
    exact ⟨by rw [hst1]; exact hs1, by rw [hfp1]; exact hf1, hdl1 hd1⟩
  · intro hd sl hsl
    rw [hst1] at hsl
    exact hq1 hd sl hsl
  · intro hd
    obtain ⟨hs2, hf2, hd2⟩ := hp2 hd
    exact ⟨by rw [hst2]; exact hs2, by rw [hfp2]; exact hf2, hdl2 hd2⟩
  · intro hd sl hsl
    rw [hst2] at hsl
    exact hq2 hd sl hsl

set_option maxHeartbeats 1600000 in
/-- tensor_pop preserves the dedup invariant: popping t1 performs the
restore (flipping d1), popping t2 is skipped by the dedup set (flipping
d2), both return the tracked composite; any other pop leaves the flags
alone. -/
theorem binv_pop (c : Nat) (t1 t2 : Tag) (rc0 : Nat) (d1 d2 : Bool)
    (s : AState) (tag : Tag) (s' : AState) (v : PopVal)
    (hinv : BInv c t1 t2 rc0 d1 d2 s)
    (h : async_tensor_pop s tag = some (s', v)) :
    ∃ d1' d2', BInv c t1 t2 rc0 d1' d2' s' ∧
      (tag = t1 → v = PopVal.comp c ∧ d1' = true) ∧
      (tag = t2 → v = PopVal.comp c ∧ d2' = true) ∧
      (tag ≠ t1 → d1' = d1) ∧ (tag ≠ t2 → d2' = d2) := by
  have hheapc := hinv.1
  have hp1 := hinv.2.1
  have hq1 := hinv.2.2.1
  have hp2 := hinv.2.2.2.1
  have hq2 := hinv.2.2.2.2.1
  have honly := hinv.2.2.2.2.2.1
  have hnds := hinv.2.2.2.2.2.2.1
  have hndf := hinv.2.2.2.2.2.2.2.1
  have hne12 := hinv.2.2.2.2.2.2.2.2
  have hRlook : ∀ x : Tag, x ≠ tag →
      alookup (aremove s.tensor_tag_to_state tag) x =
      alookup s.tensor_tag_to_state x :=
    fun x hx => alookup_aremove_ne _ _ _ hx
  have hRtag : alookup (aremove s.tensor_tag_to_state tag) tag = none :=
    alookup_aremove_self_of_nodup hnds
  have hRnd : ((aremove s.tensor_tag_to_state tag).map Prod.fst).Nodup :=
    List.Nodup.sublist (aremove_keys_sublist _ _) hnds
  have hFlook : ∀ x : Tag, x ≠ tag →
      alookup (aremove s.fp8_tensor_object_map tag) x =
      alookup s.fp8_tensor_object_map x :=
    fun x hx => alookup_aremove_ne _ _ _ hx
  have hFtag : alookup (aremove s.fp8_tensor_object_map tag) tag = none :=
    alookup_aremove_self_of_nodup hndf
  have hFnd : ((aremove s.fp8_tensor_object_map tag).map Prod.fst).Nodup :=
    List.Nodup.sublist (aremove_keys_sublist _ _) hndf
  unfold async_tensor_pop at h
  rcases hsl : alookup s.tensor_tag_to_state tag with _ | slot
  · rw [hsl] at h
    simp only [Option.pure_def, Option.bind_eq_bind, Option.none_bind] at h
    exact absurd h (by simp)
  · rw [hsl] at h
    rcases slot with t0 | ⟨d0, h0⟩ | es | cidc
    · simp only [Option.pure_def, Option.bind_eq_bind, Option.some_bind] at h
      have h1 := Option.some.inj h
      have hs' : s' = _ := (pair_eq_fst h1).symm
      have hv : v = _ := (pair_eq_snd h1).symm
      subst hs'
      subst hv
      have hnet1 : tag ≠ t1 := by
        intro he
        subst he
        rcases Bool.eq_false_or_eq_true d1 with hd | hd
        · exact Slot.noConfusion (hq1 hd _ hsl)
        · obtain ⟨⟨es0, hes0⟩, _, _⟩ := hp1 hd
          rw [hsl] at hes0
          exact Slot.noConfusion (Option.some.inj hes0)
      have hnet2 : tag ≠ t2 := by
        intro he
        subst he
        rcases Bool.eq_false_or_eq_true d2 with hd | hd
        · exact Slot.noConfusion (hq2 hd _ hsl)
        · obtain ⟨⟨es0, hes0⟩, _, _⟩ := hp2 hd
          rw [hsl] at hes0
          exact Slot.noConfusion (Option.some.inj hes0)
      refine ⟨d1, d2, ?_, fun he => absurd he hnet1,
        fun he => absurd he hnet2, fun _ => rfl, fun _ => rfl⟩
      exact binv_frame c t1 t2 rc0 d1 d2 s _ hinv rfl
        (hRlook t1 (Ne.symm hnet1)) (hRlook t2 (Ne.symm hnet2)) rfl rfl
        (fun x hx => honly x hx) (fun hx => hx) (fun hx => hx) hRnd hndf
    · simp only [Option.pure_def, Option.bind_eq_bind, Option.some_bind] at h
      exact absurd h (by simp)
    · simp only [Option.pure_def, Option.bind_eq_bind, Option.some_bind,
        Option.bind_eq_some] at h
      obtain ⟨s1, hded, cid, hfp8look, s3, hset, h⟩ := h
      obtain ⟨heap3, hs3, hcnt3⟩ := set_do_not_clear_step_count _ _ _ hset
      have h1 := Option.some.inj h
      have hs' : s' = _ := (pair_eq_fst h1).symm
      have hv : v = PopVal.comp cid := (pair_eq_snd h1).symm
      subst hs'
      subst hv
      by_cases htag1 : tag = t1
      · subst htag1
        have hd1 : d1 = false := by
          rcases Bool.eq_false_or_eq_true d1 with hd | hd
          · exact Slot.noConfusion (hq1 hd _ hsl)
          · exact hd
        obtain ⟨⟨es0, hes0⟩, hf1, hdl1n⟩ := hp1 hd1
        rcases dedup_restore_step_inv _ _ _ _ hded with
          ⟨hmem, hs1⟩ | ⟨hnmem, cid0, comp0, hcid0, hcomp0, hs1⟩
        · exact absurd hmem hdl1n
        · have hcid0' : alookup s.fp8_tensor_object_map tag = some cid0 :=
            hcid0
          have hcc : cid0 = c := Option.some.inj (hcid0'.symm.trans hf1)
          subst hs1
          subst hs3
          have hfp8look' : alookup s.fp8_tensor_object_map tag = some cid :=
            hfp8look
          have hcidc : cid = c := Option.some.inj (hfp8look'.symm.trans hf1)
          have hcomp0' : alookup s.compHeap cid0 = some comp0 := hcomp0
          have hcomp0c : comp0.restoreCount = rc0 := by
            obtain ⟨compA, hlA, hcA⟩ := hheapc
            rw [hcc, hlA] at hcomp0'
            rw [← Option.some.inj hcomp0', hcA, hd1]
            simp
          have hatc : ∃ comp', alookup heap3 c = some comp' ∧
              comp'.restoreCount = rc0 + 1 := by
            refine count_at_transport (hcnt3 c) ?_
            show ∃ comp', alookup (ainsert s.compHeap cid0
              (restore_from_saved comp0 es)) c = some comp' ∧
              comp'.restoreCount = rc0 + 1
            rw [← hcc, alookup_ainsert_self]
            exact ⟨_, rfl, by simp [restore_from_saved, hcomp0c]⟩
          refine ⟨true, d2, ?_, fun _ => ⟨by rw [hcidc], rfl⟩,
            fun he => absurd he hne12, fun hne => absurd rfl hne,
            fun _ => rfl⟩
          refine ⟨?_, ?_, ?_, ?_, ?_, ?_, ?_, ?_, hne12⟩
          · obtain ⟨comp', hl', hc'⟩ := hatc
            exact ⟨comp', hl', by rw [hc']; simp⟩
          · intro he
            exact absurd he (by simp)
          · intro _ sl hsl'
            have hsl'' : alookup (aremove s.tensor_tag_to_state tag) tag =
                some sl := hsl'
            rw [hRtag] at hsl''
            exact Option.noConfusion hsl''
          · intro hd
            obtain ⟨hs2p, hf2p, hd2p⟩ := hp2 hd
            refine ⟨?_, ?_, hd2p⟩
            · have hx : ∃ es2, alookup (aremove s.tensor_tag_to_state tag)
                  t2 = some (Slot.lst es2) := by
                rw [hRlook t2 (Ne.symm hne12)]
                exact hs2p
              exact hx
            · have hx : alookup (aremove s.fp8_tensor_object_map tag) t2 =
                  some c := by
                rw [hFlook t2 (Ne.symm hne12)]
                exact hf2p
              exact hx
          · intro hd sl hsl'
            have hsl'' : alookup (aremove s.tensor_tag_to_state tag) t2 =
                some sl := hsl'
            rw [hRlook t2 (Ne.symm hne12)] at hsl''
            exact hq2 hd sl hsl''
          · intro x hx
            have hxl : alookup (aremove s.fp8_tensor_object_map tag) x =
                some c := hx
            by_cases hxt : x = tag
            · subst hxt
              rw [hFtag] at hxl
              exact Option.noConfusion hxl
            · rw [hFlook x hxt] at hxl
              exact honly x hxl
          · exact hRnd
          · exact hFnd
      · by_cases htag2 : tag = t2
        · subst htag2
          have hd2 : d2 = false := by
            rcases Bool.eq_false_or_eq_true d2 with hd | hd
            · exact Slot.noConfusion (hq2 hd _ hsl)
            · exact hd
          obtain ⟨⟨es0, hes0⟩, hf2, hdl2m⟩ := hp2 hd2
          rcases dedup_restore_step_inv _ _ _ _ hded with
            ⟨hmem, hs1⟩ | ⟨hnmem, cid0, comp0, hcid0, hcomp0, hs1⟩
          · subst hs1
            subst hs3
            have hfp8look' : alookup s.fp8_tensor_object_map tag =
                some cid := hfp8look
            have hcidc : cid = c :=
              Option.some.inj (hfp8look'.symm.trans hf2)
            refine ⟨d1, true, ?_, fun he => absurd he htag1,
              fun _ => ⟨by rw [hcidc], rfl⟩, fun _ => rfl,
              fun hne => absurd rfl hne⟩
            refine ⟨?_, ?_, ?_, ?_, ?_, ?_, ?_, ?_, hne12⟩
            · exact count_at_transport (hcnt3 c) hheapc
            · intro hd
              obtain ⟨hs1p, hf1p, hd1n⟩ := hp1 hd
              refine ⟨?_, ?_, ?_⟩
              · have hx : ∃ es2, alookup (aremove s.tensor_tag_to_state
                    tag) t1 = some (Slot.lst es2) := by
                  rw [hRlook t1 (fun he => htag1 he.symm)]
                  exact hs1p
                exact hx
              · have hx : alookup (aremove s.fp8_tensor_object_map tag) t1 =
                    some c := by
                  rw [hFlook t1 (fun he => htag1 he.symm)]
                  exact hf1p
                exact hx
              · intro hm
                have hm' : t1 ∈ s.dereferencing_list.erase tag := hm
                exact hd1n (List.mem_of_mem_erase hm')
            · intro hd sl hsl'
              have hsl'' : alookup (aremove s.tensor_tag_to_state tag) t1 =
                  some sl := hsl'
              rw [hRlook t1 (fun he => htag1 he.symm)] at hsl''
              exact hq1 hd sl hsl''
            · intro he
              exact absurd he (by simp)
            · intro _ sl hsl'
              have hsl'' : alookup (aremove s.tensor_tag_to_state tag) tag =
                  some sl := hsl'
              rw [hRtag] at hsl''
              exact Option.noConfusion hsl''
            · intro x hx
              have hxl : alookup (aremove s.fp8_tensor_object_map tag) x =
                  some c := hx
              by_cases hxt : x = tag
              · subst hxt
                rw [hFtag] at hxl
                exact Option.noConfusion hxl
              · rw [hFlook x hxt] at hxl
                exact honly x hxl
            · exact hRnd
            · exact hFnd
          · exact absurd hdl2m hnmem
        · rcases dedup_restore_step_inv _ _ _ _ hded with
            ⟨hmem, hs1⟩ | ⟨hnmem, cid0, comp0, hcid0, hcomp0, hs1⟩
          · subst hs1
            subst hs3
            refine ⟨d1, d2, ?_, fun he => absurd he htag1,
              fun he => absurd he htag2, fun _ => rfl, fun _ => rfl⟩
            refine binv_frame c t1 t2 rc0 d1 d2 s _ hinv
              (hcnt3 c) (hRlook t1 (fun he => htag1 he.symm))
              (hRlook t2 (fun he => htag2 he.symm))
              (hFlook t1 (fun he => htag1 he.symm))
              (hFlook t2 (fun he => htag2 he.symm)) ?_ ?_ ?_ hRnd hFnd
            · intro x hx
              have hxl : alookup (aremove s.fp8_tensor_object_map tag) x =
                  some c := hx
              by_cases hxt : x = tag
              · subst hxt
                rw [hFtag] at hxl
                exact Option.noConfusion hxl
              · rw [hFlook x hxt] at hxl
                exact honly x hxl
            · intro hn hm
              exact hn (List.mem_of_mem_erase hm)
            · intro hm
              exact (List.mem_erase_of_ne (fun he => htag2 he.symm)).mpr hm
          · subst hs1
            subst hs3
            have hcid0' : alookup s.fp8_tensor_object_map tag =
                some cid0 := hcid0
            have hc0ne : cid0 ≠ c := by
              intro he
              rcases honly tag (he ▸ hcid0') with h' | h'
              · exact htag1 h'
              · exact htag2 h'
            have hh : (alookup heap3 c).map Composite.restoreCount =
                (alookup s.compHeap c).map Composite.restoreCount := by
              calc (alookup heap3 c).map Composite.restoreCount
                  = (alookup (ainsert s.compHeap cid0
                      (restore_from_saved comp0 es)) c).map
                      Composite.restoreCount := hcnt3 c
                _ = (alookup s.compHeap c).map Composite.restoreCount := by
                    rw [alookup_ainsert_ne _ _ _ _ (Ne.symm hc0ne)]
            refine ⟨d1, d2, ?_, fun he => absurd he htag1,
              fun he => absurd he htag2, fun _ => rfl, fun _ => rfl⟩
            refine binv_frame c t1 t2 rc0 d1 d2 s _ hinv
              hh (hRlook t1 (fun he => htag1 he.symm))
              (hRlook t2 (fun he => htag2 he.symm))
              (hFlook t1 (fun he => htag1 he.symm))
              (hFlook t2 (fun he => htag2 he.symm)) ?_ ?_ ?_ hRnd hFnd
            · intro x hx
              have hxl : alookup (aremove s.fp8_tensor_object_map tag) x =
                  some c := hx
              by_cases hxt : x = tag
              · subst hxt
                rw [hFtag] at hxl
                exact Option.noConfusion hxl
              · rw [hFlook x hxt] at hxl
                exact honly x hxl
            · exact fun hn => hn
            · exact fun hm => hm
    · simp only [Option.pure_def, Option.bind_eq_bind, Option.some_bind,
        Option.bind_eq_some] at h
      obtain ⟨s3, hset, h⟩ := h
      obtain ⟨heap3, hs3, hcnt3⟩ := set_do_not_clear_step_count _ _ _ hset
      have h1 := Option.some.inj h
      have hs' : s' = _ := (pair_eq_fst h1).symm
      have hv : v = PopVal.comp cidc := (pair_eq_snd h1).symm
      subst hs'
      subst hv
      subst hs3
      by_cases htag1 : tag = t1
      · subst htag1
        have hd1 : d1 = true := by
          rcases Bool.eq_false_or_eq_true d1 with hd | hd
          · exact hd
          · obtain ⟨⟨es0, hes0⟩, _, _⟩ := hp1 hd
            rw [hsl] at hes0
            exact Slot.noConfusion (Option.some.inj hes0)
        have hcidc : cidc = c := Slot.comp.inj (hq1 hd1 _ hsl)
        subst hd1
        refine ⟨true, d2, ?_, fun _ => ⟨by rw [hcidc], rfl⟩,
          fun he => absurd he hne12, fun hne => absurd rfl hne,
          fun _ => rfl⟩
        refine ⟨?_, ?_, ?_, ?_, ?_, ?_, ?_, ?_, hne12⟩
        · exact count_at_transport (hcnt3 c) hheapc
        · intro he
          exact absurd he (by simp)
        · intro _ sl hsl'
          have hsl'' : alookup (aremove s.tensor_tag_to_state tag) tag =
              some sl := hsl'
          rw [hRtag] at hsl''
          exact Option.noConfusion hsl''
        · intro hd
          obtain ⟨hs2p, hf2p, hd2p⟩ := hp2 hd
          refine ⟨?_, ?_, hd2p⟩
          · have hx : ∃ es2, alookup (aremove s.tensor_tag_to_state tag)
                t2 = some (Slot.lst es2) := by
              rw [hRlook t2 (Ne.symm hne12)]
              exact hs2p
            exact hx
          · exact hf2p
        · intro hd sl hsl'
          have hsl'' : alookup (aremove s.tensor_tag_to_state tag) t2 =
              some sl := hsl'
          rw [hRlook t2 (Ne.symm hne12)] at hsl''
          exact hq2 hd sl hsl''
        · exact fun x hx => honly x hx
        · exact hRnd
        · exact hndf
      · by_cases htag2 : tag = t2
        · subst htag2
          have hd2 : d2 = true := by
            rcases Bool.eq_false_or_eq_true d2 with hd | hd
            · exact hd
            · obtain ⟨⟨es0, hes0⟩, _, _⟩ := hp2 hd
              rw [hsl] at hes0
              exact Slot.noConfusion (Option.some.inj hes0)
          have hcidc : cidc = c := Slot.comp.inj (hq2 hd2 _ hsl)
          subst hd2
          refine ⟨d1, true, ?_, fun he => absurd he htag1,
            fun _ => ⟨by rw [hcidc], rfl⟩, fun _ => rfl,
            fun hne => absurd rfl hne⟩
          refine ⟨?_, ?_, ?_, ?_, ?_, ?_, ?_, ?_, hne12⟩
          · exact count_at_transport (hcnt3 c) hheapc
          · intro hd
            obtain ⟨hs1p, hf1p, hd1n⟩ := hp1 hd
            refine ⟨?_, hf1p, hd1n⟩
            have hx : ∃ es2, alookup (aremove s.tensor_tag_to_state tag)
                t1 = some (Slot.lst es2) := by
              rw [hRlook t1 (fun he => htag1 he.symm)]
              exact hs1p
            exact hx
          · intro hd sl hsl'
            have hsl'' : alookup (aremove s.tensor_tag_to_state tag) t1 =
                some sl := hsl'
            rw [hRlook t1 (fun he => htag1 he.symm)] at hsl''
            exact hq1 hd sl hsl''
          · intro he
            exact absurd he (by simp)
          · intro _ sl hsl'
            have hsl'' : alookup (aremove s.tensor_tag_to_state tag) tag =
                some sl := hsl'
            rw [hRtag] at hsl''
            exact Option.noConfusion hsl''
          · exact fun x hx => honly x hx
          · exact hRnd
          · exact hndf
        · refine ⟨d1, d2, ?_, fun he => absurd he htag1,
            fun he => absurd he htag2, fun _ => rfl, fun _ => rfl⟩
          exact binv_frame c t1 t2 rc0 d1 d2 s _ hinv
            (hcnt3 c) (hRlook t1 (fun he => htag1 he.symm))
            (hRlook t2 (fun he => htag2 he.symm)) rfl rfl
            (fun x hx => honly x hx) (fun hn => hn) (fun hm => hm)
            hRnd hndf

set_option maxHeartbeats 1600000 in
/-- One bulk-reload iteration preserves the dedup invariant: reloading
t1's group entry performs the restore (flipping d1), reloading t2's is
skipped by the dedup set (flipping d2); other entries leave the flags
alone.  Slot keys and lookups at other keys survive. -/
theorem binv_reload_entry (c : Nat) (t1 t2 : Tag) (rc0 : Nat)
    (d1 d2 : Bool) (s : AState) (dbIdx bufIdx : Nat) (g : Int)
    (ptag : Tag) (sl : Slot) (s' : AState) (b' : Nat)
    (hinv : BInv c t1 t2 rc0 d1 d2 s)
    (hpair : alookup s.tensor_tag_to_state ptag = some sl)
    (h : bulk_reload_entry s dbIdx bufIdx g (ptag, sl) = some (s', b')) :
    ∃ d1' d2', BInv c t1 t2 rc0 d1' d2' s' ∧
      (ptag ≠ t1 → d1' = d1) ∧ (ptag ≠ t2 → d2' = d2) ∧
      (d1 = true → d1' = true) ∧ (d2 = true → d2' = true) ∧
      (∀ x : Tag, x ≠ ptag → alookup s'.tensor_tag_to_state x =
        alookup s.tensor_tag_to_state x) ∧
      stateKeys s' = stateKeys s := by
  have hheapc := hinv.1
  have hp1 := hinv.2.1
  have hq1 := hinv.2.2.1
  have hp2 := hinv.2.2.2.1
  have hq2 := hinv.2.2.2.2.1
  have honly := hinv.2.2.2.2.2.1
  have hnds := hinv.2.2.2.2.2.2.1
  have hndf := hinv.2.2.2.2.2.2.2.1
  have hne12 := hinv.2.2.2.2.2.2.2.2
  have hptagmem : ptag ∈ stateKeys s :=
    List.mem_map_of_mem Prod.fst (mem_of_alookup hpair)
  have hkeysins : ∀ sl2 : Slot,
      (ainsert s.tensor_tag_to_state ptag sl2).map Prod.fst =
      stateKeys s := fun sl2 => ainsert_keys_of_mem sl2 hptagmem
  have hFlook : ∀ x : Tag, x ≠ ptag →
      alookup (aremove s.fp8_tensor_object_map ptag) x =
      alookup s.fp8_tensor_object_map x :=
    fun x hx => alookup_aremove_ne _ _ _ hx
  have hFtag : alookup (aremove s.fp8_tensor_object_map ptag) ptag = none :=
    alookup_aremove_self_of_nodup hndf
  have hFnd : ((aremove s.fp8_tensor_object_map ptag).map Prod.fst).Nodup :=
    List.Nodup.sublist (aremove_keys_sublist _ _) hndf
  unfold bulk_reload_entry at h
  by_cases hg : (ptag, sl).1.1 = g
  · rw [if_pos hg] at h
    simp only [Option.bind_eq_bind, Option.pure_def] at h
    rw [Option.bind_eq_some] at h
    obtain ⟨rb0, hrb0, h⟩ := h
    rcases hp : sl with t | ⟨d, host⟩ | es | cid
    all_goals rw [hp] at hpair
    all_goals (try rw [show ((ptag, sl) : Tag × Slot).2 = sl from rfl] at h)
    all_goals rw [hp] at h
    · -- Slot.tens: untouched
      have h1 := Option.some.inj h
      have hs' : s' = _ := (pair_eq_fst h1).symm
      subst hs'
      exact ⟨d1, d2, hinv, fun _ => rfl, fun _ => rfl, fun x => x,
        fun x => x, fun x hx => rfl, rfl⟩
    · -- Slot.offd: reloaded into a tens slot; not t1 or t2
      rw [Option.bind_eq_some] at h
      obtain ⟨rb, hrb, h⟩ := h
      rw [Option.bind_eq_some] at h
      obtain ⟨⟨tt, nid⟩, hrl, h⟩ := h
      have h1 := Option.some.inj h
      have hs' : s' = _ := (pair_eq_fst h1).symm
      subst hs'
      have hnet1 : ptag ≠ t1 := by
        intro he
        subst he
        rcases Bool.eq_false_or_eq_true d1 with hd | hd
        · exact Slot.noConfusion (hq1 hd _ hpair)
        · obtain ⟨⟨es0, hes0⟩, _, _⟩ := hp1 hd
          rw [hpair] at hes0
          exact Slot.noConfusion (Option.some.inj hes0)
      have hnet2 : ptag ≠ t2 := by
        intro he
        subst he
        rcases Bool.eq_false_or_eq_true d2 with hd | hd
        · exact Slot.noConfusion (hq2 hd _ hpair)
        · obtain ⟨⟨es0, hes0⟩, _, _⟩ := hp2 hd
          rw [hpair] at hes0
          exact Slot.noConfusion (Option.some.inj hes0)
      refine ⟨d1, d2, ?_, fun _ => rfl, fun _ => rfl, fun x => x,
        fun x => x, fun x hx => alookup_ainsert_ne _ _ _ _ hx, hkeysins _⟩
      refine binv_frame c t1 t2 rc0 d1 d2 s _ hinv rfl
        (alookup_ainsert_ne _ _ _ _ (Ne.symm hnet1))
        (alookup_ainsert_ne _ _ _ _ (Ne.symm hnet2)) rfl rfl
        (fun x hx => honly x hx) (fun hx => hx) (fun hx => hx) ?_ hndf
      show ((ainsert s.tensor_tag_to_state ptag (Slot.tens tt)).map
        Prod.fst).Nodup
      rw [hkeysins _]
      exact hnds
    · -- Slot.lst: the dedup path
      rw [Option.bind_eq_some] at h
      obtain ⟨⟨s1, b1, tl⟩, hel, h⟩ := h
      obtain ⟨n1, rfl⟩ := reload_list_elems_shape _ _ _ _ _ _ _ hel
      rw [Option.bind_eq_some] at h
      obtain ⟨s2, hded, h⟩ := h
      rw [Option.bind_eq_some] at h
      obtain ⟨s3, hf8, h⟩ := h
      obtain ⟨heapX, cacheX, hs3, hcntX⟩ := reload_float8_step_count _ _ _ hf8
      rw [Option.bind_eq_some] at h
      obtain ⟨cid2, hcid2, h⟩ := h
      have h1 := Option.some.inj h
      have hs' : s' = _ := (pair_eq_fst h1).symm
      subst hs'
      by_cases htag1 : ptag = t1
      · subst htag1
        have hd1 : d1 = false := by
          rcases Bool.eq_false_or_eq_true d1 with hd | hd
          · exact Slot.noConfusion (hq1 hd _ hpair)
          · exact hd
        obtain ⟨⟨es0, hes0⟩, hf1, hdl1n⟩ := hp1 hd1
        rcases dedup_restore_step_inv _ _ _ _ hded with
          ⟨hmem, hs2⟩ | ⟨hnmem, cid0, comp0, hcid0, hcomp0, hs2⟩
        · exact absurd hmem hdl1n
        · have hcid0' : alookup s.fp8_tensor_object_map ptag = some cid0 :=
            hcid0
          have hcc : cid0 = c := Option.some.inj (hcid0'.symm.trans hf1)
          subst hs2
          subst hs3
          have hcid2' : alookup s.fp8_tensor_object_map ptag = some cid2 :=
            hcid2
          have hcidc : cid2 = c := Option.some.inj (hcid2'.symm.trans hf1)
          have hcomp0' : alookup s.compHeap cid0 = some comp0 := hcomp0
          have hcomp0c : comp0.restoreCount = rc0 := by
            obtain ⟨compA, hlA, hcA⟩ := hheapc
            rw [hcc, hlA] at hcomp0'
            rw [← Option.some.inj hcomp0', hcA, hd1]
            simp
          have hatc : ∃ comp', alookup heapX c = some comp' ∧
              comp'.restoreCount = rc0 + 1 := by
            refine count_at_transport (hcntX c) ?_
            show ∃ comp', alookup (ainsert s.compHeap cid0
              (restore_from_saved comp0 tl)) c = some comp' ∧
              comp'.restoreCount = rc0 + 1
            rw [← hcc, alookup_ainsert_self]
            exact ⟨_, rfl, by simp [restore_from_saved, hcomp0c]⟩
          refine ⟨true, d2, ?_, fun hne => absurd rfl hne,
            fun _ => rfl, fun _ => rfl, fun x => x,
            fun x hx => alookup_ainsert_ne _ _ _ _ hx, hkeysins _⟩
          refine ⟨?_, ?_, ?_, ?_, ?_, ?_, ?_, hFnd, hne12⟩
          · obtain ⟨comp', hl', hc'⟩ := hatc
            exact ⟨comp', hl', by rw [hc']; simp⟩
          · intro he
            exact absurd he (by simp)
          · intro _ sl2 hsl2
            have hsl3 : alookup (ainsert s.tensor_tag_to_state ptag
                (Slot.comp cid2)) ptag = some sl2 := hsl2
            rw [alookup_ainsert_self] at hsl3
            rw [← Option.some.inj hsl3, hcidc]
          · intro hd
            obtain ⟨hs2p, hf2p, hd2p⟩ := hp2 hd
            refine ⟨?_, ?_, hd2p⟩
            · have hx : ∃ es2, alookup (ainsert s.tensor_tag_to_state
                  ptag (Slot.comp cid2)) t2 = some (Slot.lst es2) := by
                rw [alookup_ainsert_ne _ _ _ _ (Ne.symm hne12)]
                exact hs2p
              exact hx
            · have hx : alookup (aremove s.fp8_tensor_object_map ptag) t2 =
                  some c := by
                rw [hFlook t2 (Ne.symm hne12)]
                exact hf2p
              exact hx
          · intro hd sl2 hsl2
            have hsl3 : alookup (ainsert s.tensor_tag_to_state ptag
                (Slot.comp cid2)) t2 = some sl2 := hsl2
            rw [alookup_ainsert_ne _ _ _ _ (Ne.symm hne12)] at hsl3
            exact hq2 hd sl2 hsl3
          · intro x hx
            have hxl : alookup (aremove s.fp8_tensor_object_map ptag) x =
                some c := hx
            by_cases hxt : x = ptag
            · subst hxt
              rw [hFtag] at hxl
              exact Option.noConfusion hxl
            · rw [hFlook x hxt] at hxl
              exact honly x hxl
          · have hx : ((ainsert s.tensor_tag_to_state ptag
                (Slot.comp cid2)).map Prod.fst).Nodup := by
              rw [hkeysins _]
              exact hnds
            exact hx
      · by_cases htag2 : ptag = t2
        · subst htag2
          have hd2 : d2 = false := by
            rcases Bool.eq_false_or_eq_true d2 with hd | hd
            · exact Slot.noConfusion (hq2 hd _ hpair)
            · exact hd
          obtain ⟨⟨es0, hes0⟩, hf2, hdl2m⟩ := hp2 hd2
          rcases dedup_restore_step_inv _ _ _ _ hded with
            ⟨hmem, hs2⟩ | ⟨hnmem, cid0, comp0, hcid0, hcomp0, hs2⟩
          · subst hs2
            subst hs3
            have hcid2' : alookup s.fp8_tensor_object_map ptag =
                some cid2 := hcid2
            have hcidc : cid2 = c :=
              Option.some.inj (hcid2'.symm.trans hf2)
            refine ⟨d1, true, ?_, fun _ => rfl,
              fun hne => absurd rfl hne, fun x => x, fun _ => rfl,
              fun x hx => alookup_ainsert_ne _ _ _ _ hx, hkeysins _⟩
            refine ⟨?_, ?_, ?_, ?_, ?_, ?_, ?_, hFnd, hne12⟩
            · exact count_at_transport (hcntX c) hheapc
            · intro hd
              obtain ⟨hs1p, hf1p, hd1n⟩ := hp1 hd
              refine ⟨?_, ?_, ?_⟩
              · have hx : ∃ es2, alookup (ainsert s.tensor_tag_to_state
                    ptag (Slot.comp cid2)) t1 = some (Slot.lst es2) := by
                  rw [alookup_ainsert_ne _ _ _ _
                    (fun he => htag1 he.symm)]
                  exact hs1p
                exact hx
              · have hx : alookup (aremove s.fp8_tensor_object_map ptag)
                    t1 = some c := by
                  rw [hFlook t1 (fun he => htag1 he.symm)]
                  exact hf1p
                exact hx
              · intro hm
                have hm' : t1 ∈ s.dereferencing_list.erase ptag := hm
                exact hd1n (List.mem_of_mem_erase hm')
            · intro hd sl2 hsl2
              have hsl3 : alookup (ainsert s.tensor_tag_to_state ptag
                  (Slot.comp cid2)) t1 = some sl2 := hsl2
              rw [alookup_ainsert_ne _ _ _ _
                (fun he => htag1 he.symm)] at hsl3
              exact hq1 hd sl2 hsl3
            · intro he
              exact absurd he (by simp)
            · intro _ sl2 hsl2
              have hsl3 : alookup (ainsert s.tensor_tag_to_state ptag
                  (Slot.comp cid2)) ptag = some sl2 := hsl2
              rw [alookup_ainsert_self] at hsl3
              rw [← Option.some.inj hsl3, hcidc]
            · intro x hx
              have hxl : alookup (aremove s.fp8_tensor_object_map ptag) x =
                  some c := hx
              by_cases hxt : x = ptag
              · subst hxt
                rw [hFtag] at hxl
                exact Option.noConfusion hxl
              · rw [hFlook x hxt] at hxl
                exact honly x hxl
            · have hx : ((ainsert s.tensor_tag_to_state ptag
                  (Slot.comp cid2)).map Prod.fst).Nodup := by
                rw [hkeysins _]
                exact hnds
              exact hx
          · exact absurd hdl2m hnmem
        · rcases dedup_restore_step_inv _ _ _ _ hded with
            ⟨hmem, hs2⟩ | ⟨hnmem, cid0, comp0, hcid0, hcomp0, hs2⟩
          · subst hs2
            subst hs3
            refine ⟨d1, d2, ?_, fun _ => rfl, fun _ => rfl, fun x => x,
              fun x => x, fun x hx => alookup_ainsert_ne _ _ _ _ hx,
              hkeysins _⟩
            refine binv_frame c t1 t2 rc0 d1 d2 s _ hinv
              (hcntX c)
              (alookup_ainsert_ne _ _ _ _ (fun he => htag1 he.symm))
              (alookup_ainsert_ne _ _ _ _ (fun he => htag2 he.symm))
              (hFlook t1 (fun he => htag1 he.symm))
              (hFlook t2 (fun he => htag2 he.symm)) ?_ ?_ ?_ ?_ hFnd
            · intro x hx
              have hxl : alookup (aremove s.fp8_tensor_object_map ptag) x =
                  some c := hx
              by_cases hxt : x = ptag
              · subst hxt
                rw [hFtag] at hxl
                exact Option.noConfusion hxl
              · rw [hFlook x hxt] at hxl
                exact honly x hxl
            · intro hn hm
              have hm' : t1 ∈ s.dereferencing_list.erase ptag := hm
              exact hn (List.mem_of_mem_erase hm')
            · intro hm
              exact (List.mem_erase_of_ne (fun he => htag2 he.symm)).mpr hm
            · have hx : ((ainsert s.tensor_tag_to_state ptag
                  (Slot.comp cid2)).map Prod.fst).Nodup := by
                rw [hkeysins _]
                exact hnds
              exact hx
          · subst hs2
            subst hs3
            have hcid0' : alookup s.fp8_tensor_object_map ptag =
                some cid0 := hcid0
            have hc0ne : cid0 ≠ c := by
              intro he
              rcases honly ptag (he ▸ hcid0') with h' | h'
              · exact htag1 h'
              · exact htag2 h'
            have hh : (alookup heapX c).map Composite.restoreCount =
                (alookup s.compHeap c).map Composite.restoreCount := by
              calc (alookup heapX c).map Composite.restoreCount
                  = (alookup (ainsert s.compHeap cid0
                      (restore_from_saved comp0 tl)) c).map
                      Composite.restoreCount := hcntX c
                _ = (alookup s.compHeap c).map Composite.restoreCount := by
                    rw [alookup_ainsert_ne _ _ _ _ (Ne.symm hc0ne)]
            refine ⟨d1, d2, ?_, fun _ => rfl, fun _ => rfl, fun x => x,
              fun x => x, fun x hx => alookup_ainsert_ne _ _ _ _ hx,
              hkeysins _⟩
            refine binv_frame c t1 t2 rc0 d1 d2 s _ hinv
              hh
              (alookup_ainsert_ne _ _ _ _ (fun he => htag1 he.symm))
              (alookup_ainsert_ne _ _ _ _ (fun he => htag2 he.symm))
              (hFlook t1 (fun he => htag1 he.symm))
              (hFlook t2 (fun he => htag2 he.symm)) ?_ ?_ ?_ ?_ hFnd
            · intro x hx
              have hxl : alookup (aremove s.fp8_tensor_object_map ptag) x =
                  some c := hx
              by_cases hxt : x = ptag
              · subst hxt
                rw [hFtag] at hxl
                exact Option.noConfusion hxl
              · rw [hFlook x hxt] at hxl
                exact honly x hxl
            · exact fun hn => hn
            · exact fun hm => hm
            · have hx : ((ainsert s.tensor_tag_to_state ptag
                  (Slot.comp cid2)).map Prod.fst).Nodup := by
                rw [hkeysins _]
                exact hnds
              exact hx
    · -- Slot.comp: untouched
      have h1 := Option.some.inj h
      have hs' : s' = _ := (pair_eq_fst h1).symm
      subst hs'
      exact ⟨d1, d2, hinv, fun _ => rfl, fun _ => rfl, fun x => x,
        fun x => x, fun x hx => rfl, rfl⟩
  · rw [if_neg hg] at h
    have h1 := Option.some.inj h
    have hs' : s' = _ := (pair_eq_fst h1).symm
    subst hs'
    exact ⟨d1, d2, hinv, fun _ => rfl, fun _ => rfl, fun x => x,
      fun x => x, fun x hx => rfl, rfl⟩

/-- The bulk-reload loop preserves the dedup invariant, monotonically in
the done flags. -/
theorem binv_reload_fold (c : Nat) (t1 t2 : Tag) (rc0 : Nat)
    (dbIdx : Nat) (g : Int) :
    ∀ (li : List (Tag × Slot)) (s : AState) (bufIdx : Nat) (s' : AState)
      (d1 d2 : Bool),
      BInv c t1 t2 rc0 d1 d2 s →
      (∀ p ∈ li, alookup s.tensor_tag_to_state p.1 = some p.2) →
      ((li.map Prod.fst).Nodup) →
      bulk_reload_fold dbIdx g s bufIdx li = some s' →
      ∃ d1' d2', BInv c t1 t2 rc0 d1' d2' s' ∧
        (d1 = true → d1' = true) ∧ (d2 = true → d2' = true) := by
  intro li
  induction li with
  | nil =>
      intro s bufIdx s' d1 d2 hinv hpair hnd h
      simp only [bulk_reload_fold, Option.some_inj] at h
      rw [← h]
      exact ⟨d1, d2, hinv, fun x => x, fun x => x⟩
  | cons p ps ih =>
      intro s bufIdx s' d1 d2 hinv hpair hnd h
      rw [bulk_reload_fold] at h
      simp only [Option.bind_eq_bind, Option.bind_eq_some] at h
      obtain ⟨⟨s1, b1⟩, hstep, hrest⟩ := h
      rw [List.map_cons, List.nodup_cons] at hnd
      rcases p with ⟨ptag, sl⟩
      obtain ⟨d1a, d2a, hinvA, _, _, hmonA1, hmonA2, hlookA, hkeysA⟩ :=
        binv_reload_entry c t1 t2 rc0 d1 d2 s dbIdx bufIdx g ptag sl s1 b1
          hinv (hpair (ptag, sl) (List.mem_cons_self _ _)) hstep
      have hpair1 : ∀ q ∈ ps, alookup s1.tensor_tag_to_state q.1 =
          some q.2 := by
        intro q hq
        have hne : q.1 ≠ ptag := by
          intro he
          apply hnd.1
          show ptag ∈ List.map Prod.fst ps
          rw [← he]
          exact List.mem_map_of_mem Prod.fst hq
        rw [hlookA q.1 hne]
        exact hpair q (List.mem_cons_of_mem _ hq)
      obtain ⟨d1b, d2b, hinvB, hmonB1, hmonB2⟩ :=
        ih s1 b1 s' d1a d2a hinvA hpair1 hnd.2 hrest
      exact ⟨d1b, d2b, hinvB, fun hx => hmonB1 (hmonA1 hx),
        fun hx => hmonB2 (hmonA2 hx)⟩

/-- bulk_reload_group preserves the dedup invariant monotonically. -/
theorem binv_reload_group (c : Nat) (t1 t2 : Tag) (rc0 : Nat)
    (s : AState) (g : Nat) (s' : AState) (d1 d2 : Bool)
    (hinv : BInv c t1 t2 rc0 d1 d2 s)
    (h : bulk_reload_group s g = some s') :
    ∃ d1' d2', BInv c t1 t2 rc0 d1' d2' s' ∧
      (d1 = true → d1' = true) ∧ (d2 = true → d2' = true) := by
  unfold bulk_reload_group at h
  by_cases hg : g < s.num_offload_group
  · rw [if_pos hg] at h
    have hnds := hinv.2.2.2.2.2.2.1
    refine binv_reload_fold c t1 t2 rc0 (g % 2) (g : Int)
      s.tensor_tag_to_state s 0 s' d1 d2 hinv (fun p hp => ?_) hnds h
    have hp' : (p.1, p.2) ∈ s.tensor_tag_to_state := by
      rw [Prod.mk.eta]
      exact hp
    exact alookup_of_mem_nodup hnds hp'
  · rw [if_neg hg] at h
    simp at h

/-- The backward commit barrier preserves the dedup invariant
monotonically. -/
theorem binv_commit_bwd (c : Nat) (t1 t2 : Tag) (rc0 : Nat)
    (s s' : AState) (d1 d2 : Bool)
    (hinv : BInv c t1 t2 rc0 d1 d2 s)
    (h : on_group_commit_backward s = some s') :
    ∃ d1' d2', BInv c t1 t2 rc0 d1' d2' s' ∧
      (d1 = true → d1' = true) ∧ (d2 = true → d2' = true) := by
  unfold on_group_commit_backward at h
  by_cases hneg : s.current_group - 1 < 0
  · rw [if_pos hneg] at h
    simp at h
  · rw [if_neg hneg] at h
    simp only [Option.bind_eq_bind, Option.pure_def] at h
    rw [Option.bind_eq_some] at h
    obtain ⟨s1, h1, h2⟩ := h
    have hinvDec : BInv c t1 t2 rc0 d1 d2
        { s with current_group := s.current_group - 1 } := hinv
    have hstep : ∃ d1' d2', BInv c t1 t2 rc0 d1' d2' s1 ∧
        (d1 = true → d1' = true) ∧ (d2 = true → d2' = true) := by
      unfold bwd_window_step at h1
      simp only [Option.bind_eq_bind, Option.pure_def] at h1
      rw [Option.bind_eq_some] at h1
      obtain ⟨w, hw, h1⟩ := h1
      by_cases hww : w = ({ s with
          current_group := s.current_group - 1 } : AState).current_group
      · rw [if_pos hww] at h1
        rw [Option.bind_eq_some] at h1
        obtain ⟨sr, hrel, hcc⟩ := h1
        obtain ⟨d1a, d2a, hinvA, hm1, hm2⟩ :=
          binv_reload_group c t1 t2 rc0 _ _ sr d1 d2 hinvDec hrel
        refine ⟨d1a, d2a, ?_, hm1, hm2⟩
        have hs1 : s1 = { sr with
            offloaded_group_count :=
              if 1 < sr.offloaded_group_count then
                sr.offloaded_group_count - 1
              else sr.offloaded_group_count } := (Option.some.inj hcc).symm
        subst hs1
        exact hinvA
      · rw [if_neg hww] at h1
        have hs1 : s1 = _ := (Option.some.inj h1).symm
        subst hs1
        exact ⟨d1, d2, hinvDec, fun x => x, fun x => x⟩
    obtain ⟨d1a, d2a, hinvA, hm1, hm2⟩ := hstep
    by_cases hz : s1.current_group = 0
    · rw [if_pos hz] at h2
      have hs' : s' = { s1 with offloaded_group_count := 0 } :=
        (Option.some.inj h2).symm
      subst hs'
      exact ⟨d1a, d2a, hinvA, hm1, hm2⟩
    · rw [if_neg hz] at h2
      have hs' : s' = s1 := (Option.some.inj h2).symm
      subst hs'
      exact ⟨d1a, d2a, hinvA, hm1, hm2⟩

/-- Popping a layer preserves the dedup invariant; popping one of the
tracked tags settles it and returns the tracked composite. -/
theorem binv_pop_layer (c : Nat) (t1 t2 : Tag) (rc0 : Nat) :
    ∀ (ps : List (Tag × PushSpec)) (s s' : AState)
      (pv : List (Tag × PopVal)) (d1 d2 : Bool),
      BInv c t1 t2 rc0 d1 d2 s →
      pop_layer s ps = some (s', pv) →
      ∃ d1' d2', BInv c t1 t2 rc0 d1' d2' s' ∧
        (d1 = true → d1' = true) ∧ (d2 = true → d2' = true) ∧
        (t1 ∈ ps.map Prod.fst → d1' = true) ∧
        (t2 ∈ ps.map Prod.fst → d2' = true) ∧
        (∀ v, (t1, v) ∈ pv → v = PopVal.comp c) ∧
        (∀ v, (t2, v) ∈ pv → v = PopVal.comp c) := by
  intro ps
  induction ps with
  | nil =>
      intro s s' pv d1 d2 hinv h
      simp only [pop_layer, Option.some_inj] at h
      have hs' : s' = s := (pair_eq_fst h).symm
      have hp : pv = [] := (pair_eq_snd h).symm
      subst hs'
      subst hp
      exact ⟨d1, d2, hinv, fun x => x, fun x => x,
        fun hm => absurd hm (by simp), fun hm => absurd hm (by simp),
        fun v hv => absurd hv (by simp), fun v hv => absurd hv (by simp)⟩
  | cons p ps ih =>
      intro s s' pv d1 d2 hinv h
      rcases p with ⟨tg, sp⟩
      rw [pop_layer] at h
      simp only [Option.bind_eq_bind, Option.pure_def, Option.bind_eq_some] at h
      obtain ⟨⟨s1, v⟩, hp, ⟨s2, rest⟩, hrest, heq⟩ := h
      obtain ⟨d1a, d2a, hinvA, ht1, ht2, hk1, hk2⟩ :=
        binv_pop c t1 t2 rc0 d1 d2 s tg s1 v hinv hp
      obtain ⟨d1b, d2b, hinvB, hm1, hm2, hmem1, hmem2, hv1, hv2⟩ :=
        ih s1 s2 rest d1a d2a hinvA hrest
      have hs' : s' = s2 := (pair_eq_fst (Option.some.inj heq)).symm
      have hpv : pv = (tg, v) :: rest := (pair_eq_snd (Option.some.inj heq)).symm
      subst hs'
      subst hpv
      have hmonA1 : d1 = true → d1a = true := by
        intro hx
        by_cases hgt : tg = t1
        · exact (ht1 hgt).2
        · rw [hk1 hgt]
          exact hx
      have hmonA2 : d2 = true → d2a = true := by
        intro hx
        by_cases hgt : tg = t2
        · exact (ht2 hgt).2
        · rw [hk2 hgt]
          exact hx
      refine ⟨d1b, d2b, hinvB, fun hx => hm1 (hmonA1 hx),
        fun hx => hm2 (hmonA2 hx), ?_, ?_, ?_, ?_⟩
      · intro hm
        rcases List.mem_cons.mp hm with hm | hm
        · exact hm1 ((ht1 hm.symm).2)
        · exact hmem1 hm
      · intro hm
        rcases List.mem_cons.mp hm with hm | hm
        · exact hm2 ((ht2 hm.symm).2)
        · exact hmem2 hm
      · intro v' hv'
        rcases List.mem_cons.mp hv' with hv' | hv'
        · have h1 := pair_eq_fst hv'
          have h2 := pair_eq_snd hv'
          rw [h2]
          exact (ht1 h1.symm).1
        · exact hv1 v' hv'
      · intro v' hv'
        rcases List.mem_cons.mp hv' with hv' | hv'
        · have h1 := pair_eq_fst hv'
          have h2 := pair_eq_snd hv'
          rw [h2]
          exact (ht2 h1.symm).1
        · exact hv2 v' hv'

/-- The backward phase preserves the dedup invariant; once a tracked tag
is popped its flag is settled, and every pop of a tracked tag returns
the tracked composite. -/
theorem binv_run_backward (c : Nat) (t1 t2 : Tag) (rc0 : Nat) :
    ∀ (ls : List (List (Tag × PushSpec))) (s s2 : AState)
      (pops : List (List (Tag × PopVal))) (d1 d2 : Bool),
      BInv c t1 t2 rc0 d1 d2 s →
      run_backward_rev s ls = some (s2, pops) →
      ∃ d1' d2', BInv c t1 t2 rc0 d1' d2' s2 ∧
        (d1 = true → d1' = true) ∧ (d2 = true → d2' = true) ∧
        (t1 ∈ (ls.map (List.map Prod.fst)).flatten → d1' = true) ∧
        (t2 ∈ (ls.map (List.map Prod.fst)).flatten → d2' = true) ∧
        (∀ v, (t1, v) ∈ pops.flatten → v = PopVal.comp c) ∧
        (∀ v, (t2, v) ∈ pops.flatten → v = PopVal.comp c) := by
  intro ls
  induction ls with
  | nil =>
      intro s s2 pops d1 d2 hinv h
      simp only [run_backward_rev, Option.some_inj] at h
      have hs2 : s2 = s := (pair_eq_fst h).symm
      have hp : pops = [] := (pair_eq_snd h).symm
      subst hs2
      subst hp
      exact ⟨d1, d2, hinv, fun x => x, fun x => x,
        fun hm => absurd hm (by simp), fun hm => absurd hm (by simp),
        fun v hv => absurd hv (by simp), fun v hv => absurd hv (by simp)⟩
  | cons l ls ih =>
      intro s s2 pops d1 d2 hinv h
      rw [run_backward_rev] at h
      simp only [Option.bind_eq_bind, Option.pure_def, Option.bind_eq_some] at h
      obtain ⟨s1, hcommit, ⟨sp, prs⟩, hpop, ⟨s3, rest⟩, hrest, heq⟩ := h
      obtain ⟨d1a, d2a, hinvA, hmA1, hmA2⟩ :=
        binv_commit_bwd c t1 t2 rc0 s s1 d1 d2 hinv hcommit
      obtain ⟨d1b, d2b, hinvB, hmB1, hmB2, hmemB1, hmemB2, hvB1, hvB2⟩ :=
        binv_pop_layer c t1 t2 rc0 l s1 sp prs d1a d2a hinvA hpop
      obtain ⟨d1c, d2c, hinvC, hmC1, hmC2, hmemC1, hmemC2, hvC1, hvC2⟩ :=
        ih sp s3 rest d1b d2b hinvB hrest
      have hs2 : s2 = s3 := (pair_eq_fst (Option.some.inj heq)).symm
      have hpp : pops = prs :: rest := (pair_eq_snd (Option.some.inj heq)).symm
      subst hs2
      subst hpp
      refine ⟨d1c, d2c, hinvC,
        fun hx => hmC1 (hmB1 (hmA1 hx)), fun hx => hmC2 (hmB2 (hmA2 hx)),
        ?_, ?_, ?_, ?_⟩
      · intro hm
        rw [List.map_cons, List.flatten_cons] at hm
        rcases List.mem_append.mp hm with hm | hm
        · exact hmC1 (hmemB1 hm)
        · exact hmemC1 hm
      · intro hm
        rw [List.map_cons, List.flatten_cons] at hm
        rcases List.mem_append.mp hm with hm | hm
        · exact hmC2 (hmemB2 hm)
        · exact hmemC2 hm
      · intro v hv
        rw [List.flatten_cons] at hv
        rcases List.mem_append.mp hv with hv | hv
        · exact hvB1 v hv
        · exact hvC1 v hv
      · intro v hv
        rw [List.flatten_cons] at hv
        rcases List.mem_append.mp hv with hv | hv
        · exact hvB2 v hv
        · exact hvC2 v hv

/-- Membership in a flattened map survives reversing the outer list. -/
theorem mem_flatten_map_reverse {α β : Type} (f : List α → List β)
    (ls : List (List α)) (x : β) (h : x ∈ (ls.map f).flatten) :
    x ∈ (ls.reverse.map f).flatten := by
  rw [List.mem_flatten] at h ⊢
  obtain ⟨l, hl, hx⟩ := h
  rw [List.mem_map] at hl
  obtain ⟨a, ha, rfl⟩ := hl
  exact ⟨f a, List.mem_map_of_mem f (List.mem_reverse.mpr ha), hx⟩

/-- C3: deduplication correctness.  In every complete session whose push
stream contains exactly two pushes of the composite c, the two pushes
receive two distinct tags, the composite's restore_from_saved runs
exactly once across the whole reverse pass (its restore count grows by
exactly one), and every pop of either tag returns the composite c
itself. -/
theorem dedup_restore_once (G L : Nat) (db : Bool)
    (heap0 : List (Nat × Composite)) (nid : Nat)
    (layers : List (List PushSpec)) (out : SessionOut) (c : Nat)
    (comp0 : Composite) (hheap0 : alookup heap0 c = some comp0)
    (hcount : countQuantC c layers.flatten = 2)
    (hrun : run_session G L db heap0 nid layers = some out) :
    ∃ t1 t2 : Tag, t1 ≠ t2 ∧
      t1 ∈ sessionTags out ∧ t2 ∈ sessionTags out ∧
      (∃ compF, alookup out.sFinal.compHeap c = some compF ∧
        compF.restoreCount = comp0.restoreCount + 1) ∧
      (∀ v, (t1, v) ∈ out.pops.flatten → v = PopVal.comp c) ∧
      (∀ v, (t2, v) ∈ out.pops.flatten → v = PopVal.comp c) := by
  unfold run_session at hrun
  simp only [Option.bind_eq_bind, Option.pure_def, Option.bind_eq_some]
    at hrun
  obtain ⟨⟨s1, ftags⟩, hfwd, ⟨s2, pops⟩, hbwd, heq⟩ := hrun
  have hpi0 : PushInv (async_init G L db heap0 nid) := by
    refine ⟨le_refl 0, ?_, ?_⟩ <;> simp [stateKeys, async_init]
  have haux0 : AuxF (async_init G L db heap0 nid) := by
    refine ⟨?_, ?_, ?_⟩ <;> simp [async_init, stateKeys]
  have hzero : C3state c comp0.restoreCount (async_init G L db heap0 nid)
      C3St.zero := by
    refine ⟨⟨comp0, ?_, rfl⟩, ?_⟩
    · show alookup heap0 c = some comp0
      exact hheap0
    · intro t
      show alookup ([] : List (Tag × Nat)) t ≠ some c
      simp [alookup]
  obtain ⟨st', hst', haux', hpi', hc'⟩ :=
    c3_run_forward c comp0.restoreCount layers _ s1 ftags C3St.zero hpi0
      haux0 hzero (by simp [stCount, hcount]) hfwd
  have hc2 : stCount st' = 2 := by
    rw [hc']
    simp [stCount, hcount]
  rcases st' with _ | t1' | ⟨t1, t2⟩
  · simp [stCount] at hc2
  · simp [stCount] at hc2
  · have hbinv : BInv c t1 t2 comp0.restoreCount false false s1 := hst'
    have hne12 := hbinv.2.2.2.2.2.2.2.2
    have hkeys := run_forward_tags activations_checker layers _ s1 ftags
      hpi0 hfwd
    have hkeys1 : stateKeys s1 =
        (ftags.map fun l => l.map Prod.fst).flatten := by
      rw [hkeys.1]
      have h0 : stateKeys (async_init G L db heap0 nid) = [] := rfl
      rw [h0, List.nil_append]
    have hmem1 : t1 ∈ stateKeys s1 := by
      obtain ⟨⟨es, hes⟩, _, _⟩ := hbinv.2.1 rfl
      exact List.mem_map_of_mem Prod.fst (mem_of_alookup hes)
    have hmem2 : t2 ∈ stateKeys s1 := by
      obtain ⟨⟨es, hes⟩, _, _⟩ := hbinv.2.2.2.1 rfl
      exact List.mem_map_of_mem Prod.fst (mem_of_alookup hes)
    have hmem1r : t1 ∈
        ((ftags.reverse).map (fun l => l.map Prod.fst)).flatten := by
      refine mem_flatten_map_reverse _ ftags t1 ?_
      rw [← hkeys1]
      exact hmem1
    have hmem2r : t2 ∈
        ((ftags.reverse).map (fun l => l.map Prod.fst)).flatten := by
      refine mem_flatten_map_reverse _ ftags t2 ?_
      rw [← hkeys1]
      exact hmem2
    obtain ⟨d1f, d2f, hinvF, _, _, hdone1, hdone2, hv1, hv2⟩ :=
      binv_run_backward c t1 t2 comp0.restoreCount ftags.reverse s1 s2
        pops false false hbinv hbwd
    have hd1f : d1f = true := hdone1 hmem1r
    obtain ⟨compF, hlF, hcF⟩ := hinvF.1
    rw [hd1f] at hcF
    simp only [if_pos rfl] at hcF
    rw [← Option.some.inj heq]
    refine ⟨t1, t2, hne12, ?_, ?_, ⟨compF, hlF, hcF⟩, hv1, hv2⟩
    · show t1 ∈ (ftags.map fun l => l.map Prod.fst).flatten
      rw [← hkeys1]
      exact hmem1
    · show t2 ∈ (ftags.map fun l => l.map Prod.fst).flatten
      rw [← hkeys1]
      exact hmem2

/-- Closed instance of the C3 theorem: a session with two pushes of the
same composite under G = L = 1, checked at the concrete output. -/
theorem dedup_restore_once_witness :
    ∃ out, run_session 1 1 false [(0, Composite.mk [] false false false 0)] 0
        [[PushSpec.quantV 0, PushSpec.quantV 0]] = some out ∧
      ∃ t1 t2 : Tag, t1 ≠ t2 ∧
        t1 ∈ sessionTags out ∧ t2 ∈ sessionTags out ∧
        (∃ compF, alookup out.sFinal.compHeap 0 = some compF ∧
          compF.restoreCount = (Composite.mk [] false false false 0).restoreCount + 1) ∧
        (∀ v, (t1, v) ∈ out.pops.flatten → v = PopVal.comp 0) ∧
        (∀ v, (t2, v) ∈ out.pops.flatten → v = PopVal.comp 0) := by
  rcases hrun : run_session 1 1 false [(0, Composite.mk [] false false false 0)] 0
      [[PushSpec.quantV 0, PushSpec.quantV 0]] with _ | out
  · exact absurd hrun (by decide)
  · exact ⟨out, rfl,
      dedup_restore_once 1 1 false [(0, Composite.mk [] false false false 0)] 0
        [[PushSpec.quantV 0, PushSpec.quantV 0]] out 0
        (Composite.mk [] false false false 0) (by decide) (by decide) hrun⟩

/-- Every binding of an ainsert result is an old binding or the inserted
pair. -/
theorem mem_ainsert_cases {α β : Type} [DecidableEq α] :
    ∀ (m : List (α × β)) (k : α) (v : β) (r : α × β),
      r ∈ ainsert m k v → r ∈ m ∨ r = (k, v) := by
  intro m k v
  induction m with
  | nil =>
      intro r hr
      simp only [ainsert, List.mem_singleton] at hr
      exact Or.inr hr
  | cons p rest ih =>
      intro r hr
      rcases p with ⟨k', v'⟩
      by_cases h : k' = k
      · simp only [ainsert, if_pos h] at hr
        rcases List.mem_cons.mp hr with h1 | h1
        · exact Or.inr h1
        · exact Or.inl (List.mem_cons_of_mem _ h1)
      · simp only [ainsert, if_neg h] at hr
        rcases List.mem_cons.mp hr with h1 | h1
        · exact Or.inl (List.mem_cons.mpr (Or.inl h1))
        · rcases ih r h1 with h2 | h2
          · exact Or.inl (List.mem_cons_of_mem _ h2)
          · exact Or.inr h2

/-- Every binding surviving an aremove was a binding of the original. -/
theorem mem_aremove {α β : Type} [DecidableEq α] :
    ∀ (m : List (α × β)) (k : α) (r : α × β), r ∈ aremove m k → r ∈ m := by
  intro m k
  induction m with
  | nil =>
      intro r hr
      simp [aremove] at hr
  | cons p rest ih =>
      intro r hr
      rcases p with ⟨k', v'⟩
      by_cases h : k' = k
      · simp only [aremove, if_pos h] at hr
        exact List.mem_cons_of_mem _ hr
      · simp only [aremove, if_neg h] at hr
        rcases List.mem_cons.mp hr with h1 | h1
        · exact List.mem_cons.mpr (Or.inl h1)
        · exact List.mem_cons_of_mem _ (ih r h1)

/-- ainsert keeps the key list duplicate-free. -/
theorem ainsert_keys_nodup {α β : Type} [DecidableEq α]
    (m : List (α × β)) (k : α) (v : β) (h : (m.map Prod.fst).Nodup) :
    ((ainsert m k v).map Prod.fst).Nodup := by
  rcases hk : alookup m k with _ | v0
  · rw [ainsert_app_of_fresh v hk, List.map_append]
    exact nodup_append_singleton h (alookup_eq_none.mp hk)
  · rw [ainsert_keys_of_mem v (alookup_isSome.mp (by rw [hk]; rfl))]
    exact h

/-- A heap write that preserves the Float8 kind and the transpose flag of
the written composite preserves the tracked composite's clause. -/
theorem f6_heap_write (f0 : Bool) (c cid : Nat)
    (heap : List (Nat × Composite)) (comp comp' : Composite)
    (hc : ∃ cc, alookup heap c = some cc ∧ cc.isFloat8 = true ∧
      cc.transposeInvalid = f0)
    (hlook : alookup heap cid = some comp)
    (h8 : comp'.isFloat8 = comp.isFloat8)
    (hfl : comp'.transposeInvalid = comp.transposeInvalid) :
    ∃ cc, alookup (ainsert heap cid comp') c = some cc ∧
      cc.isFloat8 = true ∧ cc.transposeInvalid = f0 := by
  obtain ⟨cc, hcc, hc8, hcf⟩ := hc
  by_cases he : c = cid
  · subst he
    have hec : cc = comp := Option.some.inj (hcc.symm.trans hlook)
    refine ⟨comp', alookup_ainsert_self _ _ _, ?_, ?_⟩
    · rw [h8, ← hec]
      exact hc8
    · rw [hfl, ← hec]
      exact hcf
  · exact ⟨cc, by rw [alookup_ainsert_ne _ _ _ _ he]; exact hcc, hc8, hcf⟩

/-- Removing a tag from the fp8 object map preserves the cache clause and
the key Nodup. -/
theorem f6_fp8_remove (f0 : Bool) (c : Nat) (m : List (Tag × Nat))
    (cache : List (Tag × Bool)) (tag : Tag)
    (hnd : (m.map Prod.fst).Nodup)
    (hpair : ∀ t b, alookup m t = some c →
      alookup cache t = some b → b = f0) :
    (∀ t b, alookup (aremove m tag) t = some c →
      alookup cache t = some b → b = f0) ∧
    ((aremove m tag).map Prod.fst).Nodup := by
  constructor
  · intro t b hfp hc
    by_cases ht : t = tag
    · subst ht
      rw [alookup_aremove_self_of_nodup hnd] at hfp
      exact Option.noConfusion hfp
    · rw [alookup_aremove_ne _ _ _ ht] at hfp
      exact hpair t b hfp hc
  · exact List.Nodup.sublist (aremove_keys_sublist _ _) hnd

/-- The dedup step preserves the transpose-flag invariant:
restore_from_saved touches neither the Float8 kind nor the flag. -/
theorem f6_dedup_restore (tag : Tag) (tl : List Entry) (s s' : AState)
    (f0 : Bool) (c : Nat) (h : dedup_restore_step tag tl s = some s')
    (hf : F6 f0 c s) : F6 f0 c s' := by
  unfold dedup_restore_step at h
  by_cases hdl : tag ∈ s.dereferencing_list
  · rw [if_pos hdl] at h
    have hs' : s' = _ := (Option.some.inj h).symm
    subst hs'
    exact hf
  · rw [if_neg hdl] at h
    simp only [Option.bind_eq_bind, Option.pure_def, Option.bind_eq_some] at h
    obtain ⟨cid, hcid, comp, hcomp, h⟩ := h
    have hs' : s' = _ := (Option.some.inj h).symm
    subst hs'
    have hh := f6_heap_write f0 c cid s.compHeap comp
      (restore_from_saved comp tl) hf.1 hcomp rfl rfl
    exact ⟨hh, hf.2.1, hf.2.2.1, hf.2.2.2⟩

/-- The _do_not_clear write preserves the transpose-flag invariant. -/
theorem f6_do_not_clear (cid : Nat) (s s' : AState) (f0 : Bool) (c : Nat)
    (h : set_do_not_clear_step cid s = some s') (hf : F6 f0 c s) :
    F6 f0 c s' := by
  unfold set_do_not_clear_step at h
  by_cases hdb : s.double_buffering = true
  · rw [if_pos hdb] at h
    simp only [Option.bind_eq_bind, Option.pure_def, Option.bind_eq_some] at h
    obtain ⟨comp, hcomp, h⟩ := h
    have hs' : s' = _ := (Option.some.inj h).symm
    subst hs'
    have hh := f6_heap_write f0 c cid s.compHeap comp
      { comp with do_not_clear := true } hf.1 hcomp rfl rfl
    exact ⟨hh, hf.2.1, hf.2.2.1, hf.2.2.2⟩
  · rw [if_neg hdb] at h
    rw [← Option.some.inj h]
    exact hf

/-- The Float8 write-back step preserves the transpose-flag invariant:
the value written into the composite is the snapshot popped from the
cache, which the invariant pins to f0 when the tag is registered to the
tracked composite. -/
theorem f6_reload_float8 (tag : Tag) (s s' : AState) (f0 : Bool) (c : Nat)
    (h : reload_float8_step tag s = some s') (hf : F6 f0 c s) :
    F6 f0 c s' := by
  unfold reload_float8_step at h
  simp only [Option.bind_eq_bind, Option.pure_def] at h
  rw [Option.bind_eq_some] at h
  obtain ⟨cid, hcid, h⟩ := h
  rw [Option.bind_eq_some] at h
  obtain ⟨comp, hcomp, h⟩ := h
  by_cases hf8 : comp.isFloat8 = true
  · rw [if_pos hf8] at h
    simp only [Option.bind_eq_some] at h
    obtain ⟨b, hb, h⟩ := h
    have hs' : s' = _ := (Option.some.inj h).symm
    subst hs'
    refine ⟨?_, ?_, hf.2.2.1, List.Nodup.sublist (aremove_keys_sublist _ _)
      hf.2.2.2⟩
    · by_cases he : c = cid
      · subst he
        obtain ⟨cc, hcc, hc8, hcf⟩ := hf.1
        have hec : cc = comp := Option.some.inj (hcc.symm.trans hcomp)
        have hbf : b = f0 := hf.2.1 tag b hcid hb
        exact ⟨{ comp with transposeInvalid := b },
          alookup_ainsert_self _ _ _, by rw [← hec] at hf8; rw [← hec]; exact hf8,
          hbf⟩
      · obtain ⟨cc, hcc, hc8, hcf⟩ := hf.1
        exact ⟨cc, by rw [alookup_ainsert_ne _ _ _ _ he]; exact hcc, hc8, hcf⟩
    · intro t b' hfp hc
      by_cases ht : t = tag
      · subst ht
        rw [alookup_aremove_self_of_nodup hf.2.2.2] at hc
        exact Option.noConfusion hc
      · rw [alookup_aremove_ne _ _ _ ht] at hc
        exact hf.2.1 t b' hfp hc
  · rw [if_neg hf8] at h
    rw [← Option.some.inj h]
    exact hf

/-- tensor_push preserves the transpose-flag invariant: the snapshot
written into the cache on a Float8 push is the flag the pushed composite
carries at capture time. -/
theorem f6_push (chk : PTensor → Bool) (s s' : AState) (p : PushSpec)
    (tag : Tag) (f0 : Bool) (c : Nat)
    (h : async_tensor_push chk s p = some (s', tag)) (hf : F6 f0 c s) :
    F6 f0 c s' := by
  rcases p with t | cid
  · rw [async_tensor_push] at h
    by_cases hst : t.isStray = true
    · rw [if_pos hst] at h
      have h1 := Option.some.inj h
      have hs' : s' = _ := (pair_eq_fst h1).symm
      subst hs'
      exact hf
    · rw [if_neg hst] at h
      by_cases hmem : amem s.tensor_tag_to_state
          (s.current_group, s.tensor_count_current_group)
      · rw [if_pos hmem] at h
        simp at h
      · rw [if_neg hmem] at h
        by_cases hc : s.current_group < (s.num_offload_group : Int) ∧
            chk t = true
        · rw [if_pos hc] at h
          have h1 := Option.some.inj h
          have hs' : s' = _ := (pair_eq_fst h1).symm
          subst hs'
          exact hf
        · rw [if_neg hc] at h
          have h1 := Option.some.inj h
          have hs' : s' = _ := (pair_eq_fst h1).symm
          subst hs'
          exact hf
  · rw [async_tensor_push] at h
    by_cases hmem : amem s.tensor_tag_to_state
        (s.current_group, s.tensor_count_current_group)
    · rw [if_pos hmem] at h
      simp at h
    · rw [if_neg hmem] at h
      simp only [Option.bind_eq_bind, Option.pure_def] at h
      rw [Option.bind_eq_some] at h
      obtain ⟨comp, hcomp, h⟩ := h
      have hpairB : ∀ t0 b, alookup (ainsert s.fp8_tensor_object_map
          (s.current_group, s.tensor_count_current_group) cid) t0 = some c →
          alookup (if (prepare_for_saving comp).2.isFloat8 = true then
            ainsert s.float8_transpose_cache_valid
              (s.current_group, s.tensor_count_current_group)
              (prepare_for_saving comp).2.transposeInvalid
          else s.float8_transpose_cache_valid) t0 = some b → b = f0 := by
        intro t0 b hfp hcache
        by_cases ht : t0 = (s.current_group, s.tensor_count_current_group)
        · subst ht
          rw [alookup_ainsert_self] at hfp
          have hcc : cid = c := Option.some.inj hfp
          obtain ⟨cc, hcc2, hc8, hcf⟩ := hf.1
          rw [hcc] at hcomp
          have hec : comp = cc := Option.some.inj (hcomp.symm.trans hcc2)
          have hp8 : (prepare_for_saving comp).2.isFloat8 = true := by
            show comp.isFloat8 = true
            rw [hec]
            exact hc8
          rw [if_pos hp8] at hcache
          rw [alookup_ainsert_self] at hcache
          have hbv : (prepare_for_saving comp).2.transposeInvalid = b :=
            Option.some.inj hcache
          rw [← hbv]
          show comp.transposeInvalid = f0
          rw [hec]
          exact hcf
        · rw [alookup_ainsert_ne _ _ _ _ ht] at hfp
          by_cases hp8 : (prepare_for_saving comp).2.isFloat8 = true
          · rw [if_pos hp8] at hcache
            rw [alookup_ainsert_ne _ _ _ _ ht] at hcache
            exact hf.2.1 t0 b hfp hcache
          · rw [if_neg hp8] at hcache
            exact hf.2.1 t0 b hfp hcache
      have hndB1 : ((ainsert s.fp8_tensor_object_map
          (s.current_group, s.tensor_count_current_group) cid).map
          Prod.fst).Nodup := ainsert_keys_nodup _ _ _ hf.2.2.1
      have hndB2 : ((if (prepare_for_saving comp).2.isFloat8 = true then
          ainsert s.float8_transpose_cache_valid
            (s.current_group, s.tensor_count_current_group)
            (prepare_for_saving comp).2.transposeInvalid
          else s.float8_transpose_cache_valid).map Prod.fst).Nodup := by
        by_cases hp8 : (prepare_for_saving comp).2.isFloat8 = true
        · rw [if_pos hp8]
          exact ainsert_keys_nodup _ _ _ hf.2.2.2
        · rw [if_neg hp8]
          exact hf.2.2.2
      have hheapB := f6_heap_write f0 c cid s.compHeap comp
        (prepare_for_saving comp).2 hf.1 hcomp rfl rfl
      by_cases hcl : (push_quant_loop chk
          (decide (s.current_group < (s.num_offload_group : Int))) cid
          (prepare_for_saving comp).1).2.2 = true
      · rw [if_pos hcl] at h
        rw [Option.bind_eq_some] at h
        obtain ⟨c2, hc2, h⟩ := h
        have h1 := Option.some.inj h
        have hs' : s' = _ := (pair_eq_fst h1).symm
        subst hs'
        have hheapC := f6_heap_write f0 c cid _ c2 (composite_clear c2)
          hheapB hc2 rfl rfl
        exact ⟨hheapC, hpairB, hndB1, hndB2⟩
      · rw [if_neg hcl] at h
        have h1 := Option.some.inj h
        have hs' : s' = _ := (pair_eq_fst h1).symm
        subst hs'
        exact ⟨hheapB, hpairB, hndB1, hndB2⟩

set_option maxHeartbeats 800000 in
theorem f6_pop (s : AState) (tag : Tag) (s' : AState) (v : PopVal)
    (f0 : Bool) (c : Nat) (h : async_tensor_pop s tag = some (s', v))
    (hf : F6 f0 c s) : F6 f0 c s' := by
  unfold async_tensor_pop at h
  rcases hsl : alookup s.tensor_tag_to_state tag with _ | slot
  · rw [hsl] at h
    simp only [Option.pure_def, Option.bind_eq_bind, Option.none_bind] at h
    exact absurd h (by simp)
  · rw [hsl] at h
    rcases slot with t0 | ⟨d0, h0⟩ | es | cidc
    · simp only [Option.pure_def, Option.bind_eq_bind, Option.some_bind] at h
      have h1 := Option.some.inj h
      have hs' : s' = _ := (pair_eq_fst h1).symm
      subst hs'
      exact hf
    · simp only [Option.pure_def, Option.bind_eq_bind, Option.some_bind] at h
      exact absurd h (by simp)
    · simp only [Option.pure_def, Option.bind_eq_bind, Option.some_bind,
        Option.bind_eq_some] at h
      obtain ⟨s1, hded, cid, hfp8look, s3, hset, h⟩ := h
      have h1 := Option.some.inj h
      have hs' : s' = _ := (pair_eq_fst h1).symm
      subst hs'
      have hA : F6 f0 c s1 := f6_dedup_restore tag es _ s1 f0 c hded hf
      have hB : F6 f0 c { s1 with
          fp8_tensor_object_map := aremove s1.fp8_tensor_object_map tag } := by
        have hr := f6_fp8_remove f0 c s1.fp8_tensor_object_map
          s1.float8_transpose_cache_valid tag hA.2.2.1 hA.2.1
        exact ⟨hA.1, hr.1, hr.2, hA.2.2.2⟩
      have hC : F6 f0 c s3 := f6_do_not_clear cid _ s3 f0 c hset hB
      exact hC
    · simp only [Option.pure_def, Option.bind_eq_bind, Option.some_bind,
        Option.bind_eq_some] at h
      obtain ⟨s3, hset, h⟩ := h
      have h1 := Option.some.inj h
      have hs' : s' = _ := (pair_eq_fst h1).symm
      subst hs'
      exact f6_do_not_clear cidc _ s3 f0 c hset hf

/-- One bulk-reload iteration preserves the transpose-flag invariant. -/
theorem f6_reload_entry (s : AState) (dbIdx bufIdx : Nat) (g : Int)
    (ptag : Tag) (sl : Slot) (s' : AState) (b' : Nat) (f0 : Bool) (c : Nat)
    (h : bulk_reload_entry s dbIdx bufIdx g (ptag, sl) = some (s', b'))
    (hf : F6 f0 c s) : F6 f0 c s' := by
  unfold bulk_reload_entry at h
  by_cases hg : (ptag, sl).1.1 = g
  · rw [if_pos hg] at h
    simp only [Option.bind_eq_bind, Option.pure_def] at h
    rw [Option.bind_eq_some] at h
    obtain ⟨rb0, hrb0, h⟩ := h
    rcases hp : sl with t | ⟨d, host⟩ | es | cid
    all_goals (try rw [show ((ptag, sl) : Tag × Slot).2 = sl from rfl] at h)
    all_goals rw [hp] at h
    · have h1 := Option.some.inj h
      have hs' : s' = _ := (pair_eq_fst h1).symm
      subst hs'
      exact hf
    · rw [Option.bind_eq_some] at h
      obtain ⟨rb, hrb, h⟩ := h
      rw [Option.bind_eq_some] at h
      obtain ⟨⟨tt, nid⟩, hrl, h⟩ := h
      have h1 := Option.some.inj h
      have hs' : s' = _ := (pair_eq_fst h1).symm
      subst hs'
      exact hf
    · rw [Option.bind_eq_some] at h
      obtain ⟨⟨s1, b1, tl⟩, hel, h⟩ := h
      obtain ⟨n1, rfl⟩ := reload_list_elems_shape _ _ _ _ _ _ _ hel
      rw [Option.bind_eq_some] at h
      obtain ⟨s2, hded, h⟩ := h
      rw [Option.bind_eq_some] at h
      obtain ⟨s3, hf8, h⟩ := h
      rw [Option.bind_eq_some] at h
      obtain ⟨cid2, hcid2, h⟩ := h
      have h1 := Option.some.inj h
      have hs' : s' = _ := (pair_eq_fst h1).symm
      subst hs'
      have hA : F6 f0 c s2 := f6_dedup_restore ptag tl _ s2 f0 c hded hf
      have hB : F6 f0 c s3 := f6_reload_float8 ptag s2 s3 f0 c hf8 hA
      have hr := f6_fp8_remove f0 c s3.fp8_tensor_object_map
        s3.float8_transpose_cache_valid ptag hB.2.2.1 hB.2.1
      exact ⟨hB.1, hr.1, hr.2, hB.2.2.2⟩
    · have h1 := Option.some.inj h
      have hs' : s' = _ := (pair_eq_fst h1).symm
      subst hs'
      exact hf
  · rw [if_neg hg] at h
    have h1 := Option.some.inj h
    have hs' : s' = _ := (pair_eq_fst h1).symm
    subst hs'
    exact hf

/-- The bulk-reload fold preserves the transpose-flag invariant. -/
theorem f6_reload_fold (dbIdx : Nat) (g : Int) (f0 : Bool) (c : Nat) :
    ∀ (li : List (Tag × Slot)) (s : AState) (bufIdx : Nat) (s' : AState),
      F6 f0 c s → bulk_reload_fold dbIdx g s bufIdx li = some s' →
      F6 f0 c s' := by
  intro li
  induction li with
  | nil =>
      intro s bufIdx s' hf h
      simp only [bulk_reload_fold, Option.some_inj] at h
      rw [← h]
      exact hf
  | cons p ps ih =>
      intro s bufIdx s' hf h
      rw [bulk_reload_fold] at h
      simp only [Option.bind_eq_bind, Option.bind_eq_some] at h
      obtain ⟨⟨s1, b1⟩, hstep, hrest⟩ := h
      rcases p with ⟨ptag, sl⟩
      exact ih s1 b1 s'
        (f6_reload_entry s dbIdx bufIdx g ptag sl s1 b1 f0 c hstep hf) hrest

/-- bulk_reload_group preserves the transpose-flag invariant. -/
theorem f6_reload_group (s : AState) (g : Nat) (s' : AState) (f0 : Bool)
    (c : Nat) (h : bulk_reload_group s g = some s') (hf : F6 f0 c s) :
    F6 f0 c s' := by
  unfold bulk_reload_group at h
  by_cases hg : g < s.num_offload_group
  · rw [if_pos hg] at h
    exact f6_reload_fold (g % 2) (g : Int) f0 c s.tensor_tag_to_state s 0 s'
      hf h
  · rw [if_neg hg] at h
    simp at h

/-- The backward commit barrier preserves the transpose-flag invariant. -/
theorem f6_commit_bwd (s s' : AState) (f0 : Bool) (c : Nat)
    (h : on_group_commit_backward s = some s') (hf : F6 f0 c s) :
    F6 f0 c s' := by
  unfold on_group_commit_backward at h
  by_cases hneg : s.current_group - 1 < 0
  · rw [if_pos hneg] at h
    simp at h
  · rw [if_neg hneg] at h
    simp only [Option.bind_eq_bind, Option.pure_def] at h
    rw [Option.bind_eq_some] at h
    obtain ⟨s1, h1, h2⟩ := h
    have hfDec : F6 f0 c { s with current_group := s.current_group - 1 } := hf
    have hstep : F6 f0 c s1 := by
      unfold bwd_window_step at h1
      simp only [Option.bind_eq_bind, Option.pure_def] at h1
      rw [Option.bind_eq_some] at h1
      obtain ⟨w, hw, h1⟩ := h1
      by_cases hww : w = ({ s with
          current_group := s.current_group - 1 } : AState).current_group
      · rw [if_pos hww] at h1
        rw [Option.bind_eq_some] at h1
        obtain ⟨sr, hrel, hcc⟩ := h1
        have hA : F6 f0 c sr := f6_reload_group _ _ sr f0 c hrel hfDec
        have hs1 : s1 = _ := (Option.some.inj hcc).symm
        subst hs1
        exact hA
      · rw [if_neg hww] at h1
        have hs1 : s1 = _ := (Option.some.inj h1).symm
        subst hs1
        exact hfDec
    by_cases hz : s1.current_group = 0
    · rw [if_pos hz] at h2
      rw [← Option.some.inj h2]
      exact hstep
    · rw [if_neg hz] at h2
      rw [← Option.some.inj h2]
      exact hstep

/-- The forward commit barrier preserves the transpose-flag invariant:
it touches neither the composite heap, the fp8 object map nor the
transpose cache. -/
theorem f6_commit_fwd (chk : PTensor → Bool) (s s' : AState) (f0 : Bool)
    (c : Nat) (h : on_group_commit_forward chk s = some s')
    (hf : F6 f0 c s) : F6 f0 c s' := by
  obtain ⟨_, _, _, _, _, _, _, hfp, hcache, _, hheap⟩ :=
    on_group_commit_forward_shape chk s s' h
  refine ⟨?_, ?_, ?_, ?_⟩
  · rw [hheap]
    exact hf.1
  · rw [hfp, hcache]
    exact hf.2.1
  · rw [hfp]
    exact hf.2.2.1
  · rw [hcache]
    exact hf.2.2.2

/-- Pushing a layer preserves the transpose-flag invariant. -/
theorem f6_push_layer (chk : PTensor → Bool) (f0 : Bool) (c : Nat) :
    ∀ (ps : List PushSpec) (s s' : AState) (prs : List (Tag × PushSpec)),
      F6 f0 c s → push_layer chk s ps = some (s', prs) → F6 f0 c s' := by
  intro ps
  induction ps with
  | nil =>
      intro s s' prs hf h
      simp only [push_layer, Option.some_inj] at h
      have hs' : s' = s := (pair_eq_fst h).symm
      subst hs'
      exact hf
  | cons p ps2 ih =>
      intro s s' prs hf h
      rw [push_layer] at h
      simp only [Option.bind_eq_bind, Option.pure_def, Option.bind_eq_some] at h
      obtain ⟨⟨s1, tg⟩, hpush, ⟨s2, rest⟩, hrest, heq⟩ := h
      have hs' : s' = s2 := (pair_eq_fst (Option.some.inj heq)).symm
      subst hs'
      exact ih s1 s' rest (f6_push chk s s1 p tg f0 c hpush hf) hrest

/-- The forward phase preserves the transpose-flag invariant. -/
theorem f6_run_forward (chk : PTensor → Bool) (f0 : Bool) (c : Nat) :
    ∀ (ls : List (List PushSpec)) (s s' : AState)
      (tgs : List (List (Tag × PushSpec))),
      F6 f0 c s → run_forward chk s ls = some (s', tgs) → F6 f0 c s' := by
  intro ls
  induction ls with
  | nil =>
      intro s s' tgs hf h
      simp only [run_forward, Option.some_inj] at h
      have hs' : s' = s := (pair_eq_fst h).symm
      subst hs'
      exact hf
  | cons l ls2 ih =>
      intro s s' tgs hf h
      rw [run_forward] at h
      simp only [Option.bind_eq_bind, Option.pure_def, Option.bind_eq_some] at h
      obtain ⟨⟨s1, prs⟩, hlayer, s2, hcommit, ⟨s3, rest⟩, hrest, heq⟩ := h
      have hs' : s' = s3 := (pair_eq_fst (Option.some.inj heq)).symm
      subst hs'
      exact ih s2 s' rest (f6_commit_fwd chk s1 s2 f0 c hcommit
        (f6_push_layer chk f0 c l s s1 prs hf hlayer)) hrest

/-- Popping a layer preserves the transpose-flag invariant. -/
theorem f6_pop_layer (f0 : Bool) (c : Nat) :
    ∀ (ps : List (Tag × PushSpec)) (s s' : AState)
      (pv : List (Tag × PopVal)),
      F6 f0 c s → pop_layer s ps = some (s', pv) → F6 f0 c s' := by
  intro ps
  induction ps with
  | nil =>
      intro s s' pv hf h
      simp only [pop_layer, Option.some_inj] at h
      have hs' : s' = s := (pair_eq_fst h).symm
      subst hs'
      exact hf
  | cons p ps2 ih =>
      intro s s' pv hf h
      rcases p with ⟨tg, sp⟩
      rw [pop_layer] at h
      simp only [Option.bind_eq_bind, Option.pure_def, Option.bind_eq_some] at h
      obtain ⟨⟨s1, v⟩, hpop, ⟨s2, rest⟩, hrest, heq⟩ := h
      have hs' : s' = s2 := (pair_eq_fst (Option.some.inj heq)).symm
      subst hs'
      exact ih s1 s' rest (f6_pop s tg s1 v f0 c hpop hf) hrest

/-- The backward phase preserves the transpose-flag invariant. -/
theorem f6_run_backward (f0 : Bool) (c : Nat) :
    ∀ (ls : List (List (Tag × PushSpec))) (s s' : AState)
      (pv : List (List (Tag × PopVal))),
      F6 f0 c s → run_backward_rev s ls = some (s', pv) → F6 f0 c s' := by
  intro ls
  induction ls with
  | nil =>
      intro s s' pv hf h
      simp only [run_backward_rev, Option.some_inj] at h
      have hs' : s' = s := (pair_eq_fst h).symm
      subst hs'
      exact hf
  | cons l ls2 ih =>
      intro s s' pv hf h
      rw [run_backward_rev] at h
      simp only [Option.bind_eq_bind, Option.pure_def, Option.bind_eq_some] at h
      obtain ⟨s1, hcommit, ⟨s2, prs⟩, hpop, ⟨s3, rest⟩, hrest, heq⟩ := h
      have hs' : s' = s3 := (pair_eq_fst (Option.some.inj heq)).symm
      subst hs'
      exact ih s2 s' rest (f6_pop_layer f0 c l s1 s2 prs
        (f6_commit_bwd s s1 f0 c hcommit hf) hpop) hrest

/-- C6: Float8 transpose-cache flag preservation.  For every complete
session of the asynchronous handler and every Float8-like composite c
live on the heap at construction, the _transpose_invalid flag read at
push time is the flag the composite carries (the push snapshot stored in
float8_transpose_cache_valid equals it), bulk reload writes that
snapshot back unchanged, and hence the composite's flag after the whole
offload/reload cycle equals its value at capture. -/
theorem float8_transpose_flag_preserved (G L : Nat) (db : Bool)
    (heap0 : List (Nat × Composite)) (nid : Nat)
    (layers : List (List PushSpec)) (out : SessionOut)
    (c : Nat) (comp0 : Composite)
    (hheap0 : alookup heap0 c = some comp0)
    (hf8 : comp0.isFloat8 = true)
    (hrun : run_session G L db heap0 nid layers = some out) :
    ∃ compF, alookup out.sFinal.compHeap c = some compF ∧
      compF.isFloat8 = true ∧
      compF.transposeInvalid = comp0.transposeInvalid := by
  unfold run_session at hrun
  simp only [Option.bind_eq_bind, Option.pure_def, Option.bind_eq_some]
    at hrun
  obtain ⟨⟨s1, ftags⟩, hfwd, ⟨s2, pops⟩, hbwd, heq⟩ := hrun
  have h0 : F6 comp0.transposeInvalid c (async_init G L db heap0 nid) := by
    refine ⟨⟨comp0, ?_, hf8, rfl⟩, ?_, ?_, ?_⟩
    · show alookup heap0 c = some comp0
      exact hheap0
    · intro t b hfp hc
      have hfp' : alookup ([] : List (Tag × Nat)) t = some c := hfp
      simp [alookup] at hfp'
    · show (([] : List (Tag × Nat)).map Prod.fst).Nodup
      simp
    · show (([] : List (Tag × Bool)).map Prod.fst).Nodup
      simp
  have h1 : F6 comp0.transposeInvalid c s1 :=
    f6_run_forward activations_checker comp0.transposeInvalid c layers _ s1
      ftags h0 hfwd
  have h2 : F6 comp0.transposeInvalid c s2 :=
    f6_run_backward comp0.transposeInvalid c ftags.reverse s1 s2 pops h1 hbwd
  obtain ⟨compF, hl, h8c, hfv⟩ := h2.1
  rw [← Option.some.inj heq]
  exact ⟨compF, hl, h8c, hfv⟩

/-- Closed instance of the C6 theorem: one push of a Float8 composite
whose transpose flag is set, under G = L = 1, checked at the concrete
output. -/
theorem float8_transpose_flag_preserved_witness :
    ∃ out, run_session 1 1 false [(0, Composite.mk [] true true false 0)] 0
        [[PushSpec.quantV 0]] = some out ∧
      ∃ compF, alookup out.sFinal.compHeap 0 = some compF ∧
        compF.isFloat8 = true ∧
        compF.transposeInvalid = (Composite.mk [] true true false 0).transposeInvalid := by
  rcases hrun : run_session 1 1 false [(0, Composite.mk [] true true false 0)]
      0 [[PushSpec.quantV 0]] with _ | out
  · exact absurd hrun (by decide)
  · exact ⟨out, rfl,
      float8_transpose_flag_preserved 1 1 false
        [(0, Composite.mk [] true true false 0)] 0 [[PushSpec.quantV 0]] out 0
        (Composite.mk [] true true false 0) (by decide) (by decide) hrun⟩
